import Mathlib

/-!
Shallow embedding of the whisperlib networking core, used to settle the
specification claims about it.  Each section models one component directly
from its C++ source:

* `Conn` — `TcpConnection::Wrap`, `TcpConnection::InitializeRemoteAddress`
  and `TcpConnection::HandleDnsResult` / `DnsHostInfo::PickNextAddress`
  (`src/whisperlib/net/connection.cc`).
* `PollLoop` — `PollSelectorLoop::LoopStep` and
  `PollSelectorLoop::DesiresToPollEvents` (`src/whisperlib/net/selector_loop.cc`).
* `Timeouter` — the `Timeouter` class (`timeouter.h` / `timeouter.cc`).
* `Alarms` — the alarm registry of `Selector`
  (`src/whisperlib/net/selector.cc`), including the `std::push_heap` /
  `std::pop_heap` vector heap it uses.
* `Addr` — `IpAddress` / `HostPort` (`src/whisperlib/net/address.cc`),
  together with the glibc `inet_ntop` / `inet_pton` routines they call.
* `Mpmc` — the lock-free bounded MPMC queue
  (`src/whisperlib/sync/producer_consumer_queue_lockfree.h`) under a
  sequentially-consistent interleaving semantics.

Machine integers are modelled as `Nat` with explicit truncation where the
source can overflow; fallible C++ code returning `absl::Status` /
`absl::StatusOr` is modelled with `Option` / `Except`.
-/

namespace Conn

/-- Connection states of `TcpConnection` (`connection.h`). -/
inductive ConnState where
  | disconnected
  | resolving
  | connecting
  | connected
  | flushing
deriving DecidableEq, Repr

/-- Results of the kernel calls that `TcpConnection::Wrap` performs, one field
per call site, in call order.  A C call returning `int` reports success as `0`
and failure as `-1`; boolean fields summarise the composite helpers
(`SetSocketOptions`, `Selector::Register`) that only forward their own
failures. -/
structure KernelResults where
  setSocketOptionsOk : Bool
  registerOk : Bool
  getsocknameRet : Int
  getpeernameRet : Int
deriving DecidableEq, Repr

/-- Embedding of `TcpConnection::InitializeLocalAddress`: the source tests
`if (::getsockname(...) < 0)` and returns the errno status in that case,
otherwise parses the address and succeeds. -/
def initLocalAddress (getsocknameRet : Int) : Except Unit Unit :=
  if getsocknameRet < 0 then .error () else .ok ()

/-- Embedding of `TcpConnection::InitializeRemoteAddress`
(`connection.cc:1042`): the source tests `if (!::getpeername(...))` — which
is TRUE exactly when `getpeername` returned `0`, i.e. succeeded — and returns
the errno-derived error status on that branch; otherwise it parses the
(unfilled) address buffer and returns OK. -/
def initRemoteAddress (getpeernameRet : Int) : Except Unit Unit :=
  if ¬ (getpeernameRet ≠ 0) then .error () else .ok ()

/-- Embedding of `TcpConnection::Wrap` (`connection.cc:618`): apply socket
options, register with the selector, initialize the local then the remote
address, enable read events, and only then mark the connection `CONNECTED`.
Every step short-circuits through `RETURN_IF_ERROR`; on any failure the
`CallOnReturn` guard resets the fd and the state is left as it was
(`DISCONNECTED` for a freshly wrapped connection). -/
def wrap (k : KernelResults) : Except Unit ConnState := do
  if ¬ k.setSocketOptionsOk then throw ()
  if ¬ k.registerOk then throw ()
  match initLocalAddress k.getsocknameRet with
  | .error e => throw e
  | .ok _ => pure ()
  match initRemoteAddress k.getpeernameRet with
  | .error e => throw e
  | .ok _ => pure ()
  pure ConnState.connected

/-- Resolved addresses held by a `DnsHostInfo`, with the atomic round-robin
counter `next_ip_` made explicit.  Addresses are abstract (`α`). -/
structure DnsHostInfo (α : Type) where
  ipv4 : List α
  ipv6 : List α
  nextIp : Nat
deriving DecidableEq, Repr

/-- Embedding of `DnsHostInfo::PickNextAddress` (`connection.cc:1725`):
returns none iff no address is known, else round-robins through
`ipv4_ ++ ipv6_` via `next_ip_.fetch_add(1) % (ipv4_.size() + ipv6_.size())`. -/
def pickNextAddress (info : DnsHostInfo α) : Option α :=
  if info.ipv4.isEmpty ∧ info.ipv6.isEmpty then none
  else (info.ipv4 ++ info.ipv6).get? (info.nextIp % (info.ipv4.length + info.ipv6.length))

/-- Observable outcome of `TcpConnection::HandleDnsResult` once it runs on the
selector thread in state `RESOLVING`. -/
inductive DnsOutcome (α : Type) where
  /-- `InternalClose(last_error, close_on_resolve)`: a close ordered during the
  resolve is honored. -/
  | deferredClose (callHandler : Bool)
  /-- `InternalClose(status, true)` with a non-OK status. -/
  | closedWithError
  /-- `Connect(connect_addr)` re-invoked with the picked address. -/
  | connectCalled (ip : α)
  /-- `absl::optional::value()` evaluated on an empty optional. -/
  | emptyOptionalAccess
deriving DecidableEq, Repr

/-- Embedding of the decision logic of `TcpConnection::HandleDnsResult`
(`connection.cc:1108`): if a close was requested honor it; on a DNS error
close with that error; otherwise the source tests
`if (ABSL_PREDICT_FALSE(ip.has_value()))` and builds the
"No valid IP address was resolved" internal error on THAT branch (leading to
`InternalClose`), while the else branch — reached when `ip` is empty —
evaluates `ip.value()` and calls `Connect` with it. -/
def handleDnsResult (closeOnResolve : Option Bool)
    (info : Except Unit (DnsHostInfo α)) : DnsOutcome α :=
  match closeOnResolve with
  | some b => .deferredClose b
  | none =>
    match info with
    | .error _ => .closedWithError
    | .ok i =>
      match pickNextAddress i with
      | some _ => .closedWithError
      | none => .emptyOptionalAccess

end Conn

namespace PollLoop

/-- Linux `poll.h` constant. -/
def POLLIN : Nat := 0x001

/-- Linux `poll.h` constant. -/
def POLLPRI : Nat := 0x002

/-- Linux `poll.h` constant. -/
def POLLOUT : Nat := 0x004

/-- Linux `poll.h` constant. -/
def POLLERR : Nat := 0x008

/-- Linux `poll.h` constant. -/
def POLLHUP : Nat := 0x010

/-- Linux `poll.h` constant. -/
def POLLRDHUP : Nat := 0x2000

/-- `SelectDesire::kWantRead` (`selector_event_data.h`). -/
def kWantRead : Nat := 1

/-- `SelectDesire::kWantWrite` (`selector_event_data.h`). -/
def kWantWrite : Nat := 2

/-- `SelectDesire::kWantError` (`selector_event_data.h`). -/
def kWantError : Nat := 4

/-- Embedding of `PollSelectorLoop::DesiresToPollEvents`
(`selector_loop.cc:237`). -/
def desiresToPollEvents (desires : Nat) : Nat :=
  (if desires &&& kWantRead ≠ 0 then POLLIN ||| POLLRDHUP else 0) |||
  (if desires &&& kWantWrite ≠ 0 then POLLOUT else 0) |||
  (if desires &&& kWantError ≠ 0 then POLLERR ||| POLLHUP else 0)

/-- One `struct pollfd` entry of the dense array kept by `PollSelectorLoop`:
the requested `events` mask and the `revents` mask filled in by `poll`. -/
structure Pollfd where
  fd : Int
  events : Nat
  revents : Nat
deriving DecidableEq, Repr

/-- The observed-desires word computed for one event inside
`PollSelectorLoop::LoopStep` (`selector_loop.cc:264`).  The error bit tests
`event.revents & (POLLERR | POLLHUP | POLLRDHUP)`, the read bit tests
`event.revents & (POLLIN | POLLPRI)`, and the write bit tests
`event.events & POLLOUT` — the REQUESTED mask, exactly as in the source. -/
def loopStepDesire (e : Pollfd) : Nat :=
  (if e.revents &&& (POLLERR ||| POLLHUP ||| POLLRDHUP) ≠ 0 then kWantError else 0) |||
  (if e.revents &&& (POLLIN ||| POLLPRI) ≠ 0 then kWantRead else 0) |||
  (if e.events &&& POLLOUT ≠ 0 then kWantWrite else 0)

/-- Embedding of the event-collection loop of `PollSelectorLoop::LoopStep`:
entries whose `revents` is zero are skipped, every other entry yields
`(user data, observed desires, raw revents)`.  The `fd → user data` table
lookup is represented by returning the fd itself as the user datum. -/
def loopStep (fds : List Pollfd) : List (Int × Nat × Nat) :=
  fds.filterMap fun e =>
    if e.revents = 0 then none
    else some (e.fd, loopStepDesire e, e.revents)

end PollLoop

namespace Timeouter

/-- Lookup in an association-list model of `absl::flat_hash_map`. -/
def lookupKV (m : List (Int × Nat)) (k : Int) : Option Nat :=
  match m with
  | [] => none
  | (k0, v0) :: rest => if k0 = k then some v0 else lookupKV rest k

/-- Erase in an association-list model of `absl::flat_hash_map`; returns the
new map and how many entries were erased (the return value of
`flat_hash_map::erase`). -/
def eraseKV (m : List (Int × Nat)) (k : Int) : List (Int × Nat) × Nat :=
  match m with
  | [] => ([], 0)
  | (k0, v0) :: rest =>
    if k0 = k then (rest, 1)
    else
      let r := eraseKV rest k
      ((k0, v0) :: r.1, r.2)

/-- State of a `Timeouter` together with the alarm map of its selector:
`timeouts` models `timeouts_` (timeout id → alarm id), `selectorAlarms` the
ids currently registered in `Selector::alarms_`, and `nextAlarmId` the
selector's `alarm_id_` counter. -/
structure State where
  timeouts : List (Int × Nat)
  selectorAlarms : List Nat
  nextAlarmId : Nat
deriving DecidableEq, Repr

/-- The empty state of a freshly built `Timeouter`. -/
def initState : State := ⟨[], [], 0⟩

/-- Embedding of `Selector::RegisterAlarm` as seen by `Timeouter`: a fresh
alarm id is allocated and recorded. -/
def selRegisterAlarm (s : State) : Nat × State :=
  (s.nextAlarmId,
   { s with selectorAlarms := s.nextAlarmId :: s.selectorAlarms,
            nextAlarmId := s.nextAlarmId + 1 })

/-- Embedding of `Selector::UnregisterAlarm` as seen by `Timeouter`: the id is
erased from the selector's alarm map (a no-op when absent). -/
def selUnregisterAlarm (s : State) (aid : Nat) : State :=
  { s with selectorAlarms := s.selectorAlarms.filter (fun a => a ≠ aid) }

/-- Embedding of `Timeouter::SetTimeout` (`timeouter.cc`): when the timeout id
already has an alarm the old alarm is unregistered and the mapping is
replaced, otherwise a fresh mapping is inserted. -/
def setTimeout (s : State) (tid : Int) : State :=
  match lookupKV s.timeouts tid with
  | some oldAid =>
    let s1 := selUnregisterAlarm s oldAid
    let (aid, s2) := selRegisterAlarm s1
    { s2 with timeouts := s2.timeouts.map (fun kv => if kv.1 = tid then (tid, aid) else kv) }
  | none =>
    let (aid, s2) := selRegisterAlarm s
    { s2 with timeouts := (tid, aid) :: s2.timeouts }

/-- Embedding of `Timeouter::ClearTimeout` (`timeouter.cc`): look the timeout
id up in `timeouts_`; when absent return `false`; when present unregister the
mapped alarm and return `true`.  The source does NOT erase the map entry. -/
def clearTimeout (s : State) (tid : Int) : Bool × State :=
  match lookupKV s.timeouts tid with
  | none => (false, s)
  | some aid => (true, selUnregisterAlarm s aid)

/-- Embedding of `Timeouter::ProcessTimeout` (`timeouter.cc`): erase the
mapping and invoke the owner's callback only when an entry was erased.
Returns whether the callback fires. -/
def processTimeout (s : State) (tid : Int) : Bool × State :=
  let r := eraseKV s.timeouts tid
  (r.2 ≠ 0, { s with timeouts := r.1 })

end Timeouter

namespace Alarms

/-- Entry of the `alarm_timeouts_` vector: `(deadline, alarm id)`, deadlines
in nanoseconds as `Nat`. -/
abbrev Entry := Nat × Nat

/-- Embedding of `CompareAlarms` (`selector.cc:29`): `a.first > b.first`. -/
def compareAlarms (a b : Entry) : Bool := a.1 > b.1

/-- Element read with a default, standing for vector indexing. -/
def getP (v : List Entry) (i : Nat) : Entry := v.getD i (0, 0)

/-- Exchange of two vector positions (no-op when an index is out of range,
which never happens on the in-range uses below). -/
def swapL (v : List Entry) (i j : Nat) : List Entry :=
  match v.get? i, v.get? j with
  | some a, some b => (v.set i b).set j a
  | _, _ => v

/-- Sift-up pass of `std::push_heap` with `CompareAlarms`: the element at the
given index moves toward the root while the comparator orders its parent
before it.  The fuel argument (structural, so that runs reduce by
computation) strictly exceeds the number of iterations whenever it is at
least the start index, since the index at least halves each step. -/
def siftUp (fuel : Nat) (v : List Entry) (j : Nat) : List Entry :=
  match fuel, j with
  | 0, _ => v
  | _, 0 => v
  | fuel + 1, j + 1 =>
    let p := j / 2
    if compareAlarms (getP v p) (getP v (j + 1)) then siftUp fuel (swapL v p (j + 1)) p
    else v

/-- Sift-down pass of `std::pop_heap` with `CompareAlarms`, restricted to the
first `bound` positions.  The fuel argument strictly exceeds the number of
iterations whenever it is at least `bound`, since the index at least doubles
each step. -/
def siftDown (fuel : Nat) (v : List Entry) (bound i : Nat) : List Entry :=
  match fuel with
  | 0 => v
  | fuel + 1 =>
    if 2 * i + 1 < bound then
      let c :=
        if 2 * i + 2 < bound then
          if compareAlarms (getP v (2 * i + 1)) (getP v (2 * i + 2)) then 2 * i + 2
          else 2 * i + 1
        else 2 * i + 1
      if compareAlarms (getP v i) (getP v c) then siftDown fuel (swapL v i c) bound c
      else v
    else v

/-- Combined `std::push_heap` after a `push_back`, as performed by
`Selector::RegisterAlarm`. -/
def pushHeap (v : List Entry) (e : Entry) : List Entry :=
  siftUp (v.length + 1) (v ++ [e]) v.length

/-- Combined `std::pop_heap` followed by `pop_back`, as performed inside
`Selector::LoopAlarms`: position 0 and the last position are exchanged, the
displaced element sifts down within the shortened range, and the last
position is removed.  (For the heaps of size at most two used in the
concrete runs below every conforming `std::pop_heap` produces this exact
layout.) -/
def popHeapBack (v : List Entry) : List Entry :=
  (siftDown v.length (swapL v 0 (v.length - 1)) (v.length - 1) 0).take (v.length - 1)

/-- Association-list lookup standing for `alarms_.find`. -/
def lookupA (m : List (Nat × κ)) (k : Nat) : Option κ :=
  match m with
  | [] => none
  | (k0, v0) :: rest => if k0 = k then some v0 else lookupA rest k

/-- Association-list erase standing for `alarms_.erase` (alarm ids are issued
by a counter and never repeat, so at most one entry can match). -/
def eraseA (m : List (Nat × κ)) (k : Nat) : List (Nat × κ) :=
  match m with
  | [] => []
  | (k0, v0) :: rest =>
    if k0 = k then eraseA rest k else (k0, v0) :: eraseA rest k

/-- Alarm-registry state of a `Selector`: the `alarms_` id-to-callback map,
the `alarm_timeouts_` vector in `std` heap layout, the `next_alarm_time_`
atomic (`none` standing for `absl::InfinitePast()`), and the `alarm_id_`
counter.  Callbacks are abstract (`κ`). -/
structure AlarmState (κ : Type) where
  alarms : List (Nat × κ)
  heap : List Entry
  nextAlarmTime : Option Nat
  alarmId : Nat
deriving DecidableEq

/-- State of a freshly created selector: no alarms. -/
def emptyState : AlarmState κ := ⟨[], [], none, 0⟩

/-- Embedding of `Selector::RegisterAlarm` (`selector.cc:175`): allocate a
fresh id, insert the callback into `alarms_`, `push_back` the
`(deadline, id)` pair and `push_heap` it, then store `back().first` — the
LAST vector element, exactly as the source does — into `next_alarm_time_`. -/
def registerAlarm (st : AlarmState κ) (cb : κ) (now timeout : Nat) :
    Nat × AlarmState κ :=
  let deadline := now + timeout
  let aid := st.alarmId
  let hp := pushHeap st.heap (deadline, aid)
  (aid,
   { alarms := st.alarms ++ [(aid, cb)],
     heap := hp,
     nextAlarmTime := some (hp.getLastD (0, 0)).1,
     alarmId := aid + 1 })

/-- Embedding of `Selector::UnregisterAlarm` (`selector.cc:190`): the id is
erased from `alarms_`; the heap entry remains as a tombstone. -/
def unregisterAlarm (st : AlarmState κ) (aid : Nat) : AlarmState κ :=
  { st with alarms := eraseA st.alarms aid }

/-- Body of the collection loop of `Selector::LoopAlarms` (`selector.cc:365`):
while the vector is non-empty and `back().first ≤ now`, read the id from
`back()`, `pop_heap` + `pop_back`, and when the id is still in `alarms_` move
its callback to the run list and erase it.  Returns the executed
`(id, callback)` pairs in execution order together with the remaining map and
vector.  The fuel argument only bounds the recursion; each iteration shortens
the vector by one, so `heap.length` fuel always suffices. -/
def loopAlarmsAux (fuel : Nat) (alarms : List (Nat × κ)) (heap : List Entry)
    (now : Nat) : List (Nat × κ) × List (Nat × κ) × List Entry :=
  match fuel with
  | 0 => ([], alarms, heap)
  | fuel + 1 =>
    match heap with
    | [] => ([], alarms, [])
    | _ :: _ =>
      let back := heap.getLastD (0, 0)
      if back.1 ≤ now then
        let heap2 := popHeapBack heap
        match lookupA alarms back.2 with
        | some cb =>
          let r := loopAlarmsAux fuel (eraseA alarms back.2) heap2 now
          ((back.2, cb) :: r.1, r.2)
        | none => loopAlarmsAux fuel alarms heap2 now
      else ([], alarms, heap)

/-- Embedding of `Selector::LoopAlarms` (`selector.cc:356`): a no-op when
`num_registered_alarms_` is zero, otherwise the collection loop runs and
`next_alarm_time_` is refreshed from the remaining vector's `back()` (or
`InfinitePast` when empty).  Returns the executed `(id, callback)` pairs and
the new state. -/
def loopAlarms (st : AlarmState κ) (now : Nat) :
    List (Nat × κ) × AlarmState κ :=
  if st.alarms.isEmpty then ([], st)
  else
    let r := loopAlarmsAux st.heap.length st.alarms st.heap now
    (r.1,
     { st with
       alarms := r.2.1,
       heap := r.2.2,
       nextAlarmTime :=
         match r.2.2 with
         | [] => none
         | _ :: _ => some (r.2.2.getLastD (0, 0)).1 })

end Alarms

namespace Addr

/-- Hexadecimal digit lookup of glibc `inet_pton6`: the character is sought in
`"0123456789abcdef"` and then in `"0123456789ABCDEF"`. -/
def hexVal? (c : Char) : Option Nat :=
  if '0' ≤ c ∧ c ≤ '9' then some (c.toNat - 48)
  else if 'a' ≤ c ∧ c ≤ 'f' then some (c.toNat - 87)
  else if 'A' ≤ c ∧ c ≤ 'F' then some (c.toNat - 55)
  else none

/-- Decimal digit test `ch >= '0' && ch <= '9'` of glibc `inet_pton4`. -/
def decVal? (c : Char) : Option Nat :=
  if '0' ≤ c ∧ c ≤ '9' then some (c.toNat - 48) else none

/-- Lowercase no-leading-zero positional rendering shared by the `%x` and
`%u` conversions used by `inet_ntop6` / `inet_ntop4`. -/
def baseChars (base n : Nat) : List Char :=
  if n = 0 then ['0'] else ((Nat.digits base n).reverse.map Nat.digitChar)

/-- Rendering of `sprintf("%x", w)` as used by `inet_ntop6`. -/
def hexChars (n : Nat) : List Char := baseChars 16 n

/-- Decimal rendering of one byte as used by `inet_ntop4`. -/
def decChars (n : Nat) : List Char := baseChars 10 n

/-- Embedding of glibc `inet_ntop4`: `"%u.%u.%u.%u"` over the four bytes. -/
def ntop4 (b0 b1 b2 b3 : Nat) : List Char :=
  decChars b0 ++ '.' :: decChars b1 ++ '.' :: decChars b2 ++ '.' :: decChars b3

/-- Parser state of glibc `inet_pton4`: the completed octets, the octet being
accumulated (`*tp`), `saw_digit`, and the count of started octets. -/
structure P4State where
  done : List Nat
  cur : Nat
  saw : Bool
  octets : Nat
deriving DecidableEq

/-- Character loop of glibc `inet_pton4`.  A digit extends the current octet
(rejecting a leading zero and values above 255, and starting at most four
octets); a dot after a digit closes the octet; anything else fails.  At the
end of input four octets must have been started. -/
def pton4Go : List Char → P4State → Option (List Nat)
  | [], st => if st.octets < 4 then none else some (st.done ++ [st.cur])
  | c :: rest, st =>
    match decVal? c with
    | some d =>
      let v := st.cur * 10 + d
      if st.saw ∧ st.cur = 0 then none
      else if 255 < v then none
      else if st.saw then pton4Go rest { st with cur := v }
      else if 4 < st.octets + 1 then none
      else pton4Go rest { st with cur := v, saw := true, octets := st.octets + 1 }
    | none =>
      if c = '.' ∧ st.saw then
        if st.octets = 4 then none
        else pton4Go rest
          { done := st.done ++ [st.cur], cur := 0, saw := false, octets := st.octets }
      else none

/-- Embedding of glibc `inet_pton4`: parse a dotted-decimal quad into its four
bytes. -/
def pton4 (cs : List Char) : Option (List Nat) :=
  pton4Go cs ⟨[], 0, false, 0⟩

/-- Parser state of glibc `inet_pton6`: the bytes committed so far (`tmp` up
to `tp`), the byte position of the `::` marker (`colonp`), the pending group
(`saw_xdigit` and `val`), and the input suffix at the start of the current
token (`curtok`). -/
structure P6State where
  bytes : List Nat
  colonp : Option Nat
  saw : Bool
  val : Nat
  curtok : List Char

/-- Shared tail of glibc `inet_pton6` (reached at end of input and after the
IPv4-tail `break`): expand the `::` marker by shifting the bytes after it to
the end and zero-filling the gap, demanding that the marker absorbed at least
one zero; without a marker demand exactly 16 bytes. -/
def p6finalizeCore (bytes : List Nat) (colonp : Option Nat) : Option (List Nat) :=
  match colonp with
  | some cp =>
    if bytes.length = 16 then none
    else some (bytes.take cp ++ List.replicate (16 - bytes.length) 0 ++ bytes.drop cp)
  | none => if bytes.length = 16 then some bytes else none

/-- End-of-input step of glibc `inet_pton6`: flush the pending group (two
bytes, big-endian, checked against the buffer end) and run the shared tail. -/
def p6finalize (st : P6State) : Option (List Nat) :=
  if st.saw then
    if 16 < st.bytes.length + 2 then none
    else p6finalizeCore (st.bytes ++ [st.val / 256 % 256, st.val % 256]) st.colonp
  else p6finalizeCore st.bytes st.colonp

/-- Character loop of glibc `inet_pton6`.  Hex digits accumulate `val`
(bounded by `0xffff`); a colon after a group flushes two bytes (and must not
end the string), a colon with no group pending records the single `::`
marker; a dot hands the current token to `inet_pton4` for the embedded IPv4
tail and stops; anything else fails. -/
def p6go : List Char → P6State → Option (List Nat)
  | [], st => p6finalize st
  | c :: rest, st =>
    match hexVal? c with
    | some d =>
      let v := st.val * 16 + d
      if 0xffff < v then none
      else p6go rest { st with val := v, saw := true }
    | none =>
      if c = ':' then
        if ¬ st.saw then
          if st.colonp.isSome then none
          else p6go rest { st with colonp := some st.bytes.length, curtok := rest }
        else if rest.isEmpty then none
        else if 16 < st.bytes.length + 2 then none
        else p6go rest
          { bytes := st.bytes ++ [st.val / 256 % 256, st.val % 256],
            colonp := st.colonp, saw := false, val := 0, curtok := rest }
      else if c = '.' then
        if st.bytes.length + 4 ≤ 16 then
          match pton4 st.curtok with
          | some v4 => p6finalizeCore (st.bytes ++ v4) st.colonp
          | none => none
        else none
      else none

/-- Embedding of glibc `inet_pton6`: a leading `':'` is stepped over and must
be followed by a second `':'` (parsing then resumes at that second colon);
otherwise the loop starts at the first character. -/
def pton6 (cs : List Char) : Option (List Nat) :=
  match cs with
  | [] => p6go [] ⟨[], none, false, 0, []⟩
  | c :: rest =>
    if c = ':' then
      match rest with
      | [] => none
      | c2 :: _ => if c2 = ':' then p6go rest ⟨[], none, false, 0, rest⟩ else none
    else p6go (c :: rest) ⟨[], none, false, 0, c :: rest⟩

/-- Candidate merge of the zero-run scan of glibc `inet_ntop6`: a finished run
replaces the best only when strictly longer. -/
def updBest (best : Option (Nat × Nat)) (c : Nat × Nat) : Option (Nat × Nat) :=
  match best with
  | none => some c
  | some b => if b.2 < c.2 then some c else some b

/-- Zero-run scan of glibc `inet_ntop6` over the words: `cur` is the run in
progress (start index and length), `best` the best finished run. -/
def bestRunGo : List Nat → Nat → Option (Nat × Nat) → Option (Nat × Nat) →
    Option (Nat × Nat) × Option (Nat × Nat)
  | [], _, cur, best => (cur, best)
  | w :: ws, i, cur, best =>
    if w = 0 then
      match cur with
      | none => bestRunGo ws (i + 1) (some (i, 1)) best
      | some c => bestRunGo ws (i + 1) (some (c.1, c.2 + 1)) best
    else
      match cur with
      | none => bestRunGo ws (i + 1) none best
      | some c => bestRunGo ws (i + 1) none (updBest best c)

/-- Best zero run of glibc `inet_ntop6`: run the scan, fold in a trailing run,
and discard runs of length one. -/
def bestRun (ws : List Nat) : Option (Nat × Nat) :=
  let r := bestRunGo ws 0 none none
  match (match r.1 with | none => r.2 | some c => updBest r.2 c) with
  | none => none
  | some b => if b.2 < 2 then none else some b

/-- Word index `i` lies inside the best run. -/
def inBest (best : Option (Nat × Nat)) (i : Nat) : Prop :=
  match best with
  | none => False
  | some b => b.1 ≤ i ∧ i < b.1 + b.2

instance (best : Option (Nat × Nat)) (i : Nat) : Decidable (inBest best i) :=
  match best with
  | none => isFalse (fun h => h)
  | some b => inferInstanceAs (Decidable (b.1 ≤ i ∧ i < b.1 + b.2))

/-- Word index `i` is the start of the best run. -/
def runStart (best : Option (Nat × Nat)) (i : Nat) : Prop :=
  match best with
  | none => False
  | some b => i = b.1

instance (best : Option (Nat × Nat)) (i : Nat) : Decidable (runStart best i) :=
  match best with
  | none => isFalse (fun h => h)
  | some b => inferInstanceAs (Decidable (i = b.1))

/-- The encapsulated-IPv4 test of glibc `inet_ntop6`, evaluated at word
index 6. -/
def v4TailCond (best : Option (Nat × Nat)) (ws : List Nat) : Prop :=
  match best with
  | none => False
  | some b =>
    b.1 = 0 ∧
      (b.2 = 6 ∨ (b.2 = 7 ∧ ws.getD 7 0 ≠ 1) ∨ (b.2 = 5 ∧ ws.getD 5 0 = 0xffff))

instance (best : Option (Nat × Nat)) (ws : List Nat) : Decidable (v4TailCond best ws) :=
  match best with
  | none => isFalse (fun h => h)
  | some b =>
    inferInstanceAs (Decidable (b.1 = 0 ∧
      (b.2 = 6 ∨ (b.2 = 7 ∧ ws.getD 7 0 ≠ 1) ∨ (b.2 = 5 ∧ ws.getD 5 0 = 0xffff))))

/-- Character-emitting loop of glibc `inet_ntop6` over the word indices: a
word inside the best run prints a single `':'` at the run start; any other
word prints a separating `':'` (except at index 0) followed by its `%x`
rendering — except that index 6 may pass the encapsulated-IPv4 test, printing
the dotted rendering of bytes 12…15 (`tail4`) and breaking out. -/
def ntop6Go (ws : List Nat) (tail4 : List Nat) (best : Option (Nat × Nat)) :
    List Nat → List Char
  | [] => []
  | i :: is =>
    if inBest best i then
      (if runStart best i then [':'] else []) ++ ntop6Go ws tail4 best is
    else
      (if i ≠ 0 then [':'] else []) ++
      (if i = 6 ∧ v4TailCond best ws then
        ntop4 (tail4.getD 0 0) (tail4.getD 1 0) (tail4.getD 2 0) (tail4.getD 3 0)
      else hexChars (ws.getD i 0) ++ ntop6Go ws tail4 best is)

/-- The sixteen bytes paired into eight big-endian 16-bit words. -/
def toWords : List Nat → List Nat
  | b0 :: b1 :: rest => (b0 * 256 + b1) :: toWords rest
  | _ => []

/-- Embedding of glibc `inet_ntop6`: scan for the best zero run, emit the
words, and append the trailing `':'` when the best run reaches the end. -/
def ntop6 (a : List Nat) : List Char :=
  ntop6Go (toWords a) (a.drop 12) (bestRun (toWords a)) (List.range 8) ++
    (match bestRun (toWords a) with
     | some b => if b.1 + b.2 = 8 then [':'] else []
     | none => [])

/-- The `is_ipv4()` test of `IpAddress` (`address.cc:45`): the first twelve
bytes equal the IPv4-mapped prefix. -/
def isIpv4 (a : List Nat) : Prop :=
  a.take 12 = [0, 0, 0, 0, 0, 0, 0, 0, 0, 0, 0xff, 0xff]

instance (a : List Nat) : Decidable (isIpv4 a) :=
  inferInstanceAs (Decidable (a.take 12 = [0, 0, 0, 0, 0, 0, 0, 0, 0, 0, 0xff, 0xff]))

/-- Embedding of `IpAddress::ToString` (`address.cc:119`): IPv4-mapped
addresses go through `inet_ntop(AF_INET)` on bytes 12…15, every other address
through `inet_ntop(AF_INET6)` on all sixteen bytes. -/
def ipToString (a : List Nat) : List Char :=
  if isIpv4 a then ntop4 (a.getD 12 0) (a.getD 13 0) (a.getD 14 0) (a.getD 15 0)
  else ntop6 a

/-- Value of a four-byte memory region read as a 32-bit register on a
little-endian host (the library's supported Linux targets). -/
def leU32 (b0 b1 b2 b3 : Nat) : Nat :=
  b0 + 256 * b1 + 65536 * b2 + 16777216 * b3

/-- Byte swap of a 32-bit value: the effect of `htonl` and `ntohl` on a
little-endian host. -/
def bswap32 (x : Nat) : Nat :=
  (x % 256) * 16777216 + (x / 256 % 256) * 65536 + (x / 65536 % 256) * 256 +
    x / 16777216 % 256

/-- The `IpAddress(uint32_t addr)` constructor (`address.cc:14`): big-endian
split of the host-order value into bytes 12…15 under the IPv4-mapped
prefix. -/
def ipOfUint32 (x : Nat) : List Nat :=
  [0, 0, 0, 0, 0, 0, 0, 0, 0, 0, 0xff, 0xff,
   x / 16777216 % 256, x / 65536 % 256, x / 256 % 256, x % 256]

/-- The `ipv4()` accessor (`address.cc:62`): bytes 12…15 read big-endian. -/
def ipv4val (a : List Nat) : Nat :=
  a.getD 12 0 * 16777216 + a.getD 13 0 * 65536 + a.getD 14 0 * 256 + a.getD 15 0

/-- Embedding of `IpAddress::ParseFromString` (`address.cc:70`): reject the
empty string; try `inet_pton(AF_INET)` first and feed the network-order
`s_addr` through `IpAddress(ntohl(s_addr))`; else try `inet_pton(AF_INET6)`
and take its sixteen bytes verbatim; else fail.  On the little-endian host
model `s_addr` reads the four bytes as `leU32` and `ntohl` is `bswap32`. -/
def parseIpFromString (cs : List Char) : Option (List Nat) :=
  if cs.isEmpty then none
  else
    match pton4 cs with
    | some bs =>
      some (ipOfUint32 (bswap32
        (leU32 (bs.getD 0 0) (bs.getD 1 0) (bs.getD 2 0) (bs.getD 3 0))))
    | none =>
      match pton6 cs with
      | some bs => some bs
      | none => none

/-- Embedding of `IpAddress::ToSockAddr` on an IPv4-mapped address
(`address.cc:107`): the `sin_addr.s_addr` register value stored is
`htonl(ipv4())`, i.e. `bswap32` of the big-endian byte value on the
little-endian host model. -/
def toSockAddrV4 (a : List Nat) : Nat := bswap32 (ipv4val a)

/-- Embedding of `IpAddress::ParseFromSockAddr` on an `AF_INET` sockaddr
(`address.cc:88`): the source constructs `IpAddress(saddr_in->sin_addr.s_addr)`
directly from the register value — WITHOUT the `ntohl` that
`ParseFromString` applies to the same field. -/
def parseFromSockAddrV4 (s_addr : Nat) : List Nat := ipOfUint32 s_addr

/-- Big-endian positional value of a digit list. -/
def bigVal (base : Nat) (ds : List Nat) : Nat :=
  ds.foldl (fun v d => v * base + d) 0

/-- Value accumulated by the hex loop of `inet_pton6` while reading the
decimal rendering of `n` (the dotted tail reuses those digits as hex). -/
def hexOfDec (n : Nat) : Nat :=
  bigVal 16 (if n = 0 then [0] else (Nat.digits 10 n).reverse)

/-- The bytes flushed for a word list: two big-endian bytes per word, exactly
as the colon flush of `inet_pton6` emits them. -/
def flatWords (ws : List Nat) : List Nat :=
  ws.flatMap (fun w => [w / 256 % 256, w % 256])

/-- Colon-separated hex rendering of a word list (the non-compressed portion
of an `inet_ntop6` output). -/
def renderPlain : List Nat → List Char
  | [] => []
  | [w] => hexChars w
  | w :: w1 :: ws => hexChars w ++ ':' :: renderPlain (w1 :: ws)

/-- Colon-terminated hex rendering of a word list (the portion of an
`inet_ntop6` output before a `::`). -/
def renderPre (ws : List Nat) : List Char :=
  ws.flatMap (fun w => hexChars w ++ [':'])

end Addr


namespace Addr

/-- The `is_ipv6()` accessor (`address.cc:51`): the negation of the
IPv4-mapped prefix test. -/
def isIpv6 (a : List Nat) : Prop := ¬ isIpv4 a

instance (a : List Nat) : Decidable (isIpv6 a) :=
  inferInstanceAs (Decidable (¬ isIpv4 a))

/-- Embedding of a `HostPort` value: the optional host name, resolved
sixteen-byte address, port, and scope id. -/
structure HostPort where
  host : Option (List Char)
  ip : Option (List Nat)
  port : Option Nat
  scope_id : Option Nat
deriving DecidableEq

deriving instance DecidableEq for Except

/-- Embedding of `HostPort::ToString` (`address.cc:236`): the host name if
set; then the address — bracketed when something precedes it or when it is
IPv6 — then `":port"`; an entirely empty result renders as `"[]"`. -/
def hostPortToString (hp : HostPort) : List Char :=
  let r0 : List Char := match hp.host with | some h => h | none => []
  let r1 : List Char :=
    match hp.ip with
    | some ip =>
      if ¬ r0.isEmpty ∨ isIpv6 ip then
        r0 ++ '[' :: ipToString ip ++ [']']
      else r0 ++ ipToString ip
    | none => r0
  let r2 : List Char :=
    match hp.port with
    | some p => r1 ++ ':' :: decChars p
    | none => r1
  if r2.isEmpty then ['[', ']'] else r2

/-- Index of the last `':'`, the model of `rfind(':')`. -/
def rfindColon : List Char → Option Nat
  | [] => none
  | c :: rest =>
    match rfindColon rest with
    | some i => some (i + 1)
    | none => if c = ':' then some 0 else none

/-- Model of `absl::SimpleAtoi<uint32_t>` on the digit-only and
non-numeric inputs reachable here: all characters must be decimal digits and
the value must fit in 32 bits. -/
def simpleAtoi? (cs : List Char) : Option Nat :=
  if cs.isEmpty then none
  else if cs.all (fun c => (decVal? c).isSome) then
    let v := bigVal 10 (cs.map (fun c => (decVal? c).getD 0))
    if v < 4294967296 then some v else none
  else none

/-- Embedding of `HostPort::ParseFromString` (`address.cc:304`): an empty
input yields the default host-port; otherwise, unless the input ends in
`']'`, the port is split off at the LAST `':'`; the host part, stripped of
one pair of enclosing brackets, is tried as an IP (an IPv6 address without
brackets in a string that still has a port split is rejected), else kept as
the host name; the port digits must parse to a value in 1…65535. -/
def hostPortParse (cs : List Char) : Except Unit HostPort :=
  if cs.isEmpty then .ok ⟨none, none, none, none⟩
  else
    let pos : Option Nat :=
      if cs.getLast? = some ']' then none else rfindColon cs
    let host : List Char := match pos with | some p => cs.take p | none => cs
    let stripped : List Char :=
      if host.head? = some '[' ∧ host.getLast? = some ']' then
        (host.drop 1).take (host.length - 2)
      else host
    let withPort : HostPort → Except Unit HostPort := fun hp =>
      match pos with
      | some p =>
        match simpleAtoi? (cs.drop (p + 1)) with
        | none => .error ()
        | some v =>
          if v = 0 ∨ 0xffff < v then .error ()
          else .ok { hp with port := some v }
      | none => .ok hp
    match parseIpFromString stripped with
    | some ip =>
      if isIpv6 ip ∧ stripped = host then .error ()
      else withPort ⟨none, some ip, none, none⟩
    | none => withPort ⟨some host, none, none, none⟩

end Addr


namespace Mpmc

/-- Producer thread position inside `Put` (`producer_consumer_queue_lockfree.h:50`):
after the pre-reservation store of `clients_[p].head_`, after the
`head_.fetch_add`, after re-publishing the ticket into `clients_[p].head_`,
and after the ring write, carrying the pending item and ticket. -/
inductive PPhase where
  | idle
  | resv (v : Nat)
  | tick (v h : Nat)
  | tick2 (v h : Nat)
  | wrote (h : Nat)
deriving DecidableEq

/-- Consumer thread position inside `Get` (`:101`), mirroring `PPhase`. -/
inductive CPhase where
  | idle
  | cresv
  | ctick (t : Nat)
  | ctick2 (t : Nat)
  | cread (t : Nat)
deriving DecidableEq

/-- Static queue configuration: thread counts, ring capacity (`NextPow2`,
hence positive), and the item stream each producer will feed to `Put`. -/
structure Cfg where
  nProd : Nat
  nCons : Nat
  qsize : Nat
  qpos : 0 < qsize
  origInputs : Nat → List Nat

/-- Interleaving state of the queue: the global `head_`/`tail_` counters, the
ring buffer (`data_`, indexed modulo `qsize`), per-thread phases and
`clients_[i]` reservations (`none` models the cleared
`std::numeric_limits<size_t>::max()`), the items not yet passed to `Put` and
the items returned by `Get` so far, and three history variables recording
which value was put with each ticket, which value each `Get` ticket
returned, and which tickets have been written to the ring. -/
structure QState where
  head : Nat
  tail : Nat
  ring : Nat → Nat
  prodPh : Nat → PPhase
  consPh : Nat → CPhase
  prodRes : Nat → Option Nat
  consRes : Nat → Option Nat
  inputs : Nat → List Nat
  outputs : Nat → List Nat
  putVal : Nat → Option Nat
  gotVal : Nat → Option Nat
  written : Nat → Bool

/-- The initial state: empty queue, all threads idle. -/
def initState (cfg : Cfg) : QState :=
  ⟨0, 0, fun _ => 0, fun _ => .idle, fun _ => .idle, fun _ => none,
   fun _ => none, cfg.origInputs, fun _ => [], fun _ => none, fun _ => none,
   fun _ => false⟩

/-- The wait-loop exit condition of `Put` (`:66`), taken at the instantaneous
minimum of `tail_` and the active consumer reservations.  The code computes
`pos_min` from `last_tail_` or from non-atomic re-reads of `tail_` and
`clients_[i].tail_`; every value it can exit with is at most this
instantaneous minimum (reservations are published before tickets are drawn
and cleared only after the slot is consumed, and `tail_` is monotone), so
this guard admits every exit the code can take. -/
def putGuard (cfg : Cfg) (s : QState) (h : Nat) : Prop :=
  h < cfg.qsize + s.tail ∧
    ∀ c < cfg.nCons, ∀ r, s.consRes c = some r → h < cfg.qsize + r

/-- The wait-loop exit condition of `Get` (`:118`), at the instantaneous
minimum of `head_` and the active producer reservations (same justification
as `putGuard`). -/
def getGuard (cfg : Cfg) (s : QState) (t : Nat) : Prop :=
  t < s.head ∧ ∀ p < cfg.nProd, ∀ r, s.prodRes p = some r → t < r

/-- One atomic step of the queue under a sequentially consistent
interleaving of the `Put` and `Get` bodies.  Each constructor is one atomic
access of the code (the pre-reservation load/store pair is one step whose
stored value is any `r ≤ head_`, covering the re-orderings the separate load
allows; the guarded ring write and ring read absorb the wait loop into their
guard, which only grows more permissive while a thread waits).  `putTicket`
and `getRead` additionally record the history variables. -/
inductive Step (cfg : Cfg) : QState → QState → Prop where
  | putReserve (s : QState) (p v r : Nat) (rest : List Nat)
      (hp : p < cfg.nProd) (hph : s.prodPh p = .idle)
      (hin : s.inputs p = v :: rest) (hr : r ≤ s.head) :
      Step cfg s { s with prodPh := Function.update s.prodPh p (.resv v),
                          prodRes := Function.update s.prodRes p (some r),
                          inputs := Function.update s.inputs p rest }
  | putTicket (s : QState) (p v : Nat) (hp : p < cfg.nProd)
      (hph : s.prodPh p = .resv v) :
      Step cfg s { s with prodPh := Function.update s.prodPh p (.tick v s.head),
                          head := s.head + 1,
                          putVal := Function.update s.putVal s.head (some v) }
  | putPublish (s : QState) (p v h : Nat) (hp : p < cfg.nProd)
      (hph : s.prodPh p = .tick v h) :
      Step cfg s { s with prodPh := Function.update s.prodPh p (.tick2 v h),
                          prodRes := Function.update s.prodRes p (some h) }
  | putWrite (s : QState) (p v h : Nat) (hp : p < cfg.nProd)
      (hph : s.prodPh p = .tick2 v h) (hg : putGuard cfg s h) :
      Step cfg s { s with prodPh := Function.update s.prodPh p (.wrote h),
                          ring := Function.update s.ring (h % cfg.qsize) v,
                          written := Function.update s.written h true }
  | putClear (s : QState) (p h : Nat) (hp : p < cfg.nProd)
      (hph : s.prodPh p = .wrote h) :
      Step cfg s { s with prodPh := Function.update s.prodPh p .idle,
                          prodRes := Function.update s.prodRes p none }
  | getReserve (s : QState) (c r : Nat) (hc : c < cfg.nCons)
      (hph : s.consPh c = .idle) (hr : r ≤ s.tail) :
      Step cfg s { s with consPh := Function.update s.consPh c .cresv,
                          consRes := Function.update s.consRes c (some r) }
  | getTicket (s : QState) (c : Nat) (hc : c < cfg.nCons)
      (hph : s.consPh c = .cresv) :
      Step cfg s { s with consPh := Function.update s.consPh c (.ctick s.tail),
                          tail := s.tail + 1 }
  | getPublish (s : QState) (c t : Nat) (hc : c < cfg.nCons)
      (hph : s.consPh c = .ctick t) :
      Step cfg s { s with consPh := Function.update s.consPh c (.ctick2 t),
                          consRes := Function.update s.consRes c (some t) }
  | getRead (s : QState) (c t : Nat) (hc : c < cfg.nCons)
      (hph : s.consPh c = .ctick2 t) (hg : getGuard cfg s t) :
      Step cfg s { s with consPh := Function.update s.consPh c (.cread t),
                          outputs := Function.update s.outputs c
                            (s.outputs c ++ [s.ring (t % cfg.qsize)]),
                          gotVal := Function.update s.gotVal t
                            (some (s.ring (t % cfg.qsize))) }
  | getClear (s : QState) (c t : Nat) (hc : c < cfg.nCons)
      (hph : s.consPh c = .cread t) :
      Step cfg s { s with consPh := Function.update s.consPh c .idle,
                          consRes := Function.update s.consRes c none }

/-- States reachable from the empty queue. -/
inductive Reach (cfg : Cfg) : QState → Prop where
  | init : Reach cfg (initState cfg)
  | step {s s' : QState} : Reach cfg s → Step cfg s s' → Reach cfg s'

/-- Producer `p` currently holds ticket `h` without having written it. -/
def pHolds (s : QState) (p h : Nat) : Prop :=
  (∃ v, s.prodPh p = .tick v h) ∨ (∃ v, s.prodPh p = .tick2 v h)

/-- Consumer `c` currently holds ticket `t` without having read it. -/
def cHolds (s : QState) (c t : Nat) : Prop :=
  s.consPh c = .ctick t ∨ s.consPh c = .ctick2 t

/-- The pending item of a producer between its pre-reservation and its
ticket draw. -/
def inflightP : PPhase → Multiset Nat
  | .resv v => {v}
  | _ => 0

end Mpmc

namespace Mpmc

/-- The queue list rendered by the single consumer so far. -/
def outList (s : QState) (m : Nat) : List Nat :=
  (List.range m).map (fun u => (s.gotVal u).getD 0)

/-- The multiset of values already bound to tickets. -/
def assignedVals (s : QState) : Multiset Nat :=
  ((List.range s.head).map (fun h => (s.putVal h).getD 0) : List Nat)

/-- Global invariant of the queue protocol. -/
structure Inv (cfg : Cfg) (s : QState) : Prop where
  pidle : ∀ p, s.prodPh p = .idle → s.prodRes p = none
  presv : ∀ p v, s.prodPh p = .resv v →
    ∃ r, s.prodRes p = some r ∧ r ≤ s.head
  ptick : ∀ p v h, s.prodPh p = .tick v h →
    h < s.head ∧ s.putVal h = some v ∧ s.written h = false ∧
      ∃ r, s.prodRes p = some r ∧ r ≤ h
  ptick2 : ∀ p v h, s.prodPh p = .tick2 v h →
    h < s.head ∧ s.putVal h = some v ∧ s.written h = false ∧
      s.prodRes p = some h
  pwrote : ∀ p h, s.prodPh p = .wrote h →
    h < s.head ∧ s.written h = true ∧ s.prodRes p = some h
  pdisj : ∀ p p' h, p ≠ p' → pHolds s p h → ¬ pHolds s p' h
  pvhigh : ∀ h, s.head ≤ h → s.putVal h = none ∧ s.written h = false
  pcover : ∀ h < s.head, s.written h = true ∨ ∃ p < cfg.nProd, pHolds s p h
  pwlt : ∀ h, s.written h = true → h < s.head
  cidle : ∀ c, s.consPh c = .idle → s.consRes c = none
  ccresv : ∀ c, s.consPh c = .cresv →
    ∃ r, s.consRes c = some r ∧ r ≤ s.tail
  cctick : ∀ c t, s.consPh c = .ctick t →
    t < s.tail ∧ s.gotVal t = none ∧ ∃ r, s.consRes c = some r ∧ r ≤ t
  cctick2 : ∀ c t, s.consPh c = .ctick2 t →
    t < s.tail ∧ s.gotVal t = none ∧ s.consRes c = some t
  ccread : ∀ c t, s.consPh c = .cread t →
    t < s.tail ∧ s.gotVal t ≠ none ∧ s.consRes c = some t
  cdisj : ∀ c c' t, c ≠ c' → cHolds s c t → ¬ cHolds s c' t
  gvhigh : ∀ t, s.tail ≤ t → s.gotVal t = none
  ccover : ∀ t < s.tail, s.gotVal t ≠ none ∨ ∃ c < cfg.nCons, cHolds s c t
  wgot : ∀ h, s.written h = true → ∀ t, t + cfg.qsize ≤ h → s.gotVal t ≠ none
  gwr : ∀ t, s.gotVal t ≠ none → ∀ h ≤ t, s.written h = true
  ringv : ∀ h, s.written h = true →
    (∀ h', s.written h' = true → h' % cfg.qsize = h % cfg.qsize → h' ≤ h) →
    some (s.ring (h % cfg.qsize)) = s.putVal h
  gveq : ∀ t w, s.gotVal t = some w → s.putVal t = some w
  sp : cfg.nProd = 1 →
    (∀ h < s.head, s.putVal h = (cfg.origInputs 0)[h]?) ∧
    (match s.prodPh 0 with
     | .resv v => s.inputs 0 = (cfg.origInputs 0).drop (s.head + 1) ∧
         (cfg.origInputs 0)[s.head]? = some v
     | _ => s.inputs 0 = (cfg.origInputs 0).drop s.head)
  sc : cfg.nCons = 1 →
    (match s.consPh 0 with
     | .ctick t => t + 1 = s.tail ∧ (∀ u < t, s.gotVal u ≠ none) ∧
         s.outputs 0 = outList s t
     | .ctick2 t => t + 1 = s.tail ∧ (∀ u < t, s.gotVal u ≠ none) ∧
         s.outputs 0 = outList s t
     | _ => (∀ u < s.tail, s.gotVal u ≠ none) ∧ s.outputs 0 = outList s s.tail)
  acct : assignedVals s +
      (Finset.range cfg.nProd).sum (fun p => inflightP (s.prodPh p)) +
      (Finset.range cfg.nProd).sum (fun p => (s.inputs p : Multiset Nat)) =
      (Finset.range cfg.nProd).sum
        (fun p => (cfg.origInputs p : Multiset Nat))

end Mpmc

namespace Mpmc

/-- A one-slot, one-producer, one-consumer demonstration queue feeding the
single item `42`. -/
def demoCfg : Cfg := ⟨1, 1, 1, Nat.one_pos, fun _ => [42]⟩

def demoS0 : QState := initState demoCfg

def demoS1 : QState :=
  { demoS0 with prodPh := Function.update demoS0.prodPh 0 (.resv 42),
                prodRes := Function.update demoS0.prodRes 0 (some 0),
                inputs := Function.update demoS0.inputs 0 [] }

def demoS2 : QState :=
  { demoS1 with
    prodPh := Function.update demoS1.prodPh 0 (.tick 42 demoS1.head),
    head := demoS1.head + 1,
    putVal := Function.update demoS1.putVal demoS1.head (some 42) }

def demoS3 : QState :=
  { demoS2 with prodPh := Function.update demoS2.prodPh 0 (.tick2 42 0),
                prodRes := Function.update demoS2.prodRes 0 (some 0) }

def demoS4 : QState :=
  { demoS3 with prodPh := Function.update demoS3.prodPh 0 (.wrote 0),
                ring := Function.update demoS3.ring (0 % demoCfg.qsize) 42,
                written := Function.update demoS3.written 0 true }

def demoS5 : QState :=
  { demoS4 with prodPh := Function.update demoS4.prodPh 0 .idle,
                prodRes := Function.update demoS4.prodRes 0 none }

def demoS6 : QState :=
  { demoS5 with consPh := Function.update demoS5.consPh 0 .cresv,
                consRes := Function.update demoS5.consRes 0 (some 0) }

def demoS7 : QState :=
  { demoS6 with
    consPh := Function.update demoS6.consPh 0 (.ctick demoS6.tail),
    tail := demoS6.tail + 1 }

def demoS8 : QState :=
  { demoS7 with consPh := Function.update demoS7.consPh 0 (.ctick2 0),
                consRes := Function.update demoS7.consRes 0 (some 0) }

def demoS9 : QState :=
  { demoS8 with consPh := Function.update demoS8.consPh 0 (.cread 0),
                outputs := Function.update demoS8.outputs 0
                  (demoS8.outputs 0 ++ [demoS8.ring (0 % demoCfg.qsize)]),
                gotVal := Function.update demoS8.gotVal 0
                  (some (demoS8.ring (0 % demoCfg.qsize))) }

def demoS10 : QState :=
  { demoS9 with consPh := Function.update demoS9.consPh 0 .idle,
                consRes := Function.update demoS9.consRes 0 none }

end Mpmc

/-!
Claim theorems.  Each theorem settles one claim of the specification against
the embedded code above.
-/

/-- Claim C1, behaviour of the code at the failing input: when every kernel
call performed by `TcpConnection::Wrap` succeeds (in particular `getpeername`
returns `0`), `Wrap` nevertheless returns an error — because
`InitializeRemoteAddress` tests `if (!::getpeername(...))` and takes its
error path exactly on success — so the connection does NOT reach `Connected`;
conversely a FAILING `getpeername` (returning `-1`) lets `Wrap` succeed. -/
theorem c1_wrap_fails_when_kernel_calls_succeed :
    Conn.wrap ⟨true, true, 0, 0⟩ = .error () ∧
    Conn.wrap ⟨true, true, 0, -1⟩ = .ok .connected := by
  exact ⟨rfl, rfl⟩

/-- Claim C2, behaviour of the code at the failing input: a successful DNS
resolution delivering one usable IPv4 address (with no close requested
meanwhile) makes `TcpConnection::HandleDnsResult` close the connection with
the internal "No valid IP address was resolved" error instead of re-invoking
`Connect` — the source tests `if (ABSL_PREDICT_FALSE(ip.has_value()))` where
the intended test is `!ip.has_value()` — even though `PickNextAddress` did
return an address. -/
theorem c2_dns_success_closes_with_error :
    Conn.pickNextAddress (⟨[7], [], 0⟩ : Conn.DnsHostInfo Nat) = some 7 ∧
    Conn.handleDnsResult none (.ok (⟨[7], [], 0⟩ : Conn.DnsHostInfo Nat)) =
      .closedWithError ∧
    ∀ ip : Nat,
      Conn.handleDnsResult none (.ok (⟨[7], [], 0⟩ : Conn.DnsHostInfo Nat)) ≠
        .connectCalled ip := by
  exact ⟨rfl, rfl, fun ip h => Conn.DnsOutcome.noConfusion h⟩

/-- Claim C5, behaviour of the code at the failing input: for a `pollfd`
whose requested mask asks for both read and write but whose `revents` only
reports `POLLIN`, the poll backend's `LoopStep` emits an observed-desires
word containing the want-write bit — it tests `event.events & POLLOUT`
instead of `event.revents & POLLOUT` — although `POLLOUT` is not in
`revents`. -/
theorem c5_wantWrite_computed_from_requested_mask :
    PollLoop.loopStep
        [⟨5, PollLoop.POLLIN ||| PollLoop.POLLOUT, PollLoop.POLLIN⟩] =
      [(5, PollLoop.kWantRead ||| PollLoop.kWantWrite, PollLoop.POLLIN)] ∧
    PollLoop.POLLIN &&& PollLoop.POLLOUT = 0 := by
  decide

/-- Claim C7, behaviour of the code at the failing input: after
`SetTimeout(5, d)` a first `ClearTimeout(5)` returns `true`, and — because
`Timeouter::ClearTimeout` never erases the `timeouts_` entry — a second
`ClearTimeout(5)` with no intervening `SetTimeout` ALSO returns `true`,
where the claim (and the header comment "Returns true if indeed a timeout
was cleared") requires `false`. -/
theorem c7_second_clearTimeout_returns_true :
    (Timeouter.clearTimeout (Timeouter.setTimeout Timeouter.initState 5) 5).1
        = true ∧
    (Timeouter.clearTimeout
        (Timeouter.clearTimeout (Timeouter.setTimeout Timeouter.initState 5) 5).2
        5).1 = true := by
  decide

/-- Claim C3, behaviour of the code at the failing input: register alarm id 0
with duration 0 (deadline 0) and then alarm id 1 with duration 100, both at
`now = 0`.  The loop step at `now = 0` fires NOTHING — `LoopAlarms` examines
`alarm_timeouts_.back()`, which after `std::push_heap` with `CompareAlarms`
holds the LATER alarm, not the heap front — although alarm 0 is due; the
step at `now = 100` fires only alarm 1 while silently dropping alarm 0 from
the heap, so alarm 0 never fires at any later step either. -/
theorem c3_due_alarm_skipped_when_other_alarm_pending :
    (let st2 : Alarms.AlarmState Nat :=
      (Alarms.registerAlarm
        (Alarms.registerAlarm (Alarms.emptyState) 10 0 0).2 11 0 100).2
     (Alarms.loopAlarms st2 0).1 = [] ∧
     (Alarms.loopAlarms st2 100).1 = [(1, 11)] ∧
     (Alarms.loopAlarms (Alarms.loopAlarms st2 100).2 1000000).1 = [] ∧
     Alarms.lookupA (Alarms.loopAlarms st2 100).2.alarms 0 = some 10) := by
  decide

namespace Alarms

/-- Looking an id up after erasing it always misses. -/
theorem lookupA_eraseA_self (m : List (Nat × κ)) (k : Nat) :
    lookupA (eraseA m k) k = none := by
  induction m with
  | nil => rfl
  | cons kv rest ih =>
    obtain ⟨k0, v0⟩ := kv
    by_cases h : k0 = k
    · simp [eraseA, h, ih]
    · simp [eraseA, lookupA, h, ih]

/-- Erasing any key preserves the absence of an id. -/
theorem lookupA_eraseA_of_none {m : List (Nat × κ)} {id : Nat}
    (h : lookupA m id = none) (k : Nat) : lookupA (eraseA m k) id = none := by
  induction m with
  | nil => rfl
  | cons kv rest ih =>
    obtain ⟨k0, v0⟩ := kv
    by_cases hk0 : k0 = id
    · simp [lookupA, hk0] at h
    · simp only [lookupA, if_neg hk0] at h
      by_cases hk : k0 = k
      · simp [eraseA, hk, ih h]
      · simp [eraseA, lookupA, hk, hk0, ih h]

/-- Every `(id, callback)` pair executed by the collection loop was found in
the `alarms_` map, so an id absent from the map is never executed. -/
theorem loopAlarmsAux_not_mem {id : Nat} :
    ∀ (fuel : Nat) (alarms : List (Nat × κ)) (heap : List Entry) (now : Nat),
      lookupA alarms id = none →
      ∀ cb : κ, (id, cb) ∉ (loopAlarmsAux fuel alarms heap now).1 := by
  intro fuel
  induction fuel with
  | zero => intro alarms heap now h cb; simp [loopAlarmsAux]
  | succ fuel ih =>
    intro alarms heap now h cb
    match heap with
    | [] => simp [loopAlarmsAux]
    | e :: heap0 =>
      simp only [loopAlarmsAux]
      split
      · split
        · rename_i cb0 hfound
          intro hmem
          rcases List.mem_cons.mp hmem with heq | hmem0
          · have hback : ((e :: heap0).getLastD (0, 0)).2 = id := by
              have := (congrArg Prod.fst heq).symm
              simpa using this
            rw [hback] at hfound
            rw [h] at hfound
            exact Option.noConfusion hfound
          · exact ih _ _ now (lookupA_eraseA_of_none h _) cb hmem0
        · exact ih _ _ now h cb
      · simp

end Alarms

/-- Claim C8: when `Selector::UnregisterAlarm(id)` completes before the loop
collects due alarms, the callback registered under `id` is never executed by
`LoopAlarms`: the stale heap entry is filtered out at execution time because
the id is no longer found in `alarms_`. -/
theorem c8_unregistered_alarm_not_executed {κ : Type} (st : Alarms.AlarmState κ)
    (now id : Nat) (cb : κ) :
    (id, cb) ∉ (Alarms.loopAlarms (Alarms.unregisterAlarm st id) now).1 := by
  unfold Alarms.loopAlarms
  split
  · simp
  · exact Alarms.loopAlarmsAux_not_mem _ _ _ now
      (Alarms.lookupA_eraseA_self st.alarms id) cb

namespace Addr

/-- Digit characters below 16 map back through the hex lookup. -/
theorem hexVal?_digitChar {d : Nat} (h : d < 16) :
    hexVal? (Nat.digitChar d) = some d := by
  interval_cases d <;> decide

/-- Digit characters below 10 map back through the decimal lookup. -/
theorem decVal?_digitChar {d : Nat} (h : d < 10) :
    decVal? (Nat.digitChar d) = some d := by
  interval_cases d <;> decide

/-- Digit characters are never the colon. -/
theorem digitChar_ne_colon {d : Nat} (h : d < 16) : Nat.digitChar d ≠ ':' := by
  interval_cases d <;> decide

/-- Digit characters are never the dot. -/
theorem digitChar_ne_dot {d : Nat} (h : d < 16) : Nat.digitChar d ≠ '.' := by
  interval_cases d <;> decide

/-- Folding digits most-significant-first computes the positional value. -/
theorem foldl_mul_add (b : Nat) :
    ∀ (l : List Nat) (a : Nat),
      l.foldl (fun v d => v * b + d) a = a * b ^ l.length + Nat.ofDigits b l.reverse
  | [], a => by simp
  | d :: t, a => by
    simp only [List.foldl_cons, List.length_cons, List.reverse_cons]
    rw [foldl_mul_add b t (a * b + d), Nat.ofDigits_append]
    simp only [Nat.ofDigits_singleton, List.length_reverse]
    ring

/-- The big-endian value of the reversed digit expansion is the number. -/
theorem bigVal_digits (b n : Nat) :
    bigVal b ((Nat.digits b n).reverse) = n := by
  unfold bigVal
  rw [foldl_mul_add]
  simp [Nat.ofDigits_digits]

/-- Cons step of the big-endian value. -/
theorem bigVal_cons (b d : Nat) (ds : List Nat) :
    bigVal b (d :: ds) = d * b ^ ds.length + bigVal b ds := by
  unfold bigVal
  simp only [List.foldl_cons, Nat.zero_mul, Nat.zero_add]
  rw [foldl_mul_add, foldl_mul_add]
  simp

/-- Digit lists bounded by the base have value below the full power. -/
theorem bigVal_lt_pow {b : Nat} :
    ∀ {ds : List Nat}, (∀ d ∈ ds, d < b) → bigVal b ds < b ^ ds.length
  | [], _ => by simp [bigVal]
  | d :: ds, h => by
    have hd : d < b := h d (List.mem_cons_self d ds)
    have hds := bigVal_lt_pow (fun x hx => h x (List.mem_cons_of_mem d hx))
    rw [bigVal_cons]
    calc d * b ^ ds.length + bigVal b ds
        < d * b ^ ds.length + b ^ ds.length := by omega
      _ = (d + 1) * b ^ ds.length := by ring
      _ ≤ b * b ^ ds.length := Nat.mul_le_mul_right _ hd
      _ = b ^ (d :: ds).length := by rw [List.length_cons]; ring

end Addr

namespace Addr

/-- Structure of a `%x` rendering: digit characters of a nonempty bounded
digit list whose big-endian value is the rendered number. -/
theorem hexChars_spec (w : Nat) :
    ∃ ds, hexChars w = ds.map Nat.digitChar ∧ ds ≠ [] ∧
      (∀ d ∈ ds, d < 16) ∧ bigVal 16 ds = w := by
  by_cases h : w = 0
  · subst h
    exact ⟨[0], rfl, by simp, by simp, by simp [bigVal]⟩
  · refine ⟨(Nat.digits 16 w).reverse, ?_, ?_, ?_, bigVal_digits 16 w⟩
    · simp [hexChars, baseChars, h]
    · simpa using Nat.digits_ne_nil_iff_ne_zero.mpr h
    · intro d hd
      exact Nat.digits_lt_base (by norm_num) (List.mem_reverse.mp hd)

/-- Structure of a decimal rendering: digit characters of a nonempty digit
list below 10 whose value is the number, and whose leading digit is only zero
for the single-digit rendering of zero. -/
theorem decChars_spec (n : Nat) :
    ∃ ds, decChars n = ds.map Nat.digitChar ∧ ds ≠ [] ∧
      (∀ d ∈ ds, d < 10) ∧ bigVal 10 ds = n ∧
      (ds = [0] ∨ ∃ d ds0, ds = d :: ds0 ∧ d ≠ 0) := by
  by_cases h : n = 0
  · subst h
    exact ⟨[0], rfl, by simp, by simp, by simp [bigVal], Or.inl rfl⟩
  · refine ⟨(Nat.digits 10 n).reverse, ?_, ?_, ?_, bigVal_digits 10 n, ?_⟩
    · simp [decChars, baseChars, h]
    · simpa using Nat.digits_ne_nil_iff_ne_zero.mpr h
    · intro d hd
      exact Nat.digits_lt_base (by norm_num) (List.mem_reverse.mp hd)
    · refine Or.inr ?_
      have hnil : Nat.digits 10 n ≠ [] := Nat.digits_ne_nil_iff_ne_zero.mpr h
      obtain ⟨d, ds0, hds⟩ := List.exists_cons_of_ne_nil (l := (Nat.digits 10 n).reverse)
        (by simpa using hnil)
      refine ⟨d, ds0, hds, ?_⟩
      have hlast : (Nat.digits 10 n).getLast hnil ≠ 0 :=
        Nat.getLast_digit_ne_zero 10 h
      have h1 : (Nat.digits 10 n).reverse.head? = some d := by rw [hds]; rfl
      rw [List.head?_reverse, List.getLast?_eq_getLast _ hnil, Option.some.injEq] at h1
      exact h1 ▸ hlast

/-- One hex digit step of the `inet_pton6` loop. -/
theorem p6go_digit {c : Char} {d : Nat} (hc : hexVal? c = some d)
    (rest : List Char) (st : P6State) (h : st.val * 16 + d ≤ 65535) :
    p6go (c :: rest) st =
      p6go rest ⟨st.bytes, st.colonp, true, st.val * 16 + d, st.curtok⟩ := by
  obtain ⟨bytes, colonp, saw, val, curtok⟩ := st
  simp only [p6go, hc]
  rw [if_neg (by simp at h ⊢; omega)]

/-- Absorption of a full digit-character group by the `inet_pton6` loop. -/
theorem p6go_absorb :
    ∀ (ds : List Nat) (rest : List Char) (st : P6State), ds ≠ [] →
      (∀ d ∈ ds, d < 16) →
      st.val * 16 ^ ds.length + bigVal 16 ds ≤ 65535 →
      p6go (ds.map Nat.digitChar ++ rest) st =
        p6go rest ⟨st.bytes, st.colonp, true,
          st.val * 16 ^ ds.length + bigVal 16 ds, st.curtok⟩ := by
  intro ds
  induction ds with
  | nil => intro rest st hne; exact absurd rfl hne
  | cons d ds ih =>
    intro rest st _ hlt hbound
    have hd16 : d < 16 := hlt d (List.mem_cons_self d ds)
    have hval : st.val * 16 ^ (d :: ds).length + bigVal 16 (d :: ds) =
        (st.val * 16 + d) * 16 ^ ds.length + bigVal 16 ds := by
      rw [bigVal_cons]
      simp only [List.length_cons, pow_succ]
      ring
    have hpow : 0 < 16 ^ ds.length := pow_pos (by norm_num) ds.length
    have hstep : st.val * 16 + d ≤ 65535 := by
      calc st.val * 16 + d ≤ (st.val * 16 + d) * 16 ^ ds.length :=
            Nat.le_mul_of_pos_right _ hpow
        _ ≤ (st.val * 16 + d) * 16 ^ ds.length + bigVal 16 ds := Nat.le_add_right _ _
        _ ≤ 65535 := hval ▸ hbound
    rw [List.map_cons, List.cons_append,
      p6go_digit (hexVal?_digitChar hd16) _ st hstep]
    by_cases hds : ds = []
    · subst hds
      simp only [List.map_nil, List.nil_append, hval]
      simp [bigVal]
    · rw [ih _ _ hds (fun x hx => hlt x (List.mem_cons_of_mem d hx))
        (by simpa using hval ▸ hbound)]
      simp only [hval]

end Addr

namespace Addr

/-- The colon is not a hex digit. -/
theorem hexVal?_colon : hexVal? ':' = none := by decide

/-- The dot is not a hex digit. -/
theorem hexVal?_dot : hexVal? '.' = none := by decide

/-- Absorption of a `%x` group starting from a fresh value. -/
theorem p6go_hexChars (w : Nat) (hw : w ≤ 65535) (rest : List Char)
    (st : P6State) (hval : st.val = 0) :
    p6go (hexChars w ++ rest) st =
      p6go rest ⟨st.bytes, st.colonp, true, w, st.curtok⟩ := by
  obtain ⟨ds, hmap, hne, hlt, hbig⟩ := hexChars_spec w
  rw [hmap, p6go_absorb ds rest st hne hlt (by rw [hval, hbig]; simpa using hw)]
  rw [hval, hbig]
  simp

/-- Absorption of a decimal group read as hex digits by the `inet_pton6`
loop, as happens just before the dotted IPv4 tail. -/
theorem p6go_decChars (n : Nat) (hn : n ≤ 255) (rest : List Char)
    (st : P6State) (hval : st.val = 0) :
    p6go (decChars n ++ rest) st =
      p6go rest ⟨st.bytes, st.colonp, true, hexOfDec n, st.curtok⟩ := by
  by_cases h : n = 0
  · subst h
    have habs := p6go_absorb [0] rest st (by simp) (by simp)
      (by rw [hval]; simp [bigVal])
    have h0 : ([0] : List Nat).map Nat.digitChar = ['0'] := rfl
    rw [h0] at habs
    show p6go (['0'] ++ rest) st = _
    rw [habs, hval]
    simp [hexOfDec, bigVal]
  · have hds : decChars n = ((Nat.digits 10 n).reverse).map Nat.digitChar := by
      simp [decChars, baseChars, h]
    have hne : (Nat.digits 10 n).reverse ≠ [] := by
      simpa using Nat.digits_ne_nil_iff_ne_zero.mpr h
    have hlt : ∀ d ∈ (Nat.digits 10 n).reverse, d < 16 := fun d hd =>
      lt_of_lt_of_le (Nat.digits_lt_base (by norm_num) (List.mem_reverse.mp hd))
        (by norm_num)
    have hlen : (Nat.digits 10 n).length ≤ 3 := by
      rw [Nat.digits_len 10 n (by norm_num) h]
      have : Nat.log 10 n < 3 := Nat.log_lt_of_lt_pow h (by norm_num; omega)
      omega
    have hbig : bigVal 16 ((Nat.digits 10 n).reverse) < 4096 := by
      have h1 := bigVal_lt_pow hlt
      have h2 : (16 : Nat) ^ (Nat.digits 10 n).reverse.length ≤ 16 ^ 3 :=
        Nat.pow_le_pow_right (by norm_num) (by simpa using hlen)
      omega
    rw [hds, p6go_absorb _ rest st hne hlt (by rw [hval]; simp; omega)]
    rw [hval]
    simp [hexOfDec, h]

/-- The colon flush step of the `inet_pton6` loop: a pending group is written
as two big-endian bytes, provided the string does not end here and the buffer
has room. -/
theorem p6go_colon_flush (rest : List Char) (st : P6State) (hsaw : st.saw = true)
    (hrest : rest ≠ []) (hlen : st.bytes.length + 2 ≤ 16) :
    p6go (':' :: rest) st =
      p6go rest ⟨st.bytes ++ [st.val / 256 % 256, st.val % 256],
        st.colonp, false, 0, rest⟩ := by
  obtain ⟨bytes, colonp, saw, val, curtok⟩ := st
  simp only at hsaw hlen
  subst hsaw
  have h1 : ¬ rest.isEmpty = true := by simpa [List.isEmpty_iff] using hrest
  have h2 : ¬ (16 < bytes.length + 2) := by omega
  simp [p6go, hexVal?_colon, h1, h2]

/-- The `::` marker step of the `inet_pton6` loop. -/
theorem p6go_colon_mark (rest : List Char) (st : P6State) (hsaw : st.saw = false)
    (hcp : st.colonp = none) :
    p6go (':' :: rest) st =
      p6go rest ⟨st.bytes, some st.bytes.length, false, st.val, rest⟩ := by
  obtain ⟨bytes, colonp, saw, val, curtok⟩ := st
  simp only at hsaw hcp
  subst hsaw
  subst hcp
  simp [p6go, hexVal?_colon]

/-- The dot step of the `inet_pton6` loop: hand the current token to
`inet_pton4` and stop. -/
theorem p6go_dot (rest : List Char) (st : P6State) :
    p6go ('.' :: rest) st =
      (if st.bytes.length + 4 ≤ 16 then
        match pton4 st.curtok with
        | some v4 => p6finalizeCore (st.bytes ++ v4) st.colonp
        | none => none
      else none) := by
  obtain ⟨bytes, colonp, saw, val, curtok⟩ := st
  simp [p6go, hexVal?_dot]

end Addr

namespace Addr

/-- A `%x` rendering is never empty. -/
theorem hexChars_ne_nil (w : Nat) : hexChars w ≠ [] := by
  obtain ⟨ds, hmap, hne, _, _⟩ := hexChars_spec w
  rw [hmap]
  simpa using hne

/-- A non-trivial colon-separated rendering is never empty. -/
theorem renderPlain_ne_nil : ∀ {ws : List Nat}, ws ≠ [] → renderPlain ws ≠ []
  | [], h => absurd rfl h
  | [w], _ => by simpa [renderPlain] using hexChars_ne_nil w
  | w :: w1 :: t, _ => by
    unfold renderPlain
    exact List.append_ne_nil_of_right_ne_nil _ (by simp)

/-- Unfolding for an empty flush list. -/
theorem flatWords_nil : flatWords [] = [] := rfl

/-- Unfolding for a flush-list cons. -/
theorem flatWords_cons (w : Nat) (ws : List Nat) :
    flatWords (w :: ws) = w / 256 % 256 :: w % 256 :: flatWords ws := rfl

/-- The flushed bytes of concatenated word lists concatenate. -/
theorem flatWords_append (l1 l2 : List Nat) :
    flatWords (l1 ++ l2) = flatWords l1 ++ flatWords l2 := by
  simp [flatWords]

/-- Two bytes are flushed per word. -/
theorem flatWords_length (ws : List Nat) :
    (flatWords ws).length = 2 * ws.length := by
  induction ws with
  | nil => rfl
  | cons w ws ih => rw [flatWords_cons]; simp [ih]; omega

/-- End-of-input flush with a group pending. -/
theorem p6finalize_saw (st : P6State) (hsaw : st.saw = true)
    (hlen : st.bytes.length + 2 ≤ 16) :
    p6finalize st =
      p6finalizeCore (st.bytes ++ [st.val / 256 % 256, st.val % 256]) st.colonp := by
  obtain ⟨bytes, colonp, saw, val, curtok⟩ := st
  simp only at hsaw hlen
  subst hsaw
  simp only [p6finalize, if_true]
  rw [if_neg (by omega)]

/-- Run of the `inet_pton6` loop over a colon-separated group list reaching
the end of the input: all groups are flushed and the shared tail runs. -/
theorem p6go_renderPlain :
    ∀ (ws : List Nat) (st : P6State), ws ≠ [] → (∀ w ∈ ws, w ≤ 65535) →
      st.saw = false → st.val = 0 → st.bytes.length + 2 * ws.length ≤ 16 →
      p6go (renderPlain ws) st = p6finalizeCore (st.bytes ++ flatWords ws) st.colonp
  | [], _, hne, _, _, _, _ => absurd rfl hne
  | [w], st, _, hw, hsaw, hval, hlen => by
    have hw1 : w ≤ 65535 := hw w (by simp)
    have h1 : renderPlain [w] = hexChars w ++ [] := by simp [renderPlain]
    rw [h1, p6go_hexChars w hw1 [] st hval]
    show p6finalize _ = _
    rw [p6finalize_saw _ rfl (by simp at hlen ⊢; omega)]
    rfl
  | w :: w1 :: t, st, _, hw, hsaw, hval, hlen => by
    have hw1 : w ≤ 65535 := hw w (by simp)
    have h1 : renderPlain (w :: w1 :: t) =
        hexChars w ++ ':' :: renderPlain (w1 :: t) := rfl
    rw [h1, p6go_hexChars w hw1 _ st hval,
      p6go_colon_flush _ _ rfl (renderPlain_ne_nil (by simp))
        (by simp at hlen ⊢; omega)]
    rw [p6go_renderPlain (w1 :: t) _ (by simp)
      (fun x hx => hw x (List.mem_cons_of_mem w hx)) rfl rfl
      (by simp at hlen ⊢; omega)]
    simp [flatWords_cons, List.append_assoc]

/-- Run of the `inet_pton6` loop over a colon-terminated group list: all
groups are flushed and the loop continues on the remaining input. -/
theorem p6go_renderPre :
    ∀ (ws : List Nat) (rest : List Char) (st : P6State),
      (∀ w ∈ ws, w ≤ 65535) →
      st.saw = false → st.val = 0 → st.bytes.length + 2 * ws.length ≤ 16 →
      rest ≠ [] →
      p6go (renderPre ws ++ rest) st =
        p6go rest ⟨st.bytes ++ flatWords ws, st.colonp, false, 0,
          if ws.isEmpty then st.curtok else rest⟩
  | [], rest, st, _, hsaw, hval, _, _ => by
    obtain ⟨bytes, colonp, saw, val, curtok⟩ := st
    simp only at hsaw hval
    subst hsaw
    subst hval
    simp [renderPre, flatWords_nil]
  | w :: t, rest, st, hw, hsaw, hval, hlen, hrest => by
    have hw1 : w ≤ 65535 := hw w (by simp)
    have h1 : renderPre (w :: t) ++ rest =
        hexChars w ++ ':' :: (renderPre t ++ rest) := by
      simp [renderPre]
    rw [h1, p6go_hexChars w hw1 _ st hval,
      p6go_colon_flush _ _ rfl (List.append_ne_nil_of_right_ne_nil _ hrest)
        (by simp at hlen ⊢; omega)]
    rw [p6go_renderPre t rest _ (fun x hx => hw x (List.mem_cons_of_mem w hx))
      rfl rfl (by simp at hlen ⊢; omega) hrest]
    by_cases ht : t = []
    · subst ht
      simp [flatWords_cons, renderPre, List.append_assoc]
    · have : t.isEmpty = false := by simpa [List.isEmpty_iff] using ht
      simp [this, flatWords_cons, List.append_assoc]

end Addr

namespace Addr

/-- The colon is not a decimal digit. -/
theorem decVal?_colon : decVal? ':' = none := by decide

/-- The dot is not a decimal digit. -/
theorem decVal?_dot : decVal? '.' = none := by decide

/-- Decimal absorption inside an octet whose leading digit was nonzero. -/
theorem pton4_absorb_cont :
    ∀ (ds : List Nat) (rest : List Char) (st : P4State), (∀ d ∈ ds, d < 10) →
      st.saw = true → st.cur ≠ 0 →
      st.cur * 10 ^ ds.length + bigVal 10 ds ≤ 255 →
      pton4Go (ds.map Nat.digitChar ++ rest) st =
        pton4Go rest ⟨st.done, st.cur * 10 ^ ds.length + bigVal 10 ds, true, st.octets⟩
  | [], rest, st, _, hsaw, _, _ => by
    obtain ⟨done, cur, saw, octets⟩ := st
    simp only at hsaw
    subst hsaw
    simp [bigVal]
  | d :: t, rest, st, hlt, hsaw, hcur, hbound => by
    have hd : d < 10 := hlt d (by simp)
    have hval : st.cur * 10 ^ (d :: t).length + bigVal 10 (d :: t) =
        (st.cur * 10 + d) * 10 ^ t.length + bigVal 10 t := by
      rw [bigVal_cons]
      simp only [List.length_cons, pow_succ]
      ring
    have hpow : 0 < 10 ^ t.length := pow_pos (by norm_num) t.length
    have hstep : st.cur * 10 + d ≤ 255 := by
      calc st.cur * 10 + d ≤ (st.cur * 10 + d) * 10 ^ t.length :=
            Nat.le_mul_of_pos_right _ hpow
        _ ≤ (st.cur * 10 + d) * 10 ^ t.length + bigVal 10 t := Nat.le_add_right _ _
        _ ≤ 255 := hval ▸ hbound
    obtain ⟨done, cur, saw, octets⟩ := st
    simp only at hsaw hcur hstep hval hbound ⊢
    subst hsaw
    rw [List.map_cons, List.cons_append]
    have h1 : pton4Go (Nat.digitChar d :: (t.map Nat.digitChar ++ rest))
        ⟨done, cur, true, octets⟩ =
        pton4Go (t.map Nat.digitChar ++ rest) ⟨done, cur * 10 + d, true, octets⟩ := by
      simp only [pton4Go, decVal?_digitChar hd]
      rw [if_neg (by simp [hcur]), if_neg (by omega)]
      simp
    rw [h1, pton4_absorb_cont t rest _ (fun x hx => hlt x (by simp [hx]))
      rfl (by simp; omega) (by simpa using hval ▸ hbound)]
    simp only [hval]

/-- Decimal absorption of a full rendered octet from a fresh state. -/
theorem pton4_absorb_start (n : Nat) (hn : n ≤ 255) (rest : List Char)
    (st : P4State) (hsaw : st.saw = false) (hcur : st.cur = 0)
    (hoct : st.octets < 4) :
    pton4Go (decChars n ++ rest) st =
      pton4Go rest ⟨st.done, n, true, st.octets + 1⟩ := by
  obtain ⟨ds, hmap, hne, hlt, hbig, hshape⟩ := decChars_spec n
  obtain ⟨done, cur, saw, octets⟩ := st
  simp only at hsaw hcur hoct ⊢
  subst hsaw
  subst hcur
  rcases hshape with h0 | ⟨d, ds0, hds, hd0⟩
  · subst h0
    rw [hmap]
    have hn0 : n = 0 := by simpa [bigVal] using hbig.symm
    subst hn0
    simp only [List.map_cons, List.map_nil, List.cons_append, List.nil_append]
    simp only [pton4Go, decVal?_digitChar (by norm_num : (0 : Nat) < 10)]
    rw [if_neg (by simp), if_neg (by omega), if_neg (by simp), if_neg (by omega)]
  · subst hds
    have hd : d < 10 := hlt d (by simp)
    rw [hmap]
    simp only [List.map_cons, List.cons_append]
    have h1 : pton4Go (Nat.digitChar d :: (ds0.map Nat.digitChar ++ rest))
        ⟨done, 0, false, octets⟩ =
        pton4Go (ds0.map Nat.digitChar ++ rest) ⟨done, d, true, octets + 1⟩ := by
      simp only [pton4Go, decVal?_digitChar hd]
      rw [if_neg (by simp), if_neg (by omega), if_neg (by simp), if_neg (by omega)]
      simp
    rw [h1]
    by_cases hds0 : ds0 = []
    · subst hds0
      rw [bigVal_cons] at hbig
      simp only [List.map_nil, List.nil_append]
      have : d = n := by simpa [bigVal] using hbig
      rw [this]
    · have hbig2 : d * 10 ^ ds0.length + bigVal 10 ds0 = n := by
        rw [bigVal_cons] at hbig
        exact hbig
      rw [pton4_absorb_cont ds0 rest _ (fun x hx => hlt x (by simp [hx]))
        rfl (by simpa using hd0) (by simp only; rw [hbig2]; exact hn)]
      simp only [hbig2]

end Addr

namespace Addr

/-- The dot step of the `inet_pton4` loop: close the current octet. -/
theorem pton4_dot (rest : List Char) (st : P4State) (hsaw : st.saw = true)
    (hoct : st.octets ≠ 4) :
    pton4Go ('.' :: rest) st =
      pton4Go rest ⟨st.done ++ [st.cur], 0, false, st.octets⟩ := by
  obtain ⟨done, cur, saw, octets⟩ := st
  simp only at hsaw hoct
  subst hsaw
  simp [pton4Go, decVal?_dot, hoct]

/-- Round trip of glibc `inet_ntop4` through glibc `inet_pton4`. -/
theorem pton4_ntop4 (b0 b1 b2 b3 : Nat) (h0 : b0 ≤ 255) (h1 : b1 ≤ 255)
    (h2 : b2 ≤ 255) (h3 : b3 ≤ 255) :
    pton4 (ntop4 b0 b1 b2 b3) = some [b0, b1, b2, b3] := by
  unfold pton4 ntop4
  rw [show decChars b0 ++ '.' :: decChars b1 ++ '.' :: decChars b2 ++
        '.' :: decChars b3 =
      decChars b0 ++ ('.' ::
        (decChars b1 ++ ('.' :: (decChars b2 ++ ('.' :: decChars b3))))) by
    simp [List.append_assoc]]
  rw [pton4_absorb_start b0 h0 _ _ rfl rfl (by norm_num),
    pton4_dot _ _ rfl (by norm_num)]
  rw [pton4_absorb_start b1 h1 _ _ rfl rfl (by norm_num),
    pton4_dot _ _ rfl (by norm_num)]
  rw [pton4_absorb_start b2 h2 _ _ rfl rfl (by norm_num),
    pton4_dot _ _ rfl (by norm_num)]
  rw [show decChars b3 = decChars b3 ++ [] by simp]
  rw [pton4_absorb_start b3 h3 _ _ rfl rfl (by norm_num)]
  simp [pton4Go]

/-- A string containing a colon is rejected by `inet_pton4` from any state. -/
theorem pton4Go_colon :
    ∀ (cs : List Char) (st : P4State), ':' ∈ cs → pton4Go cs st = none
  | [], _, h => by simp at h
  | c :: rest, st, h => by
    rcases List.mem_cons.mp h with hc | hc
    · rw [← hc]
      simp [pton4Go, decVal?_colon]
    · cases hdv : decVal? c with
      | some d =>
        simp only [pton4Go, hdv]
        split_ifs <;> first | rfl | exact pton4Go_colon rest _ hc
      | none =>
        simp only [pton4Go, hdv]
        split_ifs <;> first | rfl | exact pton4Go_colon rest _ hc

/-- Top-level `inet_pton6` on input not starting with a colon. -/
theorem pton6_cons_ne_colon {c : Char} (hc : c ≠ ':') (rest : List Char) :
    pton6 (c :: rest) = p6go (c :: rest) ⟨[], none, false, 0, c :: rest⟩ := by
  simp [pton6, hc]

/-- Top-level `inet_pton6` on input starting with two colons. -/
theorem pton6_colon_colon (cs : List Char) :
    pton6 (':' :: ':' :: cs) =
      p6go (':' :: cs) ⟨[], none, false, 0, ':' :: cs⟩ := by
  simp [pton6]

end Addr

namespace Addr

/-- Expansion step of the `::` marker when fewer than 16 bytes arrived. -/
theorem p6finalizeCore_some (bytes : List Nat) (cp : Nat)
    (h : bytes.length < 16) :
    p6finalizeCore bytes (some cp) =
      some (bytes.take cp ++ List.replicate (16 - bytes.length) 0 ++
        bytes.drop cp) := by
  simp [p6finalizeCore, Nat.ne_of_lt h]

/-- A `%x` rendering starts with a non-colon character. -/
theorem hexChars_head (w : Nat) :
    ∃ c cs, hexChars w = c :: cs ∧ c ≠ ':' := by
  obtain ⟨ds, hmap, hne, hlt, _⟩ := hexChars_spec w
  obtain ⟨d, ds0, hds⟩ := List.exists_cons_of_ne_nil hne
  subst hds
  exact ⟨Nat.digitChar d, ds0.map Nat.digitChar, by simpa using hmap,
    digitChar_ne_colon (hlt d (by simp))⟩

/-- Parse of a compressed rendering with a nonempty part before the `::`. -/
theorem pton6_run_mid (pre post : List Nat) (hpre : pre ≠ [])
    (hwpre : ∀ w ∈ pre, w ≤ 65535) (hwpost : ∀ w ∈ post, w ≤ 65535)
    (hlen : pre.length + post.length ≤ 7) :
    pton6 (renderPre pre ++ ':' :: renderPlain post) =
      some (flatWords pre ++
        List.replicate (16 - 2 * pre.length - 2 * post.length) 0 ++
        flatWords post) := by
  obtain ⟨w0, pre0, hp⟩ := List.exists_cons_of_ne_nil hpre
  obtain ⟨c, cs, hchead, hcne⟩ := hexChars_head w0
  have hshape : renderPre pre ++ ':' :: renderPlain post =
      c :: (cs ++ [':'] ++ renderPre pre0 ++ ':' :: renderPlain post) := by
    subst hp
    simp [renderPre, hchead, List.append_assoc]
  rw [hshape, pton6_cons_ne_colon hcne, ← hshape]
  rw [show renderPre pre ++ ':' :: renderPlain post =
      renderPre pre ++ (':' :: renderPlain post) from rfl]
  rw [p6go_renderPre pre _ _ hwpre rfl rfl (by simp; omega) (by simp)]
  have hpe : pre.isEmpty = false := by simpa [List.isEmpty_iff] using hpre
  rw [hpe]
  simp only [Bool.false_eq_true, if_false]
  rw [p6go_colon_mark _ _ rfl rfl]
  simp only [List.nil_append]
  have hflen : (flatWords pre).length = 2 * pre.length := flatWords_length pre
  by_cases hpost : post = []
  · subst hpost
    have hstep : p6go (renderPlain ([] : List Nat))
        ⟨flatWords pre, some (flatWords pre).length, false, 0,
          renderPlain ([] : List Nat)⟩ =
        p6finalizeCore (flatWords pre) (some (flatWords pre).length) := rfl
    rw [hstep, p6finalizeCore_some _ _ (by rw [hflen]; omega)]
    rw [List.take_length, List.drop_length, hflen]
    have h2 : (16 : Nat) - 2 * pre.length - 2 * ([] : List Nat).length =
        16 - 2 * pre.length := by simp
    rw [h2]
    simp [flatWords_nil]
  · rw [p6go_renderPlain post _ hpost hwpost rfl rfl (by rw [hflen]; omega)]
    rw [p6finalizeCore_some _ _
      (by simp only [List.length_append, hflen, flatWords_length]; omega)]
    rw [List.take_left, List.drop_left]
    have h3 : (flatWords pre ++ flatWords post).length =
        2 * pre.length + 2 * post.length := by
      simp [flatWords_length]
    rw [h3]
    have h4 : (16 : Nat) - (2 * pre.length + 2 * post.length) =
        16 - 2 * pre.length - 2 * post.length := by omega
    rw [h4]

end Addr

namespace Addr

/-- Parse of a compressed rendering whose `::` starts the string. -/
theorem pton6_run_zero (post : List Nat) (hwpost : ∀ w ∈ post, w ≤ 65535)
    (hlen : post.length ≤ 7) :
    pton6 (':' :: ':' :: renderPlain post) =
      some (List.replicate (16 - 2 * post.length) 0 ++ flatWords post) := by
  rw [pton6_colon_colon, p6go_colon_mark _ _ rfl rfl]
  by_cases hpost : post = []
  · subst hpost
    have hstep : p6go (renderPlain ([] : List Nat))
        ⟨[], some ([] : List Nat).length, false, 0, renderPlain ([] : List Nat)⟩ =
        p6finalizeCore [] (some ([] : List Nat).length) := rfl
    rw [hstep, p6finalizeCore_some _ _ (by simp)]
    simp [flatWords_nil]
  · rw [p6go_renderPlain post _ hpost hwpost rfl rfl (by simp; omega)]
    simp only [List.nil_append, List.length_nil]
    rw [p6finalizeCore_some _ _ (by simp only [flatWords_length]; omega)]
    rw [List.take_zero, List.drop_zero, flatWords_length]
    simp

/-- Parse of the encapsulated-IPv4 rendering `::a.b.c.d`. -/
theorem pton6_v4tail (b0 b1 b2 b3 : Nat) (h0 : b0 ≤ 255) (h1 : b1 ≤ 255)
    (h2 : b2 ≤ 255) (h3 : b3 ≤ 255) :
    pton6 (':' :: ':' :: ntop4 b0 b1 b2 b3) =
      some (List.replicate 12 0 ++ [b0, b1, b2, b3]) := by
  rw [pton6_colon_colon, p6go_colon_mark _ _ rfl rfl]
  rw [show ntop4 b0 b1 b2 b3 =
      decChars b0 ++ ('.' ::
        (decChars b1 ++ ('.' :: (decChars b2 ++ ('.' :: decChars b3))))) by
    simp [ntop4, List.append_assoc]]
  rw [p6go_decChars b0 h0 _ _ rfl]
  rw [p6go_dot]
  simp only [List.length_nil, List.nil_append]
  rw [if_pos (by omega)]
  rw [show decChars b0 ++ ('.' ::
      (decChars b1 ++ ('.' :: (decChars b2 ++ ('.' :: decChars b3))))) =
    ntop4 b0 b1 b2 b3 by simp [ntop4, List.append_assoc]]
  rw [pton4_ntop4 b0 b1 b2 b3 h0 h1 h2 h3]
  show p6finalizeCore ([] ++ [b0, b1, b2, b3]) (some 0) = _
  rw [p6finalizeCore_some _ _ (by simp)]
  simp

end Addr

namespace Addr

/-- Splitting of an index range. -/
theorem range'_split (s m n : Nat) :
    List.range' s (m + n) = List.range' s m ++ List.range' (s + m) n := by
  have h := List.range'_append s m n 1
  simp only [Nat.one_mul] at h
  rw [Nat.add_comm n m] at h
  exact h.symm

/-- Invariants of the zero-run scan of `inet_ntop6`: the run in progress ends
at the scan index and covers only zero words; every candidate best run covers
only zero words within bounds. -/
theorem bestRunGo_spec (ws : List Nat) :
    ∀ (t : List Nat) (i : Nat) (cur best : Option (Nat × Nat)),
      ws.drop i = t → i ≤ ws.length →
      (∀ c : Nat × Nat, cur = some c → c.1 + c.2 = i ∧ 1 ≤ c.2 ∧
        (∀ j, c.1 ≤ j → j < i → ws.getD j 0 = 0)) →
      (∀ c : Nat × Nat, best = some c → c.1 + c.2 ≤ ws.length ∧ 1 ≤ c.2 ∧
        (∀ j, c.1 ≤ j → j < c.1 + c.2 → ws.getD j 0 = 0)) →
      (∀ c : Nat × Nat, (bestRunGo t i cur best).1 = some c →
        c.1 + c.2 = ws.length ∧ 1 ≤ c.2 ∧
        (∀ j, c.1 ≤ j → j < c.1 + c.2 → ws.getD j 0 = 0)) ∧
      (∀ c : Nat × Nat, (bestRunGo t i cur best).2 = some c →
        c.1 + c.2 ≤ ws.length ∧ 1 ≤ c.2 ∧
        (∀ j, c.1 ≤ j → j < c.1 + c.2 → ws.getD j 0 = 0))
  | [], i, cur, best, hdrop, hle, hcur, hbest => by
    have hi : i = ws.length := by
      by_contra hne
      have hlt : i < ws.length := lt_of_le_of_ne hle hne
      have : ws.drop i ≠ [] := by
        intro hnil
        have := List.length_drop i ws ▸ congrArg List.length hnil
        simp at this
        omega
      exact this hdrop
    subst hi
    refine ⟨fun c hc => ?_, hbest⟩
    obtain ⟨h1, h2, h3⟩ := hcur c hc
    exact ⟨h1, h2, fun j hj1 hj2 => h3 j hj1 (by omega)⟩
  | w :: t, i, cur, best, hdrop, hle, hcur, hbest => by
    have hlt : i < ws.length := by
      by_contra hge
      have : ws.drop i = [] := List.drop_eq_nil_of_le (by omega)
      rw [hdrop] at this
      exact List.noConfusion this
    have ht : ws.drop (i + 1) = t := by
      rw [← List.tail_drop, hdrop]
      rfl
    have hw : ws.getD i 0 = w := by
      have h1 : ws[i]? = some w := by
        have := List.getElem?_drop ws i 0
        rw [hdrop] at this
        simpa using this.symm
      simp [List.getD_eq_getElem?_getD, h1]
    by_cases hw0 : w = 0
    · subst hw0
      cases hc : cur with
      | none =>
        have := bestRunGo_spec ws t (i + 1) (some (i, 1)) best ht (by omega)
          (fun c hcc => by
            cases hcc
            exact ⟨by omega, by omega, fun j hj1 hj2 => by
              have : j = i := by omega
              rw [this, hw]⟩)
          hbest
        simpa [bestRunGo, hc] using this
      | some c0 =>
        obtain ⟨hc1, hc2, hc3⟩ := hcur c0 hc
        have := bestRunGo_spec ws t (i + 1) (some (c0.1, c0.2 + 1)) best ht
          (by omega)
          (fun c hcc => by
            cases hcc
            refine ⟨?_, ?_, fun j hj1 hj2 => ?_⟩
            · show c0.1 + (c0.2 + 1) = i + 1
              omega
            · show 1 ≤ c0.2 + 1
              omega
            · have hj1a : c0.1 ≤ j := hj1
              by_cases hji : j < i
              · exact hc3 j hj1a hji
              · have hj : j = i := by omega
                rw [hj, hw])
          hbest
        simpa [bestRunGo, hc] using this
    · cases hc : cur with
      | none =>
        have := bestRunGo_spec ws t (i + 1) none best ht (by omega)
          (fun c hcc => Option.noConfusion hcc) hbest
        simpa [bestRunGo, hc, hw0] using this
      | some c0 =>
        obtain ⟨hc1, hc2, hc3⟩ := hcur c0 hc
        have hbest2 : ∀ c : Nat × Nat, updBest best c0 = some c →
            c.1 + c.2 ≤ ws.length ∧ 1 ≤ c.2 ∧
            (∀ j, c.1 ≤ j → j < c.1 + c.2 → ws.getD j 0 = 0) := by
          intro c hup
          cases hb : best with
          | none =>
            rw [hb] at hup
            have hup2 : some c0 = some c := hup
            obtain rfl := Option.some.inj hup2
            exact ⟨by omega, hc2, fun j hj1 hj2 => hc3 j hj1 (by omega)⟩
          | some b0 =>
            rw [hb] at hup
            have hup2 : (if b0.2 < c0.2 then some c0 else some b0) = some c := hup
            by_cases hcmp : b0.2 < c0.2
            · rw [if_pos hcmp] at hup2
              obtain rfl := Option.some.inj hup2
              exact ⟨by omega, hc2, fun j hj1 hj2 => hc3 j hj1 (by omega)⟩
            · rw [if_neg hcmp] at hup2
              obtain rfl := Option.some.inj hup2
              exact hbest b0 hb
        have := bestRunGo_spec ws t (i + 1) none (updBest best c0) ht (by omega)
          (fun c hcc => Option.noConfusion hcc) hbest2
        simpa [bestRunGo, hc, hw0] using this

/-- The best zero run of `inet_ntop6` has length at least two, fits the word
list, and covers only zero words. -/
theorem bestRun_spec (ws : List Nat) (b l : Nat) (h : bestRun ws = some (b, l)) :
    2 ≤ l ∧ b + l ≤ ws.length ∧
      (∀ j, b ≤ j → j < b + l → ws.getD j 0 = 0) := by
  unfold bestRun at h
  obtain ⟨hcur, hbest⟩ := bestRunGo_spec ws ws 0 none none rfl (by omega)
    (fun c hc => Option.noConfusion hc) (fun c hc => Option.noConfusion hc)
  set r := bestRunGo ws 0 none none with hr
  simp only at h
  have hfin : ∀ c : Nat × Nat,
      (match r.1 with | none => r.2 | some c => updBest r.2 c) = some c →
      c.1 + c.2 ≤ ws.length ∧ 1 ≤ c.2 ∧
      (∀ j, c.1 ≤ j → j < c.1 + c.2 → ws.getD j 0 = 0) := by
    intro c hc
    cases hc1 : r.1 with
    | none =>
      rw [hc1] at hc
      exact hbest c hc
    | some c0 =>
      rw [hc1] at hc
      cases hb : r.2 with
      | none =>
        rw [hb] at hc
        have hc2 : some c0 = some c := hc
        obtain rfl := Option.some.inj hc2
        obtain ⟨h1, h2, h3⟩ := hcur c0 hc1
        exact ⟨by omega, h2, fun j hj1 hj2 => h3 j hj1 (by omega)⟩
      | some b0 =>
        rw [hb] at hc
        have hc2 : (if b0.2 < c0.2 then some c0 else some b0) = some c := hc
        by_cases hcmp : b0.2 < c0.2
        · rw [if_pos hcmp] at hc2
          obtain rfl := Option.some.inj hc2
          obtain ⟨h1, h2, h3⟩ := hcur c0 hc1
          exact ⟨by omega, h2, fun j hj1 hj2 => h3 j hj1 (by omega)⟩
        · rw [if_neg hcmp] at hc2
          obtain rfl := Option.some.inj hc2
          exact hbest b0 hb
  cases hm : (match r.1 with | none => r.2 | some c => updBest r.2 c) with
  | none =>
    rw [hm] at h
    exact Option.noConfusion h
  | some bb =>
    rw [hm] at h
    have h3 : (if bb.2 < 2 then none else some bb) = some (b, l) := h
    by_cases h2 : bb.2 < 2
    · rw [if_pos h2] at h3
      exact Option.noConfusion h3
    · rw [if_neg h2] at h3
      obtain ⟨hh1, hh2, hh3⟩ := hfin bb hm
      obtain rfl : bb = (b, l) := Option.some.inj h3
      exact ⟨by omega, hh1, hh3⟩

end Addr

namespace Addr

/-- A colon-separated rendering as its head group plus colon-prefixed tail
groups. -/
theorem renderPlain_eq_bind (w : Nat) :
    ∀ ws : List Nat, renderPlain (w :: ws) =
      hexChars w ++ ws.flatMap (fun x => ':' :: hexChars x)
  | [] => by simp [renderPlain]
  | w1 :: t => by
    have h1 := renderPlain_eq_bind w1 t
    simp only [renderPlain, List.flatMap_cons]
    rw [h1]
    simp

/-- Colon-prefixed groups of a nonempty list fold into one leading colon and
a colon-separated rendering. -/
theorem bind_cons_renderPlain (p0 : Nat) (pt : List Nat) :
    (p0 :: pt).flatMap (fun w => ':' :: hexChars w) =
      ':' :: renderPlain (p0 :: pt) := by
  rw [renderPlain_eq_bind]
  simp

/-- A colon-terminated rendering as its head group, colon-prefixed tail
groups, and a final colon. -/
theorem renderPre_shift (w : Nat) :
    ∀ t : List Nat, hexChars w ++ t.flatMap (fun x => ':' :: hexChars x) ++ [':'] =
      renderPre (w :: t)
  | [] => by simp [renderPre]
  | x :: t => by
    have h1 := renderPre_shift x t
    simp only [renderPre, List.flatMap_cons] at h1 ⊢
    rw [← h1]
    simp

/-- Step of the `inet_ntop6` loop at index zero outside the best run. -/
theorem ntop6Go_zero (ws t4 : List Nat) (best : Option (Nat × Nat))
    (is : List Nat) (hz : ¬ inBest best 0) :
    ntop6Go ws t4 best (0 :: is) =
      hexChars (ws.getD 0 0) ++ ntop6Go ws t4 best is := by
  simp only [ntop6Go]
  rw [if_neg hz]
  simp

/-- Run of the `inet_ntop6` loop over an index segment disjoint from the best
run, starting past index zero and never firing the encapsulated-IPv4 test:
each word prints a separating colon and its hex rendering. -/
theorem ntop6Go_out (ws t4 : List Nat) (best : Option (Nat × Nat)) :
    ∀ (n s : Nat) (is : List Nat), 1 ≤ s → s + n ≤ ws.length →
      (∀ m, s ≤ m → m < s + n → ¬ inBest best m) →
      (∀ m, s ≤ m → m < s + n → ¬ (m = 6 ∧ v4TailCond best ws)) →
      ntop6Go ws t4 best (List.range' s n ++ is) =
        ((ws.drop s).take n).flatMap (fun w => ':' :: hexChars w) ++
          ntop6Go ws t4 best is
  | 0, s, is, _, _, _, _ => by simp
  | n + 1, s, is, hs, hsn, hout, hv4 => by
    have hslt : s < ws.length := by omega
    have h1 : List.range' s (n + 1) = s :: List.range' (s + 1) n := rfl
    rw [h1, List.cons_append]
    simp only [ntop6Go]
    rw [if_neg (hout s (by omega) (by omega)),
      if_pos (by omega : s ≠ 0),
      if_neg (hv4 s (by omega) (by omega))]
    rw [ntop6Go_out ws t4 best n (s + 1) is (by omega) (by omega)
      (fun m h1 h2 => hout m (by omega) (by omega))
      (fun m h1 h2 => hv4 m (by omega) (by omega))]
    rw [List.drop_eq_getElem_cons hslt, List.take_succ_cons]
    rw [List.flatMap_cons]
    rw [List.getD_eq_getElem ws 0 hslt]
    simp [List.append_assoc]

/-- Run of the `inet_ntop6` loop over indices strictly inside the best run
(past its start): nothing is printed. -/
theorem ntop6Go_run_tail (ws t4 : List Nat) (b l : Nat) :
    ∀ (n k : Nat) (is : List Nat), b < k → k + n ≤ b + l →
      ntop6Go ws t4 (some (b, l)) (List.range' k n ++ is) =
        ntop6Go ws t4 (some (b, l)) is
  | 0, k, is, _, _ => by simp
  | n + 1, k, is, hk, hkn => by
    have h1 : List.range' k (n + 1) = k :: List.range' (k + 1) n := rfl
    rw [h1, List.cons_append]
    simp only [ntop6Go]
    rw [if_pos (show inBest (some (b, l)) k from ⟨by omega, by omega⟩)]
    rw [if_neg (show ¬ runStart (some (b, l)) k from by show ¬ k = b; omega)]
    rw [ntop6Go_run_tail ws t4 b l n (k + 1) is (by omega) (by omega)]
    simp

/-- Run of the `inet_ntop6` loop over the whole best run: a single colon. -/
theorem ntop6Go_run (ws t4 : List Nat) (b l : Nat) (is : List Nat)
    (hl : 1 ≤ l) :
    ntop6Go ws t4 (some (b, l)) (List.range' b l ++ is) =
      ':' :: ntop6Go ws t4 (some (b, l)) is := by
  obtain ⟨l0, rfl⟩ : ∃ l0, l = l0 + 1 := ⟨l - 1, by omega⟩
  have h1 : List.range' b (l0 + 1) = b :: List.range' (b + 1) l0 := rfl
  rw [h1, List.cons_append]
  simp only [ntop6Go]
  rw [if_pos (show inBest (some (b, l0 + 1)) b from ⟨by omega, by omega⟩)]
  rw [if_pos (show runStart (some (b, l0 + 1)) b from rfl)]
  rw [ntop6Go_run_tail ws t4 b (l0 + 1) l0 (b + 1) is (by omega) (by omega)]
  rfl

end Addr

namespace Addr

/-- Shape of the `inet_ntop6` output when no zero run is compressed: the
eight words joined by colons. -/
theorem ntop6_shape_none (a : List Nat) (h : bestRun (toWords a) = none)
    (hlen : (toWords a).length = 8) :
    ntop6 a = renderPlain (toWords a) := by
  obtain ⟨w0, rest, hws⟩ := List.exists_cons_of_ne_nil
    (show toWords a ≠ [] by intro hnil; rw [hnil] at hlen; simp at hlen)
  have hrest : rest.length = 7 := by
    rw [hws] at hlen
    simpa using hlen
  unfold ntop6
  rw [h]
  rw [List.range_eq_range' 8]
  rw [show List.range' 0 8 = 0 :: (List.range' 1 7 ++ []) by simp; rfl]
  rw [ntop6Go_zero _ _ _ _ (show ¬ inBest none 0 from fun hf => hf)]
  rw [ntop6Go_out _ _ none 7 1 [] (by omega) (by omega)
    (fun m _ _ hf => hf) (fun m _ _ hf => hf.2)]
  rw [hws]
  show hexChars w0 ++ ((rest.take 7).flatMap (fun w => ':' :: hexChars w) ++
    ntop6Go (w0 :: rest) (a.drop 12) none []) ++ [] = _
  rw [List.take_of_length_le (by omega)]
  rw [renderPlain_eq_bind]
  simp [ntop6Go]

end Addr

namespace Addr

/-- Shape of the `inet_ntop6` output in the encapsulated-IPv4 case (best run
exactly the first six words): `::` followed by the dotted tail. -/
theorem ntop6_shape_v4 (a : List Nat) (h : bestRun (toWords a) = some (0, 6)) :
    ntop6 a = ':' :: ':' :: ntop4 ((a.drop 12).getD 0 0) ((a.drop 12).getD 1 0)
      ((a.drop 12).getD 2 0) ((a.drop 12).getD 3 0) := by
  unfold ntop6
  rw [h]
  rw [List.range_eq_range' 8]
  rw [show List.range' 0 8 = List.range' 0 6 ++ List.range' 6 2 from rfl]
  rw [ntop6Go_run _ _ 0 6 _ (by omega)]
  rw [show List.range' 6 2 = 6 :: (7 :: []) from rfl]
  simp only [ntop6Go]
  rw [if_neg (show ¬ inBest (some ((0 : Nat), (6 : Nat))) 6 from by
    show ¬ ((0 : Nat) ≤ 6 ∧ 6 < 0 + 6)
    omega)]
  rw [if_pos (show (6 : Nat) ≠ 0 by omega)]
  rw [if_pos (show (True ∧ v4TailCond (some ((0 : Nat), (6 : Nat))) (toWords a))
    from ⟨trivial, ⟨rfl, Or.inl rfl⟩⟩)]
  simp

end Addr

namespace Addr

/-- Shape of the `inet_ntop6` output when the best run starts at word zero
and the encapsulated-IPv4 test fails: a leading `::` followed by the
remaining words joined by colons. -/
theorem ntop6_shape_zero (a : List Nat) (l : Nat)
    (h : bestRun (toWords a) = some (0, l)) (hlen : (toWords a).length = 8)
    (hl2 : 2 ≤ l) (hl8 : l ≤ 8)
    (hv4 : l ≤ 6 → ¬ v4TailCond (some ((0 : Nat), l)) (toWords a)) :
    ntop6 a = ':' :: ':' :: renderPlain ((toWords a).drop l) := by
  unfold ntop6
  rw [h]
  rw [List.range_eq_range' 8]
  by_cases hl : l = 8
  · subst hl
    rw [show List.range' 0 8 = List.range' 0 8 ++ [] by simp]
    rw [ntop6Go_run _ _ 0 8 _ (by omega)]
    have hd8 : List.drop 8 (toWords a) = [] := List.drop_eq_nil_of_le (by omega)
    simp [ntop6Go, hd8, renderPlain]
  · have hsplit : List.range' 0 8 =
        List.range' 0 l ++ (List.range' l (8 - l) ++ []) := by
      rw [List.append_nil]
      have hs := range'_split 0 l (8 - l)
      rw [Nat.zero_add] at hs
      rw [← hs]
      congr 1
      omega
    rw [hsplit]
    rw [ntop6Go_run _ _ 0 l _ (by omega)]
    rw [ntop6Go_out _ _ (some (0, l)) (8 - l) l [] (by omega) (by omega)
      (fun m hm1 hm2 => by show ¬ ((0 : Nat) ≤ m ∧ m < 0 + l); omega)
      (fun m hm1 _ hf => hv4 (hf.1 ▸ hm1) hf.2)]
    rw [List.take_of_length_le (by rw [List.length_drop, hlen])]
    obtain ⟨p0, pt, hdrop⟩ := List.exists_cons_of_ne_nil
      (show (toWords a).drop l ≠ [] by
        intro hnil
        have h0 := congrArg List.length hnil
        rw [List.length_drop, hlen] at h0
        simp at h0
        omega)
    rw [hdrop, bind_cons_renderPlain, ← hdrop]
    simp [ntop6Go, hl]

end Addr

namespace Addr

/-- The encapsulated-IPv4 test requires the best run to start at word
zero. -/
theorem v4TailCond_b_pos (b l : Nat) (ws : List Nat) (hb : 1 ≤ b) :
    ¬ v4TailCond (some (b, l)) ws := by
  intro hf
  have h2 : b = 0 := hf.1
  omega

/-- Shape of the `inet_ntop6` output when the best run starts past word
zero: the words before the run rendered colon-terminated, the `::`'s second
colon, and the words after the run joined by colons. -/
theorem ntop6_shape_mid (a : List Nat) (b l : Nat)
    (h : bestRun (toWords a) = some (b, l)) (hlen : (toWords a).length = 8)
    (hb : 1 ≤ b) (hl2 : 2 ≤ l) (hbl : b + l ≤ 8) :
    ntop6 a = renderPre ((toWords a).take b) ++
      ':' :: renderPlain ((toWords a).drop (b + l)) := by
  obtain ⟨w0, rest, hws⟩ := List.exists_cons_of_ne_nil
    (show toWords a ≠ [] by intro hnil; rw [hnil] at hlen; simp at hlen)
  have hrest : rest.length = 7 := by
    rw [hws] at hlen
    simpa using hlen
  have htake : (toWords a).take b = w0 :: rest.take (b - 1) := by
    rw [hws, show b = (b - 1) + 1 by omega, List.take_succ_cons]
    simp
  have hdrop1 : (toWords a).drop 1 = rest := by rw [hws]; rfl
  have hg0 : (toWords a).getD 0 0 = w0 := by rw [hws]; rfl
  unfold ntop6
  rw [h, List.range_eq_range' 8]
  have h7 : (7 : Nat) = (b - 1) + (l + (8 - b - l)) := by omega
  have hsplit : List.range' 1 7 =
      List.range' 1 (b - 1) ++
        (List.range' b l ++ (List.range' (b + l) (8 - b - l) ++ [])) := by
    rw [List.append_nil, h7, range'_split]
    congr 1
    rw [show 1 + (b - 1) = b by omega, range'_split]
  rw [show List.range' 0 8 = 0 :: List.range' 1 7 from rfl, hsplit]
  rw [ntop6Go_zero _ _ _ _
    (show ¬ inBest (some (b, l)) 0 from by show ¬ (b ≤ 0 ∧ 0 < b + l); omega)]
  rw [ntop6Go_out _ _ (some (b, l)) (b - 1) 1 _ (by omega) (by omega)
    (fun m hm1 hm2 => by show ¬ (b ≤ m ∧ m < b + l); omega)
    (fun m _ _ hf => v4TailCond_b_pos b l (toWords a) hb hf.2)]
  rw [ntop6Go_run _ _ b l _ (by omega)]
  rw [ntop6Go_out _ _ (some (b, l)) (8 - b - l) (b + l) [] (by omega) (by omega)
    (fun m hm1 hm2 => by show ¬ (b ≤ m ∧ m < b + l); omega)
    (fun m _ _ hf => v4TailCond_b_pos b l (toWords a) hb hf.2)]
  rw [hg0, hdrop1, htake, ← renderPre_shift]
  by_cases hbl8 : b + l = 8
  · have hdropbl : (toWords a).drop (b + l) = [] :=
      List.drop_eq_nil_of_le (by omega)
    rw [hdropbl]
    have htk0 : (8 : Nat) - b - l = 0 := by omega
    rw [htk0]
    simp [ntop6Go, hbl8, renderPlain]
  · rw [show ((toWords a).drop (b + l)).take (8 - b - l) =
        (toWords a).drop (b + l)
      from List.take_of_length_le (by rw [List.length_drop, hlen]; omega)]
    obtain ⟨p0, pt, hdrop⟩ := List.exists_cons_of_ne_nil
      (show (toWords a).drop (b + l) ≠ [] by
        intro hnil
        have h0 := congrArg List.length hnil
        rw [List.length_drop, hlen] at h0
        simp at h0
        omega)
    rw [hdrop, bind_cons_renderPlain, ← hdrop]
    simp [ntop6Go, hbl8, List.append_assoc]

end Addr

namespace Addr

/-- Pairing sixteen bytes yields eight words. -/
theorem toWords_length : ∀ a : List Nat, (toWords a).length = a.length / 2
  | [] => rfl
  | [_] => by simp [toWords]
  | b0 :: b1 :: rest => by
    simp only [toWords, List.length_cons]
    rw [toWords_length rest]
    omega

/-- Words paired from bytes below 256 stay below 2^16. -/
theorem toWords_le : ∀ a : List Nat, (∀ b ∈ a, b ≤ 255) →
    ∀ w ∈ toWords a, w ≤ 65535
  | [], _ => by simp [toWords]
  | [b], _ => by simp [toWords]
  | b0 :: b1 :: rest, h => by
    simp only [toWords, List.mem_cons]
    rintro w (rfl | hw)
    · have h0 := h b0 (by simp)
      have h1 := h b1 (by simp)
      omega
    · exact toWords_le rest (fun b hb => h b (by simp [hb])) w hw

/-- Splitting the paired words back into bytes recovers an even-length byte
list. -/
theorem flatWords_toWords : ∀ a : List Nat, (∀ b ∈ a, b ≤ 255) →
    a.length % 2 = 0 → flatWords (toWords a) = a
  | [], _, _ => rfl
  | [_], _, h => by simp at h
  | b0 :: b1 :: rest, hb, h => by
    have h0 := hb b0 (by simp)
    have h1 := hb b1 (by simp)
    have hhi : (b0 * 256 + b1) / 256 % 256 = b0 := by omega
    have hlo : (b0 * 256 + b1) % 256 = b1 := by omega
    show flatWords ((b0 * 256 + b1) :: toWords rest) = _
    rw [flatWords_cons, hhi, hlo,
      flatWords_toWords rest (fun b hbm => hb b (by simp [hbm]))
        (by simp at h ⊢; omega)]

/-- Zero words flatten to zero bytes. -/
theorem flatWords_replicate (k : Nat) :
    flatWords (List.replicate k 0) = List.replicate (2 * k) 0 := by
  induction k with
  | zero => rfl
  | succ n ih =>
    rw [List.replicate_succ, flatWords_cons, ih]
    rw [show 2 * (n + 1) = (2 * n).succ.succ by omega]
    simp [List.replicate_succ]

/-- A slice on which every `getD` is zero is a zero replicate. -/
theorem slice_replicate (ws : List Nat) (b l : Nat) (hbl : b + l ≤ ws.length)
    (h : ∀ j, b ≤ j → j < b + l → ws.getD j 0 = 0) :
    (ws.drop b).take l = List.replicate l 0 := by
  rw [List.eq_replicate_iff]
  constructor
  · rw [List.length_take, List.length_drop]
    omega
  · intro x hx
    obtain ⟨i, hi, hgx⟩ := List.mem_iff_getElem.mp hx
    have hi2 : i < l := by
      have := hi
      rw [List.length_take, List.length_drop] at this
      omega
    have hi3 : b + i < ws.length := by
      have := hi
      rw [List.length_take, List.length_drop] at this
      omega
    rw [List.getElem_take, List.getElem_drop] at hgx
    rw [← hgx]
    have hz := h (b + i) (by omega) (by omega)
    rw [List.getD_eq_getElem ws 0 hi3] at hz
    exact hz

/-- Lists of length four are their four `getD` entries. -/
theorem eq_four_of_length (xs : List Nat) (h : xs.length = 4) :
    xs = [xs.getD 0 0, xs.getD 1 0, xs.getD 2 0, xs.getD 3 0] := by
  cases xs with
  | nil => simp at h
  | cons x0 t0 =>
    cases t0 with
    | nil => simp at h
    | cons x1 t1 =>
      cases t1 with
      | nil => simp at h
      | cons x2 t2 =>
        cases t2 with
        | nil => simp at h
        | cons x3 t3 =>
          cases t3 with
          | cons x4 t4 => simp at h
          | nil => rfl

/-- Decimal renderings are nonempty. -/
theorem decChars_ne_nil (n : Nat) : decChars n ≠ [] := by
  obtain ⟨ds, hmap, hne, _, _, _⟩ := decChars_spec n
  rw [hmap]
  simpa using hne

/-- Dotted-decimal renderings are nonempty. -/
theorem ntop4_ne_nil (b0 b1 b2 b3 : Nat) : ntop4 b0 b1 b2 b3 ≠ [] := by
  unfold ntop4
  intro h
  simp only [List.append_eq_nil] at h
  exact decChars_ne_nil b0 h.1.1.1

/-- `inet_pton4` rejects any input containing a colon. -/
theorem pton4_colon (cs : List Char) (h : ':' ∈ cs) : pton4 cs = none :=
  pton4Go_colon cs _ h

/-- The uncompressed rendering of at least two words contains a colon. -/
theorem colon_mem_renderPlain (w w1 : Nat) (t : List Nat) :
    ':' ∈ renderPlain (w :: w1 :: t) := by
  show ':' ∈ hexChars w ++ ':' :: renderPlain (w1 :: t)
  simp

end Addr

namespace Addr

/-- Parse of an uncompressed eight-group rendering. -/
theorem pton6_plain (ws : List Nat) (hw : ∀ w ∈ ws, w ≤ 65535)
    (hlen : ws.length = 8) :
    pton6 (renderPlain ws) = some (flatWords ws) := by
  obtain ⟨w0, t, rfl⟩ := List.exists_cons_of_ne_nil
    (show ws ≠ [] by intro hnil; rw [hnil] at hlen; simp at hlen)
  obtain ⟨c, cs, hchead, hcne⟩ := hexChars_head w0
  have hshape : renderPlain (w0 :: t) =
      c :: (cs ++ t.flatMap (fun x => ':' :: hexChars x)) := by
    rw [renderPlain_eq_bind, hchead]
    simp
  rw [hshape, pton6_cons_ne_colon hcne, ← hshape]
  rw [p6go_renderPlain (w0 :: t) _ (by simp) hw rfl rfl (by simp [hlen])]
  simp [p6finalizeCore, flatWords_length, hlen]

/-- The round trip of the IPv4 branch of `ParseFromString`: reading the four
parsed bytes as a register, byte-swapping, and splitting into the mapped
constructor recovers the bytes. -/
theorem bswap32_leU32 (b0 b1 b2 b3 : Nat) (h0 : b0 ≤ 255)
    (h1 : b1 ≤ 255) (h2 : b2 ≤ 255) (h3 : b3 ≤ 255) :
    bswap32 (leU32 b0 b1 b2 b3) =
      b0 * 16777216 + b1 * 65536 + b2 * 256 + b3 := by
  unfold bswap32 leU32
  have m0 : (b0 + 256 * b1 + 65536 * b2 + 16777216 * b3) % 256 = b0 := by omega
  have m1 : (b0 + 256 * b1 + 65536 * b2 + 16777216 * b3) / 256 % 256 = b1 := by
    omega
  have m2 : (b0 + 256 * b1 + 65536 * b2 + 16777216 * b3) / 65536 % 256 = b2 := by
    omega
  have m3 : (b0 + 256 * b1 + 65536 * b2 + 16777216 * b3) / 16777216 % 256 = b3 := by
    omega
  rw [m0, m1, m2, m3]

theorem ipOfUint32_bswap_leU32 (b0 b1 b2 b3 : Nat) (h0 : b0 ≤ 255)
    (h1 : b1 ≤ 255) (h2 : b2 ≤ 255) (h3 : b3 ≤ 255) :
    ipOfUint32 (bswap32 (leU32 b0 b1 b2 b3)) =
      [0, 0, 0, 0, 0, 0, 0, 0, 0, 0, 0xff, 0xff, b0, b1, b2, b3] := by
  rw [bswap32_leU32 b0 b1 b2 b3 h0 h1 h2 h3]
  have e0 : (b0 * 16777216 + b1 * 65536 + b2 * 256 + b3) / 16777216 % 256 = b0 := by
    omega
  have e1 : (b0 * 16777216 + b1 * 65536 + b2 * 256 + b3) / 65536 % 256 = b1 := by
    omega
  have e2 : (b0 * 16777216 + b1 * 65536 + b2 * 256 + b3) / 256 % 256 = b2 := by
    omega
  have e3 : (b0 * 16777216 + b1 * 65536 + b2 * 256 + b3) % 256 = b3 := by
    omega
  unfold ipOfUint32
  rw [e0, e1, e2, e3]

/-- A sixteen-byte list with a best zero run splits into the bytes of the
words before the run, a zero block, and the bytes of the words after it. -/
theorem bytes_decomp (a : List Nat) (b l : Nat) (hlen : a.length = 16)
    (hb255 : ∀ x ∈ a, x ≤ 255) (h : bestRun (toWords a) = some (b, l)) :
    a = flatWords ((toWords a).take b) ++ List.replicate (2 * l) 0 ++
      flatWords ((toWords a).drop (b + l)) := by
  obtain ⟨hl2, hbl, hz⟩ := bestRun_spec _ _ _ h
  have hflat : flatWords (toWords a) = a := flatWords_toWords a hb255 (by omega)
  have hrun : ((toWords a).drop b).take l = List.replicate l 0 :=
    slice_replicate _ b l hbl hz
  have hdecomp : toWords a = (toWords a).take b ++
      (((toWords a).drop b).take l ++ (toWords a).drop (b + l)) := by
    rw [← List.drop_drop, List.take_append_drop, List.take_append_drop]
  conv_lhs => rw [← hflat, hdecomp]
  rw [flatWords_append, flatWords_append, hrun, flatWords_replicate]
  simp [List.append_assoc]

end Addr

namespace Addr

/-- Round trip through `inet_ntop6`/`inet_pton6` when no zero run is
compressed. -/
theorem parse_ntop6_none (a : List Nat) (hlen : a.length = 16)
    (hb : ∀ x ∈ a, x ≤ 255) (hbr : bestRun (toWords a) = none) :
    parseIpFromString (ntop6 a) = some a := by
  have hwlen : (toWords a).length = 8 := by rw [toWords_length, hlen]
  have hflat : flatWords (toWords a) = a := flatWords_toWords a hb (by omega)
  rw [ntop6_shape_none a hbr hwlen]
  obtain ⟨w0, t, hws⟩ := List.exists_cons_of_ne_nil
    (show toWords a ≠ [] by intro hnil; rw [hnil] at hwlen; simp at hwlen)
  obtain ⟨w1, t1, ht⟩ := List.exists_cons_of_ne_nil
    (show t ≠ [] by
      intro hnil
      rw [hws, hnil] at hwlen
      simp at hwlen)
  have hcol : ':' ∈ renderPlain (toWords a) := by
    rw [hws, ht]
    exact colon_mem_renderPlain w0 w1 t1
  unfold parseIpFromString
  rw [if_neg (by
    simp only [List.isEmpty_iff]
    exact renderPlain_ne_nil (show toWords a ≠ [] by rw [hws]; simp))]
  rw [pton4_colon _ hcol, pton6_plain (toWords a) (toWords_le a hb) hwlen, hflat]

/-- Round trip through `inet_ntop4`/`inet_pton4` of an IPv4-mapped
address. -/
theorem parse_ipv4_mapped (a : List Nat) (hlen : a.length = 16)
    (hb : ∀ x ∈ a, x ≤ 255) (hip : isIpv4 a) :
    parseIpFromString
      (ntop4 (a.getD 12 0) (a.getD 13 0) (a.getD 14 0) (a.getD 15 0)) =
      some a := by
  have hm : ∀ i, 12 ≤ i → i < 16 → a.getD i 0 ≤ 255 := by
    intro i h1 h2
    have hmem : a.getD i 0 ∈ a := by
      rw [List.getD_eq_getElem _ 0 (by omega)]
      exact List.getElem_mem _
    exact hb _ hmem
  have hdroplen : (a.drop 12).length = 4 := by rw [List.length_drop, hlen]
  have hd4 := eq_four_of_length (a.drop 12) hdroplen
  have hg0 : (a.drop 12).getD 0 0 = a.getD 12 0 := by
    rw [List.getD_eq_getElem _ 0 (by omega), List.getD_eq_getElem _ 0 (by omega),
      List.getElem_drop]
  have hg1 : (a.drop 12).getD 1 0 = a.getD 13 0 := by
    rw [List.getD_eq_getElem _ 0 (by omega), List.getD_eq_getElem _ 0 (by omega),
      List.getElem_drop]
    norm_num
    rw [List.getElem?_eq_getElem (by omega)]
    rfl
  have hg2 : (a.drop 12).getD 2 0 = a.getD 14 0 := by
    rw [List.getD_eq_getElem _ 0 (by omega), List.getD_eq_getElem _ 0 (by omega),
      List.getElem_drop]
    norm_num
    rw [List.getElem?_eq_getElem (by omega)]
    rfl
  have hg3 : (a.drop 12).getD 3 0 = a.getD 15 0 := by
    rw [List.getD_eq_getElem _ 0 (by omega), List.getD_eq_getElem _ 0 (by omega),
      List.getElem_drop]
    norm_num
    rw [List.getElem?_eq_getElem (by omega)]
    rfl
  have hsplit : a = [0, 0, 0, 0, 0, 0, 0, 0, 0, 0, 0xff, 0xff] ++ a.drop 12 := by
    conv_lhs => rw [← List.take_append_drop 12 a]
    rw [show a.take 12 = [0, 0, 0, 0, 0, 0, 0, 0, 0, 0, 0xff, 0xff] from hip]
  unfold parseIpFromString
  rw [if_neg (by
    simp only [List.isEmpty_iff]
    exact ntop4_ne_nil _ _ _ _)]
  rw [pton4_ntop4 _ _ _ _ (hm 12 (by omega) (by omega))
    (hm 13 (by omega) (by omega)) (hm 14 (by omega) (by omega))
    (hm 15 (by omega) (by omega))]
  show some (ipOfUint32 (bswap32
    (leU32 (a.getD 12 0) (a.getD 13 0) (a.getD 14 0) (a.getD 15 0)))) = some a
  rw [ipOfUint32_bswap_leU32 _ _ _ _ (hm 12 (by omega) (by omega))
    (hm 13 (by omega) (by omega)) (hm 14 (by omega) (by omega))
    (hm 15 (by omega) (by omega))]
  conv_rhs => rw [hsplit, hd4]
  rw [hg0, hg1, hg2, hg3]
  rfl

end Addr

namespace Addr

/-- Round trip through `inet_ntop6`/`inet_pton6` for the encapsulated-IPv4
rendering. -/
theorem parse_ntop6_v4 (a : List Nat) (hlen : a.length = 16)
    (hb : ∀ x ∈ a, x ≤ 255) (hbr : bestRun (toWords a) = some (0, 6)) :
    parseIpFromString (ntop6 a) = some a := by
  rw [ntop6_shape_v4 a hbr]
  have hd := bytes_decomp a 0 6 hlen hb hbr
  rw [List.take_zero, flatWords_nil, List.nil_append, Nat.zero_add,
    show (2 * 6 : Nat) = 12 from rfl] at hd
  have hdroplen : (a.drop 12).length = 4 := by rw [List.length_drop, hlen]
  have hd4 := eq_four_of_length (a.drop 12) hdroplen
  have hmem : ∀ i, i < 4 → (a.drop 12).getD i 0 ≤ 255 := by
    intro i hi
    have hgm : (a.drop 12).getD i 0 ∈ a.drop 12 := by
      rw [List.getD_eq_getElem _ 0 (by omega)]
      exact List.getElem_mem _
    exact hb _ (List.mem_of_mem_drop hgm)
  have hX : a.drop 12 = flatWords ((toWords a).drop 6) := by
    conv_lhs => rw [hd]
    rw [List.drop_left' (show (List.replicate 12 (0 : Nat)).length = 12 by simp)]
  unfold parseIpFromString
  rw [if_neg (by simp)]
  rw [pton4_colon _ (by simp)]
  rw [pton6_v4tail _ _ _ _ (hmem 0 (by omega)) (hmem 1 (by omega))
    (hmem 2 (by omega)) (hmem 3 (by omega))]
  rw [← hd4, hX, ← hd]

/-- Round trip through `inet_ntop6`/`inet_pton6` when the best run starts at
word zero without the encapsulated-IPv4 rendering. -/
theorem parse_ntop6_zero (a : List Nat) (l : Nat) (hlen : a.length = 16)
    (hb : ∀ x ∈ a, x ≤ 255) (hbr : bestRun (toWords a) = some (0, l))
    (hl6 : l ≠ 6) (hip : ¬ isIpv4 a) :
    parseIpFromString (ntop6 a) = some a := by
  have hwlen : (toWords a).length = 8 := by rw [toWords_length, hlen]
  obtain ⟨hl2, hbl, hz⟩ := bestRun_spec _ _ _ hbr
  rw [hwlen] at hbl
  have hv4 : l ≤ 6 → ¬ v4TailCond (some ((0 : Nat), l)) (toWords a) := by
    intro hle hv
    have hv2 : (0 : Nat) = 0 ∧
        (l = 6 ∨ (l = 7 ∧ (toWords a).getD 7 0 ≠ 1) ∨
          (l = 5 ∧ (toWords a).getD 5 0 = 0xffff)) := hv
    rcases hv2.2 with h6 | ⟨h7, _⟩ | ⟨h5, hffff⟩
    · exact hl6 h6
    · omega
    · apply hip
      subst h5
      have hd := bytes_decomp a 0 5 hlen hb hbr
      rw [List.take_zero, flatWords_nil, List.nil_append, Nat.zero_add,
        show (2 * 5 : Nat) = 10 from rfl] at hd
      have h5lt : 5 < (toWords a).length := by omega
      have hdrop5 : (toWords a).drop 5 =
          (toWords a).getD 5 0 :: (toWords a).drop 6 := by
        rw [List.drop_eq_getElem_cons h5lt, List.getD_eq_getElem _ 0 h5lt]
      show a.take 12 = [0, 0, 0, 0, 0, 0, 0, 0, 0, 0, 0xff, 0xff]
      rw [hd, hdrop5, hffff]
      rfl
  rw [ntop6_shape_zero a l hbr hwlen hl2 (by omega) hv4]
  unfold parseIpFromString
  rw [if_neg (by simp)]
  rw [pton4_colon _ (by simp)]
  rw [pton6_run_zero ((toWords a).drop l)
    (fun w hw => toWords_le a hb w (List.mem_of_mem_drop hw))
    (by rw [List.length_drop, hwlen]; omega)]
  rw [List.length_drop, hwlen]
  rw [show (16 : Nat) - 2 * (8 - l) = 2 * l by omega]
  have hd := bytes_decomp a 0 l hlen hb hbr
  rw [List.take_zero, flatWords_nil, List.nil_append, Nat.zero_add] at hd
  rw [← hd]

/-- Round trip through `inet_ntop6`/`inet_pton6` when the best run starts
past word zero. -/
theorem parse_ntop6_mid (a : List Nat) (b l : Nat) (hlen : a.length = 16)
    (hb : ∀ x ∈ a, x ≤ 255) (hbr : bestRun (toWords a) = some (b, l))
    (hb1 : 1 ≤ b) :
    parseIpFromString (ntop6 a) = some a := by
  have hwlen : (toWords a).length = 8 := by rw [toWords_length, hlen]
  obtain ⟨hl2, hbl, hz⟩ := bestRun_spec _ _ _ hbr
  rw [hwlen] at hbl
  rw [ntop6_shape_mid a b l hbr hwlen hb1 hl2 hbl]
  have hprelen : ((toWords a).take b).length = b := by
    rw [List.length_take, hwlen]
    omega
  have hpostlen : ((toWords a).drop (b + l)).length = 8 - b - l := by
    rw [List.length_drop, hwlen]
    omega
  have hprene : (toWords a).take b ≠ [] := by
    intro hnil
    have h0 := congrArg List.length hnil
    rw [hprelen] at h0
    simp at h0
    omega
  unfold parseIpFromString
  rw [if_neg (by simp)]
  rw [pton4_colon _ (by simp)]
  rw [pton6_run_mid ((toWords a).take b) ((toWords a).drop (b + l)) hprene
    (fun w hw => toWords_le a hb w (List.mem_of_mem_take hw))
    (fun w hw => toWords_le a hb w (List.mem_of_mem_drop hw))
    (by rw [hprelen, hpostlen]; omega)]
  rw [hprelen, hpostlen,
    show (16 : Nat) - 2 * b - 2 * (8 - b - l) = 2 * l by omega]
  rw [← bytes_decomp a b l hlen hb hbr]

end Addr

/-- The `IpAddress` format/parse round trip, by case analysis on the best
zero run of the formatted address. -/
theorem ip_parse_format_round_trip (a : List Nat) (hlen : a.length = 16)
    (hb : ∀ x ∈ a, x ≤ 255) :
    Addr.parseIpFromString (Addr.ipToString a) = some a := by
  by_cases hip : Addr.isIpv4 a
  · have hts : Addr.ipToString a =
        Addr.ntop4 (a.getD 12 0) (a.getD 13 0) (a.getD 14 0) (a.getD 15 0) := by
      unfold Addr.ipToString
      rw [if_pos hip]
    rw [hts]
    exact Addr.parse_ipv4_mapped a hlen hb hip
  · have hts : Addr.ipToString a = Addr.ntop6 a := by
      unfold Addr.ipToString
      rw [if_neg hip]
    rw [hts]
    cases hbr : Addr.bestRun (Addr.toWords a) with
    | none => exact Addr.parse_ntop6_none a hlen hb hbr
    | some bl =>
      obtain ⟨b, l⟩ := bl
      by_cases hb0 : b = 0
      · subst hb0
        by_cases hl6 : l = 6
        · subst hl6
          exact Addr.parse_ntop6_v4 a hlen hb hbr
        · exact Addr.parse_ntop6_zero a l hlen hb hbr hl6 hip
      · exact Addr.parse_ntop6_mid a b l hlen hb hbr (by omega)

/-- Claim C9: for every sixteen-byte `IpAddress` value (bytes below 256),
`IpAddress::ParseFromString` applied to the text produced by
`IpAddress::ToString` succeeds and returns the same sixteen-byte value, for
IPv4-mapped and plain IPv6 addresses alike. -/
theorem c9_parse_format_ip_round_trip (a : List Nat) (hlen : a.length = 16)
    (hb : ∀ x ∈ a, x ≤ 255) :
    Addr.parseIpFromString (Addr.ipToString a) = some a :=
  ip_parse_format_round_trip a hlen hb

/-- Witness for claim C9 at the loopback address `::1`. -/
theorem c9_parse_format_ip_round_trip_witness :
    ([0, 0, 0, 0, 0, 0, 0, 0, 0, 0, 0, 0, 0, 0, 0, 1] : List Nat).length = 16 ∧
    (∀ x ∈ ([0, 0, 0, 0, 0, 0, 0, 0, 0, 0, 0, 0, 0, 0, 0, 1] : List Nat),
      x ≤ 255) ∧
    Addr.parseIpFromString
        (Addr.ipToString [0, 0, 0, 0, 0, 0, 0, 0, 0, 0, 0, 0, 0, 0, 0, 1]) =
      some [0, 0, 0, 0, 0, 0, 0, 0, 0, 0, 0, 0, 0, 0, 0, 1] :=
  ⟨by decide, by decide,
    c9_parse_format_ip_round_trip [0, 0, 0, 0, 0, 0, 0, 0, 0, 0, 0, 0, 0, 0, 0, 1]
      (by decide) (by decide)⟩

/-- Claim C10, behaviour of the code at the failing input: for the
IPv4-mapped address 127.0.0.1, `ToSockAddr` stores `htonl(ipv4())` into
`sin_addr.s_addr`, but `ParseFromSockAddr` feeds `s_addr` to the
`IpAddress(uint32_t)` constructor without the matching `ntohl`, so the round
trip returns the byte-reversed address 1.0.0.127 instead of the original;
applying the missing byte swap to the stored register value recovers the
original address, confirming that the dropped `ntohl` is the exact
divergence. -/
theorem c10_sockaddr_round_trip_swaps_bytes :
    Addr.parseFromSockAddrV4 (Addr.toSockAddrV4
        [0, 0, 0, 0, 0, 0, 0, 0, 0, 0, 0xff, 0xff, 127, 0, 0, 1]) =
      [0, 0, 0, 0, 0, 0, 0, 0, 0, 0, 0xff, 0xff, 1, 0, 0, 127] ∧
    Addr.parseFromSockAddrV4 (Addr.toSockAddrV4
        [0, 0, 0, 0, 0, 0, 0, 0, 0, 0, 0xff, 0xff, 127, 0, 0, 1]) ≠
      [0, 0, 0, 0, 0, 0, 0, 0, 0, 0, 0xff, 0xff, 127, 0, 0, 1] ∧
    Addr.ipOfUint32 (Addr.bswap32 (Addr.toSockAddrV4
        [0, 0, 0, 0, 0, 0, 0, 0, 0, 0, 0xff, 0xff, 127, 0, 0, 1])) =
      [0, 0, 0, 0, 0, 0, 0, 0, 0, 0, 0xff, 0xff, 127, 0, 0, 1] := by
  decide

namespace Addr

/-- A colon-free string has no last colon. -/
theorem rfindColon_none : ∀ y : List Char, ':' ∉ y → rfindColon y = none
  | [], _ => rfl
  | c :: rest, h => by
    have hc : c ≠ ':' := fun hh => h (by simp [hh])
    have hr : rfindColon rest = none :=
      rfindColon_none rest (fun hm => h (by simp [hm]))
    simp only [rfindColon, hr]
    rw [if_neg hc]

/-- `rfind(':')` finds the separating colon before a colon-free suffix. -/
theorem rfindColon_last : ∀ (x y : List Char), ':' ∉ y →
    rfindColon (x ++ ':' :: y) = some x.length
  | [], y, hy => by
    simp only [List.nil_append, rfindColon, rfindColon_none y hy]
    simp
  | c :: x, y, hy => by
    rw [show rfindColon ((c :: x) ++ ':' :: y) =
      (match rfindColon (x ++ ':' :: y) with
       | some i => some (i + 1)
       | none => if c = ':' then some 0 else none) from rfl]
    rw [rfindColon_last x y hy]
    rfl

theorem digitChar_ne_rbracket {d : Nat} (h : d < 10) : Nat.digitChar d ≠ ']' := by
  interval_cases d <;> decide

theorem digitChar_ne_lbracket {d : Nat} (h : d < 10) : Nat.digitChar d ≠ '[' := by
  interval_cases d <;> decide

/-- Decimal renderings contain no colon. -/
theorem decChars_no_colon (p : Nat) : ':' ∉ decChars p := by
  obtain ⟨ds, hmap, _, hlt, _, _⟩ := decChars_spec p
  rw [hmap]
  intro hm
  obtain ⟨d, hd, hdc⟩ := List.mem_map.mp hm
  exact digitChar_ne_colon (by have := hlt d hd; omega) hdc

/-- Decimal renderings end in a digit character. -/
theorem decChars_getLast (p : Nat) :
    ∃ d, d < 10 ∧ (decChars p).getLast? = some (Nat.digitChar d) := by
  obtain ⟨ds, hmap, hne, hlt, _, _⟩ := decChars_spec p
  refine ⟨ds.getLast hne, hlt _ (List.getLast_mem hne), ?_⟩
  rw [hmap, List.getLast?_map, List.getLast?_eq_getLast ds hne]
  rfl

/-- Dotted-decimal renderings start with a digit character. -/
theorem ntop4_head (b0 b1 b2 b3 : Nat) :
    ∃ d, d < 10 ∧ (ntop4 b0 b1 b2 b3).head? = some (Nat.digitChar d) := by
  obtain ⟨ds, hmap, hne, hlt, _, _⟩ := decChars_spec b0
  obtain ⟨d0, ds0, rfl⟩ := List.exists_cons_of_ne_nil hne
  refine ⟨d0, hlt d0 (by simp), ?_⟩
  unfold ntop4
  rw [hmap]
  simp [List.head?_append]

/-- `SimpleAtoi` inverts the decimal rendering of a sixteen-bit value. -/
theorem simpleAtoi?_decChars (p : Nat) (hp : p ≤ 65535) :
    simpleAtoi? (decChars p) = some p := by
  obtain ⟨ds, hmap, hne, hlt, hval, _⟩ := decChars_spec p
  have hall : (decChars p).all (fun c => (decVal? c).isSome) = true := by
    rw [List.all_eq_true]
    intro c hc
    rw [hmap] at hc
    obtain ⟨d, hd, rfl⟩ := List.mem_map.mp hc
    rw [decVal?_digitChar (by have := hlt d hd; omega)]
    rfl
  have hmapval : (decChars p).map (fun c => (decVal? c).getD 0) = ds := by
    rw [hmap, List.map_map]
    have hcg : ∀ d ∈ ds,
        ((fun c => (decVal? c).getD 0) ∘ Nat.digitChar) d = d := by
      intro d hd
      have hdd := decVal?_digitChar (show d < 10 from by have := hlt d hd; omega)
      simp [Function.comp, hdd]
    rw [List.map_congr_left hcg]
    exact List.map_id ds
  unfold simpleAtoi?
  rw [if_neg (by
    simp only [List.isEmpty_iff]
    exact decChars_ne_nil p)]
  rw [if_pos hall]
  show (if bigVal 10 ((decChars p).map fun c => (decVal? c).getD 0) < 4294967296
    then some (bigVal 10 ((decChars p).map fun c => (decVal? c).getD 0))
    else none) = some p
  rw [hmapval, hval, if_pos (by omega)]

end Addr

namespace Addr

/-- Evaluation of `HostPort::ParseFromString` on `"<host-part>:<port>"` when
the host part (after optional bracket stripping) parses as an IP and the
bracket rule is satisfied. -/
theorem hostPortParse_ip_port (x : List Char) (p : Nat) (ip : List Nat)
    (hp1 : 1 ≤ p) (hp2 : p ≤ 65535)
    (hip : parseIpFromString (if x.head? = some '[' ∧ x.getLast? = some ']'
        then (x.drop 1).take (x.length - 2) else x) = some ip)
    (hnotv6 : ¬ (isIpv6 ip ∧ (if x.head? = some '[' ∧ x.getLast? = some ']'
        then (x.drop 1).take (x.length - 2) else x) = x)) :
    hostPortParse (x ++ ':' :: decChars p) = .ok ⟨none, some ip, some p, none⟩ := by
  obtain ⟨d, hd10, hdl⟩ := decChars_getLast p
  have hlast : (x ++ ':' :: decChars p).getLast? = some (Nat.digitChar d) := by
    rw [List.getLast?_append_of_ne_nil x (by simp),
      show ':' :: decChars p = [':'] ++ decChars p from rfl,
      List.getLast?_append_of_ne_nil [':'] (decChars_ne_nil p), hdl]
  have hempty : (x ++ ':' :: decChars p).isEmpty = false := by
    cases x <;> rfl
  unfold hostPortParse
  rw [if_neg (by rw [hempty]; exact Bool.false_ne_true)]
  have hpos : (if (x ++ ':' :: decChars p).getLast? = some ']' then none
      else rfindColon (x ++ ':' :: decChars p)) = some x.length := by
    rw [if_neg (by
      rw [hlast]
      intro hh
      exact digitChar_ne_rbracket hd10 (Option.some.inj hh))]
    exact rfindColon_last x _ (decChars_no_colon p)
  have hdrop : (x ++ ':' :: decChars p).drop (x.length + 1) = decChars p := by
    rw [show x.length + 1 = (x ++ [':']).length by simp,
      show x ++ ':' :: decChars p = (x ++ [':']) ++ decChars p by simp,
      List.drop_left]
  simp only [hpos, List.take_left, hip, hdrop, simpleAtoi?_decChars p hp2]
  rw [if_neg hnotv6, if_neg (show ¬ (p = 0 ∨ 0xffff < p) by omega)]

/-- Evaluation of `HostPort::ParseFromString` on a pure host name: nonempty,
with no colon to split a port off (or ending in `']'`), and not parsing as an
IP. -/
theorem hostPortParse_host_only (h : List Char) (hne : h ≠ [])
    (hnc : h.getLast? = some ']' ∨ ':' ∉ h)
    (hipfail : parseIpFromString (if h.head? = some '[' ∧ h.getLast? = some ']'
        then (h.drop 1).take (h.length - 2) else h) = none) :
    hostPortParse h = .ok ⟨some h, none, none, none⟩ := by
  have hempty : h.isEmpty = false := by
    cases h with
    | nil => exact absurd rfl hne
    | cons c t => rfl
  unfold hostPortParse
  rw [if_neg (by rw [hempty]; exact Bool.false_ne_true)]
  have hpos : (if h.getLast? = some ']' then none else rfindColon h) =
      (none : Option Nat) := by
    by_cases hl : h.getLast? = some ']'
    · rw [if_pos hl]
    · rw [if_neg hl]
      exact rfindColon_none h (hnc.resolve_left hl)
  simp only [hpos, hipfail]

/-- Formatted IPv6 addresses are nonempty. -/
theorem ntop6_ne_nil (a : List Nat) : ntop6 a ≠ [] := by
  intro hc
  unfold ntop6 at hc
  rw [List.append_eq_nil] at hc
  have h1 := hc.1
  rw [List.range_eq_range' 8,
    show List.range' 0 8 = 0 :: List.range' 1 7 from rfl] at h1
  by_cases hin : inBest (bestRun (toWords a)) 0
  · have hrs : runStart (bestRun (toWords a)) 0 := by
      cases hbr : bestRun (toWords a) with
      | none =>
        rw [hbr] at hin
        exact absurd hin (fun h => h)
      | some bl =>
        rw [hbr] at hin
        have hb0 : bl.1 ≤ 0 := hin.1
        show 0 = bl.1
        omega
    rw [show ntop6Go (toWords a) (a.drop 12) (bestRun (toWords a))
          (0 :: List.range' 1 7) =
        (if runStart (bestRun (toWords a)) 0 then [':'] else []) ++
          ntop6Go (toWords a) (a.drop 12) (bestRun (toWords a))
            (List.range' 1 7) from by
      simp only [ntop6Go]
      rw [if_pos hin]] at h1
    rw [if_pos hrs] at h1
    simp at h1
  · rw [ntop6Go_zero _ _ _ _ hin] at h1
    rw [List.append_eq_nil] at h1
    exact hexChars_ne_nil _ h1.1

/-- Formatted addresses are nonempty. -/
theorem ipToString_ne_nil (a : List Nat) : ipToString a ≠ [] := by
  unfold ipToString
  split
  · exact ntop4_ne_nil _ _ _ _
  · exact ntop6_ne_nil a

/-- Evaluation of `HostPort::ToString` on a resolved host-port without a
host name: the (bracketed if IPv6) address text followed by the port. -/
theorem hostPortToString_ip_port (ip : List Nat) (p : Nat) :
    hostPortToString ⟨none, some ip, some p, none⟩ =
      (if isIpv6 ip then '[' :: ipToString ip ++ [']'] else ipToString ip) ++
        ':' :: decChars p := by
  simp only [hostPortToString]
  by_cases hv : isIpv6 ip
  · rw [if_pos (show (¬ (List.isEmpty ([] : List Char)) = true ∨ isIpv6 ip)
      from Or.inr hv)]
    rw [if_neg (show ¬ ((([] : List Char) ++ '[' :: ipToString ip ++ [']']) ++
        ':' :: decChars p).isEmpty = true from by simp)]
    rw [if_pos hv]
    simp
  · rw [if_neg (show ¬ (¬ (List.isEmpty ([] : List Char)) = true ∨ isIpv6 ip)
      from by
        intro hor
        rcases hor with h1 | h2
        · exact h1 rfl
        · exact hv h2)]
    rw [if_neg (show ¬ ((([] : List Char) ++ ipToString ip) ++
        ':' :: decChars p).isEmpty = true from by
      cases hi : ipToString ip with
      | nil => exact absurd hi (ipToString_ne_nil ip)
      | cons c t => simp)]
    rw [if_neg hv]
    simp

/-- Evaluation of `HostPort::ToString` on a name-only host-port. -/
theorem hostPortToString_host_only (h : List Char) (hne : h ≠ []) :
    hostPortToString ⟨some h, none, none, none⟩ = h := by
  simp only [hostPortToString]
  rw [if_neg (by
    simp only [List.isEmpty_iff]
    exact hne)]

end Addr

namespace Addr

/-- Decimal digit-list evaluations used by the concrete counterexamples
(`Nat.digits` is not kernel-reducible, so the small instances are proved by
its recurrence). -/
theorem digits_10_80 : Nat.digits 10 80 = [0, 8] := by
  rw [Nat.digits_def' (show (1 : Nat) < 10 by norm_num)
    (show (0 : Nat) < 80 by norm_num)]
  norm_num

theorem digits_10_127 : Nat.digits 10 127 = [7, 2, 1] := by
  rw [Nat.digits_def' (show (1 : Nat) < 10 by norm_num)
    (show (0 : Nat) < 127 by norm_num)]
  norm_num

theorem decChars_80 : decChars 80 = ['8', '0'] := by
  unfold decChars baseChars
  rw [if_neg (by norm_num), digits_10_80]
  rfl

theorem decChars_127 : decChars 127 = ['1', '2', '7'] := by
  unfold decChars baseChars
  rw [if_neg (by norm_num), digits_10_127]
  rfl

theorem decChars_0 : decChars 0 = ['0'] := rfl

theorem decChars_1 : decChars 1 = ['1'] := by
  unfold decChars baseChars
  rw [if_neg (by norm_num), show Nat.digits 10 1 = [1] from by norm_num]
  rfl

theorem ntop4_127_0_0_1 : ntop4 127 0 0 1 = "127.0.0.1".data := by
  unfold ntop4
  rw [decChars_127, decChars_0, decChars_1]
  rfl

end Addr

/-- Claim C4, counterexample: the host-port round trip fails as stated.  A
resolved host-port that ALSO carries a host name renders as
`"h[127.0.0.1]:80"`, which parses back with the mangled host name
`"h[127.0.0.1]"`, no ip and the port only; and the name-only host `"a:b"`
renders as `"a:b"`, which does not parse at all (the text after the last
`':'` is not a valid port), so its host string is not preserved. -/
theorem c4_host_port_round_trip_counterexample :
    Addr.hostPortToString ⟨some ['h'],
        some [0, 0, 0, 0, 0, 0, 0, 0, 0, 0, 0xff, 0xff, 127, 0, 0, 1],
        some 80, none⟩ = "h[127.0.0.1]:80".data ∧
    Addr.hostPortParse "h[127.0.0.1]:80".data =
      .ok ⟨some "h[127.0.0.1]".data, none, some 80, none⟩ ∧
    Addr.hostPortParse (Addr.hostPortToString
        ⟨some "a:b".data, none, none, none⟩) = .error () := by
  refine ⟨?_, by decide, by decide⟩
  simp only [Addr.hostPortToString]
  rw [show Addr.ipToString
      [0, 0, 0, 0, 0, 0, 0, 0, 0, 0, 0xff, 0xff, 127, 0, 0, 1] =
      Addr.ntop4 127 0 0 1 from by
    unfold Addr.ipToString
    rw [if_pos (by decide)]
    rfl]
  rw [Addr.ntop4_127_0_0_1, Addr.decChars_80]
  decide

/-- Claim C4, amended: the round trip `parse(format(hp)) = hp` holds for
resolved host-ports WITHOUT a host name (any sixteen-byte address and port
in 1…65535), and a name-only host string is preserved byte-for-byte when it
is nonempty, splits off no port (it ends in `']'` or contains no `':'`), and
does not itself parse as an IP address after optional bracket stripping. -/
theorem c4_host_port_round_trip_amended (ip : List Nat) (p : Nat)
    (h : List Char)
    (hiplen : ip.length = 16) (hipb : ∀ x ∈ ip, x ≤ 255)
    (hp1 : 1 ≤ p) (hp2 : p ≤ 65535)
    (hne : h ≠ []) (hnc : h.getLast? = some ']' ∨ ':' ∉ h)
    (hipfail : Addr.parseIpFromString
      (if h.head? = some '[' ∧ h.getLast? = some ']'
       then (h.drop 1).take (h.length - 2) else h) = none) :
    Addr.hostPortParse (Addr.hostPortToString ⟨none, some ip, some p, none⟩) =
      .ok ⟨none, some ip, some p, none⟩ ∧
    Addr.hostPortParse (Addr.hostPortToString ⟨some h, none, none, none⟩) =
      .ok ⟨some h, none, none, none⟩ := by
  constructor
  · rw [Addr.hostPortToString_ip_port ip p]
    by_cases hv : Addr.isIpv6 ip
    · rw [if_pos hv]
      have hcond : (('[' :: Addr.ipToString ip ++ [']']).head? = some '[') ∧
          (('[' :: Addr.ipToString ip ++ [']']).getLast? = some ']') := ⟨rfl, by
        rw [show '[' :: Addr.ipToString ip ++ [']'] =
            ('[' :: Addr.ipToString ip) ++ [']'] from rfl]
        exact List.getLast?_concat _⟩
      have hstrip : ((('[' :: Addr.ipToString ip ++ [']']).drop 1).take
          (('[' :: Addr.ipToString ip ++ [']']).length - 2)) =
          Addr.ipToString ip := by
        show (Addr.ipToString ip ++ [']']).take _ = _
        rw [show ('[' :: Addr.ipToString ip ++ [']']).length - 2 =
            (Addr.ipToString ip).length by simp]
        exact List.take_left _ _
      apply Addr.hostPortParse_ip_port ('[' :: Addr.ipToString ip ++ [']'])
        p ip hp1 hp2
      · rw [if_pos hcond, hstrip]
        exact ip_parse_format_round_trip ip hiplen hipb
      · rw [if_pos hcond, hstrip]
        intro hcontra
        have hl := congrArg List.length hcontra.2
        simp only [List.length_cons, List.length_append,
          List.length_singleton] at hl
        omega
    · rw [if_neg hv]
      have hip4 : Addr.isIpv4 ip := by
        by_contra hc
        exact hv hc
      obtain ⟨d, hd10, hhead⟩ := Addr.ntop4_head (ip.getD 12 0) (ip.getD 13 0)
        (ip.getD 14 0) (ip.getD 15 0)
      have hts4 : Addr.ipToString ip =
          Addr.ntop4 (ip.getD 12 0) (ip.getD 13 0) (ip.getD 14 0)
            (ip.getD 15 0) := by
        unfold Addr.ipToString
        rw [if_pos hip4]
      have hcond : ¬ ((Addr.ipToString ip).head? = some '[' ∧
          (Addr.ipToString ip).getLast? = some ']') := by
        intro hcc
        have h1 := hcc.1
        rw [hts4, hhead] at h1
        exact Addr.digitChar_ne_lbracket hd10 (Option.some.inj h1)
      apply Addr.hostPortParse_ip_port (Addr.ipToString ip) p ip hp1 hp2
      · rw [if_neg hcond]
        exact ip_parse_format_round_trip ip hiplen hipb
      · rw [if_neg hcond]
        intro hcontra
        exact hv hcontra.1
  · rw [Addr.hostPortToString_host_only h hne]
    exact Addr.hostPortParse_host_only h hne hnc hipfail

/-- Witness for the amended claim C4 at `::1` port 80 and the host name
`"host.name"`. -/
theorem c4_host_port_round_trip_amended_witness :
    Addr.hostPortParse (Addr.hostPortToString
        ⟨none, some [0, 0, 0, 0, 0, 0, 0, 0, 0, 0, 0, 0, 0, 0, 0, 1],
          some 80, none⟩) =
      .ok ⟨none, some [0, 0, 0, 0, 0, 0, 0, 0, 0, 0, 0, 0, 0, 0, 0, 1],
        some 80, none⟩ ∧
    Addr.hostPortParse (Addr.hostPortToString
        ⟨some "host.name".data, none, none, none⟩) =
      .ok ⟨some "host.name".data, none, none, none⟩ :=
  c4_host_port_round_trip_amended
    [0, 0, 0, 0, 0, 0, 0, 0, 0, 0, 0, 0, 0, 0, 0, 1] 80 "host.name".data
    (by decide) (by decide) (by decide) (by decide) (by decide) (by decide)
    (by decide)

namespace Mpmc

/-- The invariant holds initially. -/
theorem inv_init (cfg : Cfg) : Inv cfg (initState cfg) := by
  constructor <;> intros <;> simp_all [initState, pHolds, cHolds, outList,
    assignedVals, inflightP]

end Mpmc

namespace Mpmc

/-- `pHolds` only looks at the producer phase map. -/
theorem pHolds_of_update {s : QState} {f : Nat → PPhase} {q h : Nat}
    (hh : pHolds { s with prodPh := f } q h) :
    (∃ v, f q = .tick v h) ∨ (∃ v, f q = .tick2 v h) := hh

/-- Updating one coordinate then summing: the new summand replaces the old. -/
theorem sum_update_fun {M : Type} [AddCommMonoid M] (f : Nat → M)
    (n i : Nat) (hi : i < n) (x : M) :
    (Finset.range n).sum (Function.update f i x) + f i =
      (Finset.range n).sum f + x := by
  rw [Finset.sum_update_of_mem (Finset.mem_range.mpr hi)]
  rw [← Finset.sum_erase_add (Finset.range n) f (Finset.mem_range.mpr hi)]
  rw [Finset.erase_eq]
  abel

/-- A pointwise map commutes with a coordinate update. -/
theorem update_comp {A B : Type} (g : A → B) (f : Nat → A) (i : Nat)
    (x : A) :
    (fun q => g (Function.update f i x q)) =
      Function.update (fun q => g (f q)) i (g x) := by
  funext q
  by_cases hq : q = i
  · subst hq
    rw [Function.update_same, Function.update_same]
  · rw [Function.update_noteq hq, Function.update_noteq hq]

/-- Preservation of the invariant by the pre-reservation step of `Put`. -/
theorem inv_putReserve (cfg : Cfg) (s : QState) (p v r : Nat) (rest : List Nat)
    (hp : p < cfg.nProd) (hph : s.prodPh p = .idle)
    (hin : s.inputs p = v :: rest) (hr : r ≤ s.head) (hinv : Inv cfg s) :
    Inv cfg { s with prodPh := Function.update s.prodPh p (.resv v),
                     prodRes := Function.update s.prodRes p (some r),
                     inputs := Function.update s.inputs p rest } := by
  obtain ⟨pidle, presv, ptick, ptick2, pwrote, pdisj, pvhigh, pcover, pwlt,
    cidle, ccresv, cctick, cctick2, ccread, cdisj, gvhigh, ccover, wgot, gwr,
    ringv, gveq, sp, sc, acct⟩ := hinv
  have hph_upd : ∀ q, q ≠ p →
      Function.update s.prodPh p (.resv v) q = s.prodPh q :=
    fun q hq => Function.update_noteq hq _ _
  have hres_upd : ∀ q, q ≠ p →
      Function.update s.prodRes p (some r) q = s.prodRes q :=
    fun q hq => Function.update_noteq hq _ _
  have hHolds : ∀ q h, pHolds { s with
      prodPh := Function.update s.prodPh p (.resv v),
      prodRes := Function.update s.prodRes p (some r),
      inputs := Function.update s.inputs p rest } q h ↔ pHolds s q h := by
    intro q h
    constructor
    · intro hh
      have hh2 : (∃ w, Function.update s.prodPh p (.resv v) q = .tick w h) ∨
          (∃ w, Function.update s.prodPh p (.resv v) q = .tick2 w h) := hh
      by_cases hq : q = p
      · subst hq
        rw [Function.update_same] at hh2
        rcases hh2 with ⟨w, hw⟩ | ⟨w, hw⟩ <;> exact absurd hw (by simp)
      · rw [Function.update_noteq hq] at hh2
        exact hh2
    · intro hh
      have hh2 : (∃ w, s.prodPh q = .tick w h) ∨
          (∃ w, s.prodPh q = .tick2 w h) := hh
      by_cases hq : q = p
      · subst hq
        rw [hph] at hh2
        rcases hh2 with ⟨w, hw⟩ | ⟨w, hw⟩ <;> exact absurd hw (by simp)
      · show (∃ w, Function.update s.prodPh p (.resv v) q = .tick w h) ∨
            (∃ w, Function.update s.prodPh p (.resv v) q = .tick2 w h)
        rw [Function.update_noteq hq]
        exact hh2
  constructor
  case pidle =>
    intro q hphq
    have hphq2 : Function.update s.prodPh p (.resv v) q = .idle := hphq
    by_cases hqp : q = p
    · subst hqp
      rw [Function.update_same] at hphq2
      exact absurd hphq2 (by simp)
    · show Function.update s.prodRes p (some r) q = none
      rw [hres_upd q hqp]
      rw [hph_upd q hqp] at hphq2
      exact pidle q hphq2
  case presv =>
    intro q w hphq
    have hphq2 : Function.update s.prodPh p (.resv v) q = .resv w := hphq
    by_cases hqp : q = p
    · subst hqp
      refine ⟨r, ?_, hr⟩
      exact Function.update_same _ _ _
    · rw [hph_upd q hqp] at hphq2
      obtain ⟨r0, hr0, hr0le⟩ := presv q w hphq2
      exact ⟨r0, by
        show Function.update s.prodRes p (some r) q = some r0
        rw [hres_upd q hqp]
        exact hr0, hr0le⟩
  case ptick =>
    intro q w h hphq
    have hphq2 : Function.update s.prodPh p (.resv v) q = .tick w h := hphq
    by_cases hqp : q = p
    · subst hqp
      rw [Function.update_same] at hphq2
      exact absurd hphq2 (by simp)
    · rw [hph_upd q hqp] at hphq2
      obtain ⟨h1, h2, h3, r0, hr0, hr0le⟩ := ptick q w h hphq2
      exact ⟨h1, h2, h3, r0, by
        show Function.update s.prodRes p (some r) q = some r0
        rw [hres_upd q hqp]
        exact hr0, hr0le⟩
  case ptick2 =>
    intro q w h hphq
    have hphq2 : Function.update s.prodPh p (.resv v) q = .tick2 w h := hphq
    by_cases hqp : q = p
    · subst hqp
      rw [Function.update_same] at hphq2
      exact absurd hphq2 (by simp)
    · rw [hph_upd q hqp] at hphq2
      obtain ⟨h1, h2, h3, h4⟩ := ptick2 q w h hphq2
      exact ⟨h1, h2, h3, by
        show Function.update s.prodRes p (some r) q = some h
        rw [hres_upd q hqp]
        exact h4⟩
  case pwrote =>
    intro q h hphq
    have hphq2 : Function.update s.prodPh p (.resv v) q = .wrote h := hphq
    by_cases hqp : q = p
    · subst hqp
      rw [Function.update_same] at hphq2
      exact absurd hphq2 (by simp)
    · rw [hph_upd q hqp] at hphq2
      obtain ⟨h1, h2, h3⟩ := pwrote q h hphq2
      exact ⟨h1, h2, by
        show Function.update s.prodRes p (some r) q = some h
        rw [hres_upd q hqp]
        exact h3⟩
  case pdisj =>
    intro q q' h hne hq hq'
    exact pdisj q q' h hne ((hHolds q h).mp hq) ((hHolds q' h).mp hq')
  case pvhigh => exact pvhigh
  case pcover =>
    intro h hh
    rcases pcover h hh with hw | ⟨q, hq, hqh⟩
    · exact Or.inl hw
    · exact Or.inr ⟨q, hq, (hHolds q h).mpr hqh⟩
  case pwlt => exact pwlt
  case cidle => exact cidle
  case ccresv => exact ccresv
  case cctick => exact cctick
  case cctick2 => exact cctick2
  case ccread => exact ccread
  case cdisj => exact cdisj
  case gvhigh => exact gvhigh
  case ccover => exact ccover
  case wgot => exact wgot
  case gwr => exact gwr
  case ringv => exact ringv
  case gveq => exact gveq
  case sp =>
    intro h1
    obtain ⟨sp1, sp2⟩ := sp h1
    have hp0 : p = 0 := by omega
    subst hp0
    refine ⟨sp1, ?_⟩
    show (match Function.update s.prodPh 0 (.resv v) 0 with
      | .resv w => Function.update s.inputs 0 rest 0 =
          (cfg.origInputs 0).drop (s.head + 1) ∧
          (cfg.origInputs 0)[s.head]? = some w
      | _ => Function.update s.inputs 0 rest 0 =
          (cfg.origInputs 0).drop s.head)
    rw [Function.update_same]
    show Function.update s.inputs 0 rest 0 =
        (cfg.origInputs 0).drop (s.head + 1) ∧
      (cfg.origInputs 0)[s.head]? = some v
    rw [Function.update_same]
    rw [hph] at sp2
    have hdrop : (cfg.origInputs 0).drop s.head = v :: rest := by
      rw [← sp2, hin]
    constructor
    · have h2 := congrArg (List.drop 1) hdrop
      rw [List.drop_drop] at h2
      rw [h2]
      rfl
    · rw [← List.head?_drop, hdrop]
      rfl
  case sc => exact sc
  case acct =>
    show assignedVals s +
        (Finset.range cfg.nProd).sum
          (fun q => inflightP (Function.update s.prodPh p (.resv v) q)) +
        (Finset.range cfg.nProd).sum
          (fun q => ((Function.update s.inputs p rest q : List Nat) :
            Multiset Nat)) = _
    rw [update_comp inflightP s.prodPh p (.resv v)]
    rw [update_comp (fun l => ((l : List Nat) : Multiset Nat)) s.inputs p rest]
    have e1 := sum_update_fun (fun q => inflightP (s.prodPh q)) cfg.nProd p hp
      (inflightP (.resv v))
    rw [hph] at e1
    rw [show inflightP .idle = 0 from rfl, add_zero] at e1
    have e2 := sum_update_fun
      (fun q => ((s.inputs q : List Nat) : Multiset Nat)) cfg.nProd p hp
      ((rest : List Nat) : Multiset Nat)
    rw [hin] at e2
    have hcons : ((v :: rest : List Nat) : Multiset Nat) =
        ({v} : Multiset Nat) + (rest : Multiset Nat) := by
      rw [← Multiset.cons_coe, ← Multiset.singleton_add]
    rw [hcons] at e2
    have e3 : (Finset.range cfg.nProd).sum
        (Function.update (fun q => ((s.inputs q : List Nat) : Multiset Nat)) p
          ((rest : List Nat) : Multiset Nat)) + ({v} : Multiset Nat) =
        (Finset.range cfg.nProd).sum
          (fun q => ((s.inputs q : List Nat) : Multiset Nat)) := by
      have := e2
      rw [← add_assoc] at this
      exact add_right_cancel this
    rw [e1, ← acct, ← e3]
    rw [show inflightP (PPhase.resv v) = ({v} : Multiset Nat) from rfl]
    abel

end Mpmc


namespace Mpmc

/-- Preservation of the invariant by the ticket-drawing `fetch_add` of
`Put`. -/
theorem inv_putTicket (cfg : Cfg) (s : QState) (p v : Nat)
    (hp : p < cfg.nProd) (hph : s.prodPh p = .resv v) (hinv : Inv cfg s) :
    Inv cfg { s with prodPh := Function.update s.prodPh p (.tick v s.head),
                     head := s.head + 1,
                     putVal := Function.update s.putVal s.head (some v) } := by
  obtain ⟨pidle, presv, ptick, ptick2, pwrote, pdisj, pvhigh, pcover, pwlt,
    cidle, ccresv, cctick, cctick2, ccread, cdisj, gvhigh, ccover, wgot, gwr,
    ringv, gveq, sp, sc, acct⟩ := hinv
  have hpv_ne : ∀ h, h ≠ s.head →
      Function.update s.putVal s.head (some v) h = s.putVal h :=
    fun h hh => Function.update_noteq hh _ _
  have hHolds : ∀ q h, pHolds { s with
      prodPh := Function.update s.prodPh p (.tick v s.head),
      head := s.head + 1,
      putVal := Function.update s.putVal s.head (some v) } q h ↔
      ((q = p ∧ h = s.head) ∨ (q ≠ p ∧ pHolds s q h)) := by
    intro q h
    constructor
    · intro hh
      have hh2 : (∃ w, Function.update s.prodPh p (.tick v s.head) q =
          .tick w h) ∨
          (∃ w, Function.update s.prodPh p (.tick v s.head) q = .tick2 w h) :=
        hh
      by_cases hq : q = p
      · subst hq
        rw [Function.update_same] at hh2
        rcases hh2 with ⟨w, hw⟩ | ⟨w, hw⟩
        · have hw2 := hw
          simp only [PPhase.tick.injEq] at hw2
          exact Or.inl ⟨rfl, hw2.2.symm⟩
        · exact absurd hw (by simp)
      · rw [Function.update_noteq hq] at hh2
        exact Or.inr ⟨hq, hh2⟩
    · intro hh
      rcases hh with ⟨hq, hhd⟩ | ⟨hq, hh2⟩
      · subst hq
        subst hhd
        exact Or.inl ⟨v, Function.update_same _ _ _⟩
      · have hh3 : (∃ w, s.prodPh q = .tick w h) ∨
            (∃ w, s.prodPh q = .tick2 w h) := hh2
        show (∃ w, Function.update s.prodPh p (.tick v s.head) q =
            .tick w h) ∨
          (∃ w, Function.update s.prodPh p (.tick v s.head) q = .tick2 w h)
        rw [Function.update_noteq hq]
        exact hh3
  constructor <;> dsimp only
  case pidle =>
    intro q hphq
    have hphq2 : Function.update s.prodPh p (.tick v s.head) q = .idle := hphq
    by_cases hqp : q = p
    · subst hqp
      rw [Function.update_same] at hphq2
      exact absurd hphq2 (by simp)
    · rw [Function.update_noteq hqp] at hphq2
      exact pidle q hphq2
  case presv =>
    intro q w hphq
    have hphq2 : Function.update s.prodPh p (.tick v s.head) q = .resv w := hphq
    by_cases hqp : q = p
    · subst hqp
      rw [Function.update_same] at hphq2
      exact absurd hphq2 (by simp)
    · rw [Function.update_noteq hqp] at hphq2
      obtain ⟨r0, hr0, hr0le⟩ := presv q w hphq2
      exact ⟨r0, hr0, by omega⟩
  case ptick =>
    intro q w h hphq
    have hphq2 : Function.update s.prodPh p (.tick v s.head) q = .tick w h :=
      hphq
    by_cases hqp : q = p
    · subst hqp
      rw [Function.update_same] at hphq2
      have hinj := hphq2
      simp only [PPhase.tick.injEq] at hinj
      obtain ⟨rfl, rfl⟩ := hinj
      refine ⟨by omega, Function.update_same _ _ _,
        (pvhigh s.head (le_refl _)).2, ?_⟩
      obtain ⟨r0, hr0, hr0le⟩ := presv q v hph
      exact ⟨r0, hr0, hr0le⟩
    · rw [Function.update_noteq hqp] at hphq2
      obtain ⟨h1, h2, h3, r0, hr0, hr0le⟩ := ptick q w h hphq2
      exact ⟨by omega, by rw [hpv_ne h (by omega)]; exact h2, h3, r0, hr0,
        hr0le⟩
  case ptick2 =>
    intro q w h hphq
    have hphq2 : Function.update s.prodPh p (.tick v s.head) q = .tick2 w h :=
      hphq
    by_cases hqp : q = p
    · subst hqp
      rw [Function.update_same] at hphq2
      exact absurd hphq2 (by simp)
    · rw [Function.update_noteq hqp] at hphq2
      obtain ⟨h1, h2, h3, h4⟩ := ptick2 q w h hphq2
      exact ⟨by omega, by rw [hpv_ne h (by omega)]; exact h2, h3, h4⟩
  case pwrote =>
    intro q h hphq
    have hphq2 : Function.update s.prodPh p (.tick v s.head) q = .wrote h :=
      hphq
    by_cases hqp : q = p
    · subst hqp
      rw [Function.update_same] at hphq2
      exact absurd hphq2 (by simp)
    · rw [Function.update_noteq hqp] at hphq2
      obtain ⟨h1, h2, h3⟩ := pwrote q h hphq2
      exact ⟨by omega, h2, h3⟩
  case pdisj =>
    intro q q' h hne hq hq'
    rcases (hHolds q h).mp hq with ⟨hq1, hh1⟩ | ⟨hq1, hh1⟩ <;>
      rcases (hHolds q' h).mp hq' with ⟨hq2, hh2⟩ | ⟨hq2, hh2⟩
    · exact hne (hq1.trans hq2.symm)
    · subst hh1
      rcases hh2 with ⟨w, hw⟩ | ⟨w, hw⟩
      · exact absurd (ptick q' w s.head hw).1 (by omega)
      · exact absurd (ptick2 q' w s.head hw).1 (by omega)
    · subst hh2
      rcases hh1 with ⟨w, hw⟩ | ⟨w, hw⟩
      · exact absurd (ptick q w s.head hw).1 (by omega)
      · exact absurd (ptick2 q w s.head hw).1 (by omega)
    · exact pdisj q q' h hne hh1 hh2
  case pvhigh =>
    intro h hh
    have hh2 : s.head + 1 ≤ h := hh
    constructor
    · show Function.update s.putVal s.head (some v) h = none
      rw [hpv_ne h (by omega)]
      exact (pvhigh h (by omega)).1
    · exact (pvhigh h (by omega)).2
  case pcover =>
    intro h hh
    have hh2 : h < s.head + 1 := hh
    by_cases hhd : h = s.head
    · subst hhd
      exact Or.inr ⟨p, hp, (hHolds p s.head).mpr (Or.inl ⟨rfl, rfl⟩)⟩
    · rcases pcover h (by omega) with hw | ⟨q, hq, hqh⟩
      · exact Or.inl hw
      · refine Or.inr ⟨q, hq, (hHolds q h).mpr (Or.inr ⟨?_, hqh⟩)⟩
        intro hqp
        subst hqp
        rcases hqh with ⟨w, hw⟩ | ⟨w, hw⟩ <;> rw [hph] at hw <;>
          exact absurd hw (by simp)
  case pwlt =>
    intro h hh
    have := pwlt h hh
    omega
  case cidle => exact cidle
  case ccresv => exact ccresv
  case cctick => exact cctick
  case cctick2 => exact cctick2
  case ccread => exact ccread
  case cdisj => exact cdisj
  case gvhigh => exact gvhigh
  case ccover => exact ccover
  case wgot => exact wgot
  case gwr => exact gwr
  case ringv =>
    intro h hh hmax
    have hlt := pwlt h hh
    show some (s.ring (h % cfg.qsize)) =
      Function.update s.putVal s.head (some v) h
    rw [hpv_ne h (by omega)]
    exact ringv h hh hmax
  case gveq =>
    intro t w hgv
    have hwr := gwr t (by rw [hgv]; exact Option.some_ne_none w) t (le_refl t)
    have hlt := pwlt t hwr
    show Function.update s.putVal s.head (some v) t = some w
    rw [hpv_ne t (by omega)]
    exact gveq t w hgv
  case sp =>
    intro h1
    obtain ⟨sp1, sp2⟩ := sp h1
    have hp0 : p = 0 := by omega
    subst hp0
    rw [hph] at sp2
    obtain ⟨hinp, hget⟩ := sp2
    constructor
    · intro h hh
      have hh2 : h < s.head + 1 := hh
      by_cases hhd : h = s.head
      · subst hhd
        show Function.update s.putVal s.head (some v) s.head = _
        rw [Function.update_same, hget]
      · show Function.update s.putVal s.head (some v) h = _
        rw [hpv_ne h hhd]
        exact sp1 h (by omega)
    · show (match Function.update s.prodPh 0 (.tick v s.head) 0 with
        | .resv w => s.inputs 0 = (cfg.origInputs 0).drop (s.head + 1 + 1) ∧
            (cfg.origInputs 0)[s.head + 1]? = some w
        | _ => s.inputs 0 = (cfg.origInputs 0).drop (s.head + 1))
      rw [Function.update_same]
      exact hinp
  case sc => exact sc
  case acct =>
    have hmc : (List.range s.head).map
        (fun h => (Function.update s.putVal s.head (some v) h).getD 0) =
        (List.range s.head).map (fun h => (s.putVal h).getD 0) :=
      List.map_congr_left (fun h hh => by
        rw [hpv_ne h (by have := List.mem_range.mp hh; omega)])
    have hassigned : assignedVals { s with
        prodPh := Function.update s.prodPh p (.tick v s.head),
        head := s.head + 1,
        putVal := Function.update s.putVal s.head (some v) } =
        assignedVals s + {v} := by
      show (((List.range (s.head + 1)).map
        (fun h => (Function.update s.putVal s.head (some v) h).getD 0) :
          List Nat) : Multiset Nat) = _
      rw [List.range_succ, List.map_append, hmc]
      rw [show List.map
          (fun h => (Function.update s.putVal s.head (some v) h).getD 0)
          [s.head] = [v] from by
        rw [List.map_singleton, Function.update_same]
        rfl]
      rfl
    show assignedVals { s with
        prodPh := Function.update s.prodPh p (.tick v s.head),
        head := s.head + 1,
        putVal := Function.update s.putVal s.head (some v) } +
      (Finset.range cfg.nProd).sum
        (fun q => inflightP (Function.update s.prodPh p (.tick v s.head) q)) +
      (Finset.range cfg.nProd).sum
        (fun q => ((s.inputs q : List Nat) : Multiset Nat)) = _
    rw [hassigned, update_comp inflightP s.prodPh p (.tick v s.head)]
    rw [show inflightP (PPhase.tick v s.head) = (0 : Multiset Nat) from rfl]
    have e1 := sum_update_fun (fun q => inflightP (s.prodPh q)) cfg.nProd p hp
      (inflightP (.tick v s.head))
    rw [hph] at e1
    rw [show inflightP (.resv v) = ({v} : Multiset Nat) from rfl,
      show inflightP (.tick v s.head) = (0 : Multiset Nat) from rfl,
      add_zero] at e1
    rw [← acct, ← e1]
    abel

end Mpmc

namespace Mpmc

/-- Preservation of the invariant by the ticket re-publication of `Put`. -/
theorem inv_putPublish (cfg : Cfg) (s : QState) (p v h : Nat)
    (hp : p < cfg.nProd) (hph : s.prodPh p = .tick v h) (hinv : Inv cfg s) :
    Inv cfg { s with prodPh := Function.update s.prodPh p (.tick2 v h),
                     prodRes := Function.update s.prodRes p (some h) } := by
  obtain ⟨pidle, presv, ptick, ptick2, pwrote, pdisj, pvhigh, pcover, pwlt,
    cidle, ccresv, cctick, cctick2, ccread, cdisj, gvhigh, ccover, wgot, gwr,
    ringv, gveq, sp, sc, acct⟩ := hinv
  obtain ⟨hlt, hpv, hwr, r0, hr0, hr0le⟩ := ptick p v h hph
  have hHolds : ∀ q g, pHolds { s with
      prodPh := Function.update s.prodPh p (.tick2 v h),
      prodRes := Function.update s.prodRes p (some h) } q g ↔
      pHolds s q g := by
    intro q g
    constructor
    · intro hh
      have hh2 : (∃ w, Function.update s.prodPh p (.tick2 v h) q = .tick w g) ∨
          (∃ w, Function.update s.prodPh p (.tick2 v h) q = .tick2 w g) := hh
      by_cases hq : q = p
      · subst hq
        rw [Function.update_same] at hh2
        rcases hh2 with ⟨w, hw⟩ | ⟨w, hw⟩
        · exact absurd hw (by simp)
        · have hw2 := hw
          simp only [PPhase.tick2.injEq] at hw2
          exact Or.inl ⟨v, by rw [hph, hw2.2]⟩
      · rw [Function.update_noteq hq] at hh2
        exact hh2
    · intro hh
      have hh2 : (∃ w, s.prodPh q = .tick w g) ∨
          (∃ w, s.prodPh q = .tick2 w g) := hh
      by_cases hq : q = p
      · subst hq
        rw [hph] at hh2
        rcases hh2 with ⟨w, hw⟩ | ⟨w, hw⟩
        · have hw2 := hw
          simp only [PPhase.tick.injEq] at hw2
          exact Or.inr ⟨v, by
            show Function.update s.prodPh q (.tick2 v h) q = _
            rw [Function.update_same, hw2.2]⟩
        · exact absurd hw (by simp)
      · show (∃ w, Function.update s.prodPh p (.tick2 v h) q = .tick w g) ∨
            (∃ w, Function.update s.prodPh p (.tick2 v h) q = .tick2 w g)
        rw [Function.update_noteq hq]
        exact hh2
  constructor <;> dsimp only
  case pidle =>
    intro q hphq
    have hphq2 : Function.update s.prodPh p (.tick2 v h) q = .idle := hphq
    by_cases hqp : q = p
    · subst hqp
      rw [Function.update_same] at hphq2
      exact absurd hphq2 (by simp)
    · rw [Function.update_noteq hqp] at hphq2
      show Function.update s.prodRes p (some h) q = none
      rw [Function.update_noteq hqp]
      exact pidle q hphq2
  case presv =>
    intro q w hphq
    have hphq2 : Function.update s.prodPh p (.tick2 v h) q = .resv w := hphq
    by_cases hqp : q = p
    · subst hqp
      rw [Function.update_same] at hphq2
      exact absurd hphq2 (by simp)
    · rw [Function.update_noteq hqp] at hphq2
      obtain ⟨r1, hr1, hr1le⟩ := presv q w hphq2
      exact ⟨r1, by
        show Function.update s.prodRes p (some h) q = some r1
        rw [Function.update_noteq hqp]
        exact hr1, hr1le⟩
  case ptick =>
    intro q w g hphq
    have hphq2 : Function.update s.prodPh p (.tick2 v h) q = .tick w g := hphq
    by_cases hqp : q = p
    · subst hqp
      rw [Function.update_same] at hphq2
      exact absurd hphq2 (by simp)
    · rw [Function.update_noteq hqp] at hphq2
      obtain ⟨h1, h2, h3, r1, hr1, hr1le⟩ := ptick q w g hphq2
      exact ⟨h1, h2, h3, r1, by
        show Function.update s.prodRes p (some h) q = some r1
        rw [Function.update_noteq hqp]
        exact hr1, hr1le⟩
  case ptick2 =>
    intro q w g hphq
    have hphq2 : Function.update s.prodPh p (.tick2 v h) q = .tick2 w g := hphq
    by_cases hqp : q = p
    · subst hqp
      rw [Function.update_same] at hphq2
      have hinj := hphq2
      simp only [PPhase.tick2.injEq] at hinj
      obtain ⟨rfl, rfl⟩ := hinj
      exact ⟨hlt, hpv, hwr, Function.update_same _ _ _⟩
    · rw [Function.update_noteq hqp] at hphq2
      obtain ⟨h1, h2, h3, h4⟩ := ptick2 q w g hphq2
      exact ⟨h1, h2, h3, by
        show Function.update s.prodRes p (some h) q = some g
        rw [Function.update_noteq hqp]
        exact h4⟩
  case pwrote =>
    intro q g hphq
    have hphq2 : Function.update s.prodPh p (.tick2 v h) q = .wrote g := hphq
    by_cases hqp : q = p
    · subst hqp
      rw [Function.update_same] at hphq2
      exact absurd hphq2 (by simp)
    · rw [Function.update_noteq hqp] at hphq2
      obtain ⟨h1, h2, h3⟩ := pwrote q g hphq2
      exact ⟨h1, h2, by
        show Function.update s.prodRes p (some h) q = some g
        rw [Function.update_noteq hqp]
        exact h3⟩
  case pdisj =>
    intro q q' g hne hq hq'
    exact pdisj q q' g hne ((hHolds q g).mp hq) ((hHolds q' g).mp hq')
  case pvhigh => exact pvhigh
  case pcover =>
    intro g hg
    rcases pcover g hg with hw | ⟨q, hq, hqh⟩
    · exact Or.inl hw
    · exact Or.inr ⟨q, hq, (hHolds q g).mpr hqh⟩
  case pwlt => exact pwlt
  case cidle => exact cidle
  case ccresv => exact ccresv
  case cctick => exact cctick
  case cctick2 => exact cctick2
  case ccread => exact ccread
  case cdisj => exact cdisj
  case gvhigh => exact gvhigh
  case ccover => exact ccover
  case wgot => exact wgot
  case gwr => exact gwr
  case ringv => exact ringv
  case gveq => exact gveq
  case sp =>
    intro h1
    obtain ⟨sp1, sp2⟩ := sp h1
    have hp0 : p = 0 := by omega
    subst hp0
    rw [hph] at sp2
    refine ⟨sp1, ?_⟩
    show (match Function.update s.prodPh 0 (.tick2 v h) 0 with
      | .resv w => s.inputs 0 = (cfg.origInputs 0).drop (s.head + 1) ∧
          (cfg.origInputs 0)[s.head]? = some w
      | _ => s.inputs 0 = (cfg.origInputs 0).drop s.head)
    rw [Function.update_same]
    exact sp2
  case sc => exact sc
  case acct =>
    show assignedVals s +
      (Finset.range cfg.nProd).sum
        (fun q => inflightP (Function.update s.prodPh p (.tick2 v h) q)) +
      (Finset.range cfg.nProd).sum
        (fun q => ((s.inputs q : List Nat) : Multiset Nat)) = _
    rw [update_comp inflightP s.prodPh p (.tick2 v h)]
    have e1 := sum_update_fun (fun q => inflightP (s.prodPh q)) cfg.nProd p hp
      (inflightP (.tick2 v h))
    rw [hph] at e1
    rw [show inflightP (.tick v h) = (0 : Multiset Nat) from rfl,
      show inflightP (.tick2 v h) = (0 : Multiset Nat) from rfl,
      add_zero, add_zero] at e1
    rw [show inflightP (PPhase.tick2 v h) = (0 : Multiset Nat) from rfl]
    rw [e1]
    exact acct

/-- Preservation of the invariant by the reservation clear of `Put`. -/
theorem inv_putClear (cfg : Cfg) (s : QState) (p h : Nat)
    (hp : p < cfg.nProd) (hph : s.prodPh p = .wrote h) (hinv : Inv cfg s) :
    Inv cfg { s with prodPh := Function.update s.prodPh p .idle,
                     prodRes := Function.update s.prodRes p none } := by
  obtain ⟨pidle, presv, ptick, ptick2, pwrote, pdisj, pvhigh, pcover, pwlt,
    cidle, ccresv, cctick, cctick2, ccread, cdisj, gvhigh, ccover, wgot, gwr,
    ringv, gveq, sp, sc, acct⟩ := hinv
  have hHolds : ∀ q g, pHolds { s with
      prodPh := Function.update s.prodPh p .idle,
      prodRes := Function.update s.prodRes p none } q g → pHolds s q g := by
    intro q g hh
    have hh2 : (∃ w, Function.update s.prodPh p .idle q = .tick w g) ∨
        (∃ w, Function.update s.prodPh p .idle q = .tick2 w g) := hh
    by_cases hq : q = p
    · subst hq
      rw [Function.update_same] at hh2
      rcases hh2 with ⟨w, hw⟩ | ⟨w, hw⟩ <;> exact absurd hw (by simp)
    · rw [Function.update_noteq hq] at hh2
      exact hh2
  constructor <;> dsimp only
  case pidle =>
    intro q hphq
    by_cases hqp : q = p
    · subst hqp
      show Function.update s.prodRes q none q = none
      rw [Function.update_same]
    · have hphq2 : Function.update s.prodPh p .idle q = .idle := hphq
      rw [Function.update_noteq hqp] at hphq2
      show Function.update s.prodRes p none q = none
      rw [Function.update_noteq hqp]
      exact pidle q hphq2
  case presv =>
    intro q w hphq
    have hphq2 : Function.update s.prodPh p .idle q = .resv w := hphq
    by_cases hqp : q = p
    · subst hqp
      rw [Function.update_same] at hphq2
      exact absurd hphq2 (by simp)
    · rw [Function.update_noteq hqp] at hphq2
      obtain ⟨r1, hr1, hr1le⟩ := presv q w hphq2
      exact ⟨r1, by
        show Function.update s.prodRes p none q = some r1
        rw [Function.update_noteq hqp]
        exact hr1, hr1le⟩
  case ptick =>
    intro q w g hphq
    have hphq2 : Function.update s.prodPh p .idle q = .tick w g := hphq
    by_cases hqp : q = p
    · subst hqp
      rw [Function.update_same] at hphq2
      exact absurd hphq2 (by simp)
    · rw [Function.update_noteq hqp] at hphq2
      obtain ⟨h1, h2, h3, r1, hr1, hr1le⟩ := ptick q w g hphq2
      exact ⟨h1, h2, h3, r1, by
        show Function.update s.prodRes p none q = some r1
        rw [Function.update_noteq hqp]
        exact hr1, hr1le⟩
  case ptick2 =>
    intro q w g hphq
    have hphq2 : Function.update s.prodPh p .idle q = .tick2 w g := hphq
    by_cases hqp : q = p
    · subst hqp
      rw [Function.update_same] at hphq2
      exact absurd hphq2 (by simp)
    · rw [Function.update_noteq hqp] at hphq2
      obtain ⟨h1, h2, h3, h4⟩ := ptick2 q w g hphq2
      exact ⟨h1, h2, h3, by
        show Function.update s.prodRes p none q = some g
        rw [Function.update_noteq hqp]
        exact h4⟩
  case pwrote =>
    intro q g hphq
    have hphq2 : Function.update s.prodPh p .idle q = .wrote g := hphq
    by_cases hqp : q = p
    · subst hqp
      rw [Function.update_same] at hphq2
      exact absurd hphq2 (by simp)
    · rw [Function.update_noteq hqp] at hphq2
      obtain ⟨h1, h2, h3⟩ := pwrote q g hphq2
      exact ⟨h1, h2, by
        show Function.update s.prodRes p none q = some g
        rw [Function.update_noteq hqp]
        exact h3⟩
  case pdisj =>
    intro q q' g hne hq hq'
    exact pdisj q q' g hne (hHolds q g hq) (hHolds q' g hq')
  case pvhigh => exact pvhigh
  case pcover =>
    intro g hg
    rcases pcover g hg with hw | ⟨q, hq, hqh⟩
    · exact Or.inl hw
    · by_cases hqp : q = p
      · subst hqp
        rcases hqh with ⟨w, hw⟩ | ⟨w, hw⟩ <;> rw [hph] at hw <;>
          exact absurd hw (by simp)
      · refine Or.inr ⟨q, hq, ?_⟩
        have hqh2 : (∃ w, s.prodPh q = .tick w g) ∨
            (∃ w, s.prodPh q = .tick2 w g) := hqh
        show (∃ w, Function.update s.prodPh p .idle q = .tick w g) ∨
            (∃ w, Function.update s.prodPh p .idle q = .tick2 w g)
        rw [Function.update_noteq hqp]
        exact hqh2
  case pwlt => exact pwlt
  case cidle => exact cidle
  case ccresv => exact ccresv
  case cctick => exact cctick
  case cctick2 => exact cctick2
  case ccread => exact ccread
  case cdisj => exact cdisj
  case gvhigh => exact gvhigh
  case ccover => exact ccover
  case wgot => exact wgot
  case gwr => exact gwr
  case ringv => exact ringv
  case gveq => exact gveq
  case sp =>
    intro h1
    obtain ⟨sp1, sp2⟩ := sp h1
    have hp0 : p = 0 := by omega
    subst hp0
    rw [hph] at sp2
    refine ⟨sp1, ?_⟩
    show (match Function.update s.prodPh 0 .idle 0 with
      | .resv w => s.inputs 0 = (cfg.origInputs 0).drop (s.head + 1) ∧
          (cfg.origInputs 0)[s.head]? = some w
      | _ => s.inputs 0 = (cfg.origInputs 0).drop s.head)
    rw [Function.update_same]
    exact sp2
  case sc => exact sc
  case acct =>
    show assignedVals s +
      (Finset.range cfg.nProd).sum
        (fun q => inflightP (Function.update s.prodPh p .idle q)) +
      (Finset.range cfg.nProd).sum
        (fun q => ((s.inputs q : List Nat) : Multiset Nat)) = _
    rw [update_comp inflightP s.prodPh p .idle]
    have e1 := sum_update_fun (fun q => inflightP (s.prodPh q)) cfg.nProd p hp
      (inflightP .idle)
    rw [hph] at e1
    rw [show inflightP (.wrote h) = (0 : Multiset Nat) from rfl,
      show inflightP .idle = (0 : Multiset Nat) from rfl,
      add_zero, add_zero] at e1
    rw [show inflightP PPhase.idle = (0 : Multiset Nat) from rfl]
    rw [e1]
    exact acct

end Mpmc

namespace Mpmc

/-- Preservation of the invariant by the pre-reservation step of `Get`. -/
theorem inv_getReserve (cfg : Cfg) (s : QState) (c r : Nat)
    (hc : c < cfg.nCons) (hph : s.consPh c = .idle) (hr : r ≤ s.tail)
    (hinv : Inv cfg s) :
    Inv cfg { s with consPh := Function.update s.consPh c .cresv,
                     consRes := Function.update s.consRes c (some r) } := by
  obtain ⟨pidle, presv, ptick, ptick2, pwrote, pdisj, pvhigh, pcover, pwlt,
    cidle, ccresv, cctick, cctick2, ccread, cdisj, gvhigh, ccover, wgot, gwr,
    ringv, gveq, sp, sc, acct⟩ := hinv
  have hHolds : ∀ q t, cHolds { s with
      consPh := Function.update s.consPh c .cresv,
      consRes := Function.update s.consRes c (some r) } q t ↔
      cHolds s q t := by
    intro q t
    constructor
    · intro hh
      have hh2 : Function.update s.consPh c .cresv q = .ctick t ∨
          Function.update s.consPh c .cresv q = .ctick2 t := hh
      by_cases hq : q = c
      · subst hq
        rw [Function.update_same] at hh2
        rcases hh2 with hw | hw <;> exact absurd hw (by simp)
      · rw [Function.update_noteq hq] at hh2
        exact hh2
    · intro hh
      have hh2 : s.consPh q = .ctick t ∨ s.consPh q = .ctick2 t := hh
      by_cases hq : q = c
      · subst hq
        rw [hph] at hh2
        rcases hh2 with hw | hw <;> exact absurd hw (by simp)
      · show Function.update s.consPh c .cresv q = .ctick t ∨
            Function.update s.consPh c .cresv q = .ctick2 t
        rw [Function.update_noteq hq]
        exact hh2
  constructor <;> dsimp only
  case pidle => exact pidle
  case presv => exact presv
  case ptick => exact ptick
  case ptick2 => exact ptick2
  case pwrote => exact pwrote
  case pdisj => exact pdisj
  case pvhigh => exact pvhigh
  case pcover => exact pcover
  case pwlt => exact pwlt
  case cidle =>
    intro q hphq
    have hphq2 : Function.update s.consPh c .cresv q = .idle := hphq
    by_cases hqc : q = c
    · subst hqc
      rw [Function.update_same] at hphq2
      exact absurd hphq2 (by simp)
    · rw [Function.update_noteq hqc] at hphq2
      show Function.update s.consRes c (some r) q = none
      rw [Function.update_noteq hqc]
      exact cidle q hphq2
  case ccresv =>
    intro q hphq
    by_cases hqc : q = c
    · subst hqc
      refine ⟨r, ?_, hr⟩
      exact Function.update_same _ _ _
    · have hphq2 : Function.update s.consPh c .cresv q = .cresv := hphq
      rw [Function.update_noteq hqc] at hphq2
      obtain ⟨r1, hr1, hr1le⟩ := ccresv q hphq2
      exact ⟨r1, by
        show Function.update s.consRes c (some r) q = some r1
        rw [Function.update_noteq hqc]
        exact hr1, hr1le⟩
  case cctick =>
    intro q t hphq
    have hphq2 : Function.update s.consPh c .cresv q = .ctick t := hphq
    by_cases hqc : q = c
    · subst hqc
      rw [Function.update_same] at hphq2
      exact absurd hphq2 (by simp)
    · rw [Function.update_noteq hqc] at hphq2
      obtain ⟨h1, h2, r1, hr1, hr1le⟩ := cctick q t hphq2
      exact ⟨h1, h2, r1, by
        show Function.update s.consRes c (some r) q = some r1
        rw [Function.update_noteq hqc]
        exact hr1, hr1le⟩
  case cctick2 =>
    intro q t hphq
    have hphq2 : Function.update s.consPh c .cresv q = .ctick2 t := hphq
    by_cases hqc : q = c
    · subst hqc
      rw [Function.update_same] at hphq2
      exact absurd hphq2 (by simp)
    · rw [Function.update_noteq hqc] at hphq2
      obtain ⟨h1, h2, h3⟩ := cctick2 q t hphq2
      exact ⟨h1, h2, by
        show Function.update s.consRes c (some r) q = some t
        rw [Function.update_noteq hqc]
        exact h3⟩
  case ccread =>
    intro q t hphq
    have hphq2 : Function.update s.consPh c .cresv q = .cread t := hphq
    by_cases hqc : q = c
    · subst hqc
      rw [Function.update_same] at hphq2
      exact absurd hphq2 (by simp)
    · rw [Function.update_noteq hqc] at hphq2
      obtain ⟨h1, h2, h3⟩ := ccread q t hphq2
      exact ⟨h1, h2, by
        show Function.update s.consRes c (some r) q = some t
        rw [Function.update_noteq hqc]
        exact h3⟩
  case cdisj =>
    intro q q' t hne hq hq'
    exact cdisj q q' t hne ((hHolds q t).mp hq) ((hHolds q' t).mp hq')
  case gvhigh => exact gvhigh
  case ccover =>
    intro t ht
    rcases ccover t ht with hw | ⟨q, hq, hqh⟩
    · exact Or.inl hw
    · exact Or.inr ⟨q, hq, (hHolds q t).mpr hqh⟩
  case wgot => exact wgot
  case gwr => exact gwr
  case ringv => exact ringv
  case gveq => exact gveq
  case sp => exact sp
  case sc =>
    intro h1
    have hsc := sc h1
    have hc0 : c = 0 := by omega
    subst hc0
    rw [hph] at hsc
    show (match Function.update s.consPh 0 .cresv 0 with
      | .ctick t => t + 1 = s.tail ∧ (∀ u < t, s.gotVal u ≠ none) ∧
          s.outputs 0 = outList s t
      | .ctick2 t => t + 1 = s.tail ∧ (∀ u < t, s.gotVal u ≠ none) ∧
          s.outputs 0 = outList s t
      | _ => (∀ u < s.tail, s.gotVal u ≠ none) ∧ s.outputs 0 = outList s s.tail)
    rw [Function.update_same]
    exact hsc
  case acct => exact acct

end Mpmc

namespace Mpmc

/-- Preservation of the invariant by the ticket-drawing `fetch_add` of
`Get`. -/
theorem inv_getTicket (cfg : Cfg) (s : QState) (c : Nat)
    (hc : c < cfg.nCons) (hph : s.consPh c = .cresv) (hinv : Inv cfg s) :
    Inv cfg { s with consPh := Function.update s.consPh c (.ctick s.tail),
                     tail := s.tail + 1 } := by
  obtain ⟨pidle, presv, ptick, ptick2, pwrote, pdisj, pvhigh, pcover, pwlt,
    cidle, ccresv, cctick, cctick2, ccread, cdisj, gvhigh, ccover, wgot, gwr,
    ringv, gveq, sp, sc, acct⟩ := hinv
  have hHolds : ∀ q t, cHolds { s with
      consPh := Function.update s.consPh c (.ctick s.tail),
      tail := s.tail + 1 } q t ↔
      ((q = c ∧ t = s.tail) ∨ (q ≠ c ∧ cHolds s q t)) := by
    intro q t
    constructor
    · intro hh
      have hh2 : Function.update s.consPh c (.ctick s.tail) q = .ctick t ∨
          Function.update s.consPh c (.ctick s.tail) q = .ctick2 t := hh
      by_cases hq : q = c
      · subst hq
        rw [Function.update_same] at hh2
        rcases hh2 with hw | hw
        · have hw2 := hw
          simp only [CPhase.ctick.injEq] at hw2
          exact Or.inl ⟨rfl, hw2.symm⟩
        · exact absurd hw (by simp)
      · rw [Function.update_noteq hq] at hh2
        exact Or.inr ⟨hq, hh2⟩
    · intro hh
      rcases hh with ⟨hq, htt⟩ | ⟨hq, hh2⟩
      · subst hq
        subst htt
        exact Or.inl (Function.update_same _ _ _)
      · have hh3 : s.consPh q = .ctick t ∨ s.consPh q = .ctick2 t := hh2
        show Function.update s.consPh c (.ctick s.tail) q = .ctick t ∨
            Function.update s.consPh c (.ctick s.tail) q = .ctick2 t
        rw [Function.update_noteq hq]
        exact hh3
  constructor <;> dsimp only
  case pidle => exact pidle
  case presv => exact presv
  case ptick => exact ptick
  case ptick2 => exact ptick2
  case pwrote => exact pwrote
  case pdisj => exact pdisj
  case pvhigh => exact pvhigh
  case pcover => exact pcover
  case pwlt => exact pwlt
  case cidle =>
    intro q hphq
    have hphq2 : Function.update s.consPh c (.ctick s.tail) q = .idle := hphq
    by_cases hqc : q = c
    · subst hqc
      rw [Function.update_same] at hphq2
      exact absurd hphq2 (by simp)
    · rw [Function.update_noteq hqc] at hphq2
      exact cidle q hphq2
  case ccresv =>
    intro q hphq
    have hphq2 : Function.update s.consPh c (.ctick s.tail) q = .cresv := hphq
    by_cases hqc : q = c
    · subst hqc
      rw [Function.update_same] at hphq2
      exact absurd hphq2 (by simp)
    · rw [Function.update_noteq hqc] at hphq2
      obtain ⟨r1, hr1, hr1le⟩ := ccresv q hphq2
      exact ⟨r1, hr1, by omega⟩
  case cctick =>
    intro q t hphq
    have hphq2 : Function.update s.consPh c (.ctick s.tail) q = .ctick t := hphq
    by_cases hqc : q = c
    · subst hqc
      rw [Function.update_same] at hphq2
      have hinj := hphq2
      simp only [CPhase.ctick.injEq] at hinj
      subst hinj
      refine ⟨by omega, gvhigh s.tail (le_refl _), ?_⟩
      obtain ⟨r1, hr1, hr1le⟩ := ccresv q hph
      exact ⟨r1, hr1, hr1le⟩
    · rw [Function.update_noteq hqc] at hphq2
      obtain ⟨h1, h2, r1, hr1, hr1le⟩ := cctick q t hphq2
      exact ⟨by omega, h2, r1, hr1, hr1le⟩
  case cctick2 =>
    intro q t hphq
    have hphq2 : Function.update s.consPh c (.ctick s.tail) q = .ctick2 t :=
      hphq
    by_cases hqc : q = c
    · subst hqc
      rw [Function.update_same] at hphq2
      exact absurd hphq2 (by simp)
    · rw [Function.update_noteq hqc] at hphq2
      obtain ⟨h1, h2, h3⟩ := cctick2 q t hphq2
      exact ⟨by omega, h2, h3⟩
  case ccread =>
    intro q t hphq
    have hphq2 : Function.update s.consPh c (.ctick s.tail) q = .cread t := hphq
    by_cases hqc : q = c
    · subst hqc
      rw [Function.update_same] at hphq2
      exact absurd hphq2 (by simp)
    · rw [Function.update_noteq hqc] at hphq2
      obtain ⟨h1, h2, h3⟩ := ccread q t hphq2
      exact ⟨by omega, h2, h3⟩
  case cdisj =>
    intro q q' t hne hq hq'
    rcases (hHolds q t).mp hq with ⟨hq1, ht1⟩ | ⟨hq1, hh1⟩ <;>
      rcases (hHolds q' t).mp hq' with ⟨hq2, ht2⟩ | ⟨hq2, hh2⟩
    · exact hne (hq1.trans hq2.symm)
    · subst ht1
      rcases hh2 with hw | hw
      · exact absurd (cctick q' s.tail hw).1 (by omega)
      · exact absurd (cctick2 q' s.tail hw).1 (by omega)
    · subst ht2
      rcases hh1 with hw | hw
      · exact absurd (cctick q s.tail hw).1 (by omega)
      · exact absurd (cctick2 q s.tail hw).1 (by omega)
    · exact cdisj q q' t hne hh1 hh2
  case gvhigh =>
    intro t ht
    have ht2 : s.tail + 1 ≤ t := ht
    exact gvhigh t (by omega)
  case ccover =>
    intro t ht
    have ht2 : t < s.tail + 1 := ht
    by_cases htt : t = s.tail
    · subst htt
      exact Or.inr ⟨c, hc, (hHolds c s.tail).mpr (Or.inl ⟨rfl, rfl⟩)⟩
    · rcases ccover t (by omega) with hw | ⟨q, hq, hqh⟩
      · exact Or.inl hw
      · refine Or.inr ⟨q, hq, (hHolds q t).mpr (Or.inr ⟨?_, hqh⟩)⟩
        intro hqc
        subst hqc
        rcases hqh with hw | hw <;> rw [hph] at hw <;>
          exact absurd hw (by simp)
  case wgot => exact wgot
  case gwr => exact gwr
  case ringv => exact ringv
  case gveq => exact gveq
  case sp => exact sp
  case sc =>
    intro h1
    have hsc := sc h1
    have hc0 : c = 0 := by omega
    subst hc0
    rw [hph] at hsc
    show (match Function.update s.consPh 0 (.ctick s.tail) 0 with
      | .ctick t => t + 1 = s.tail + 1 ∧ (∀ u < t, s.gotVal u ≠ none) ∧
          s.outputs 0 = outList s t
      | .ctick2 t => t + 1 = s.tail + 1 ∧ (∀ u < t, s.gotVal u ≠ none) ∧
          s.outputs 0 = outList s t
      | _ => (∀ u < s.tail + 1, s.gotVal u ≠ none) ∧
          s.outputs 0 = outList s (s.tail + 1))
    rw [Function.update_same]
    exact ⟨rfl, hsc.1, hsc.2⟩
  case acct => exact acct

end Mpmc

namespace Mpmc

/-- Preservation of the invariant by the ticket re-publication of `Get`. -/
theorem inv_getPublish (cfg : Cfg) (s : QState) (c t : Nat)
    (hc : c < cfg.nCons) (hph : s.consPh c = .ctick t) (hinv : Inv cfg s) :
    Inv cfg { s with consPh := Function.update s.consPh c (.ctick2 t),
                     consRes := Function.update s.consRes c (some t) } := by
  obtain ⟨pidle, presv, ptick, ptick2, pwrote, pdisj, pvhigh, pcover, pwlt,
    cidle, ccresv, cctick, cctick2, ccread, cdisj, gvhigh, ccover, wgot, gwr,
    ringv, gveq, sp, sc, acct⟩ := hinv
  obtain ⟨hlt, hgv, r0, hr0, hr0le⟩ := cctick c t hph
  have hHolds : ∀ q g, cHolds { s with
      consPh := Function.update s.consPh c (.ctick2 t),
      consRes := Function.update s.consRes c (some t) } q g ↔
      cHolds s q g := by
    intro q g
    constructor
    · intro hh
      have hh2 : Function.update s.consPh c (.ctick2 t) q = .ctick g ∨
          Function.update s.consPh c (.ctick2 t) q = .ctick2 g := hh
      by_cases hq : q = c
      · subst hq
        rw [Function.update_same] at hh2
        rcases hh2 with hw | hw
        · exact absurd hw (by simp)
        · have hw2 := hw
          simp only [CPhase.ctick2.injEq] at hw2
          exact Or.inl (by rw [hph, hw2])
      · rw [Function.update_noteq hq] at hh2
        exact hh2
    · intro hh
      have hh2 : s.consPh q = .ctick g ∨ s.consPh q = .ctick2 g := hh
      by_cases hq : q = c
      · subst hq
        rw [hph] at hh2
        rcases hh2 with hw | hw
        · have hw2 := hw
          simp only [CPhase.ctick.injEq] at hw2
          exact Or.inr (by
            show Function.update s.consPh q (.ctick2 t) q = _
            rw [Function.update_same, hw2])
        · exact absurd hw (by simp)
      · show Function.update s.consPh c (.ctick2 t) q = .ctick g ∨
            Function.update s.consPh c (.ctick2 t) q = .ctick2 g
        rw [Function.update_noteq hq]
        exact hh2
  constructor <;> dsimp only
  case pidle => exact pidle
  case presv => exact presv
  case ptick => exact ptick
  case ptick2 => exact ptick2
  case pwrote => exact pwrote
  case pdisj => exact pdisj
  case pvhigh => exact pvhigh
  case pcover => exact pcover
  case pwlt => exact pwlt
  case cidle =>
    intro q hphq
    have hphq2 : Function.update s.consPh c (.ctick2 t) q = .idle := hphq
    by_cases hqc : q = c
    · subst hqc
      rw [Function.update_same] at hphq2
      exact absurd hphq2 (by simp)
    · rw [Function.update_noteq hqc] at hphq2
      show Function.update s.consRes c (some t) q = none
      rw [Function.update_noteq hqc]
      exact cidle q hphq2
  case ccresv =>
    intro q hphq
    have hphq2 : Function.update s.consPh c (.ctick2 t) q = .cresv := hphq
    by_cases hqc : q = c
    · subst hqc
      rw [Function.update_same] at hphq2
      exact absurd hphq2 (by simp)
    · rw [Function.update_noteq hqc] at hphq2
      obtain ⟨r1, hr1, hr1le⟩ := ccresv q hphq2
      exact ⟨r1, by
        show Function.update s.consRes c (some t) q = some r1
        rw [Function.update_noteq hqc]
        exact hr1, hr1le⟩
  case cctick =>
    intro q g hphq
    have hphq2 : Function.update s.consPh c (.ctick2 t) q = .ctick g := hphq
    by_cases hqc : q = c
    · subst hqc
      rw [Function.update_same] at hphq2
      exact absurd hphq2 (by simp)
    · rw [Function.update_noteq hqc] at hphq2
      obtain ⟨h1, h2, r1, hr1, hr1le⟩ := cctick q g hphq2
      exact ⟨h1, h2, r1, by
        show Function.update s.consRes c (some t) q = some r1
        rw [Function.update_noteq hqc]
        exact hr1, hr1le⟩
  case cctick2 =>
    intro q g hphq
    have hphq2 : Function.update s.consPh c (.ctick2 t) q = .ctick2 g := hphq
    by_cases hqc : q = c
    · subst hqc
      rw [Function.update_same] at hphq2
      have hinj := hphq2
      simp only [CPhase.ctick2.injEq] at hinj
      subst hinj
      exact ⟨hlt, hgv, Function.update_same _ _ _⟩
    · rw [Function.update_noteq hqc] at hphq2
      obtain ⟨h1, h2, h3⟩ := cctick2 q g hphq2
      exact ⟨h1, h2, by
        show Function.update s.consRes c (some t) q = some g
        rw [Function.update_noteq hqc]
        exact h3⟩
  case ccread =>
    intro q g hphq
    have hphq2 : Function.update s.consPh c (.ctick2 t) q = .cread g := hphq
    by_cases hqc : q = c
    · subst hqc
      rw [Function.update_same] at hphq2
      exact absurd hphq2 (by simp)
    · rw [Function.update_noteq hqc] at hphq2
      obtain ⟨h1, h2, h3⟩ := ccread q g hphq2
      exact ⟨h1, h2, by
        show Function.update s.consRes c (some t) q = some g
        rw [Function.update_noteq hqc]
        exact h3⟩
  case cdisj =>
    intro q q' g hne hq hq'
    exact cdisj q q' g hne ((hHolds q g).mp hq) ((hHolds q' g).mp hq')
  case gvhigh => exact gvhigh
  case ccover =>
    intro g hg
    rcases ccover g hg with hw | ⟨q, hq, hqh⟩
    · exact Or.inl hw
    · exact Or.inr ⟨q, hq, (hHolds q g).mpr hqh⟩
  case wgot => exact wgot
  case gwr => exact gwr
  case ringv => exact ringv
  case gveq => exact gveq
  case sp => exact sp
  case sc =>
    intro h1
    have hsc := sc h1
    have hc0 : c = 0 := by omega
    subst hc0
    rw [hph] at hsc
    show (match Function.update s.consPh 0 (.ctick2 t) 0 with
      | .ctick g => g + 1 = s.tail ∧ (∀ u < g, s.gotVal u ≠ none) ∧
          s.outputs 0 = outList s g
      | .ctick2 g => g + 1 = s.tail ∧ (∀ u < g, s.gotVal u ≠ none) ∧
          s.outputs 0 = outList s g
      | _ => (∀ u < s.tail, s.gotVal u ≠ none) ∧ s.outputs 0 = outList s s.tail)
    rw [Function.update_same]
    exact hsc
  case acct => exact acct

/-- Preservation of the invariant by the reservation clear of `Get`. -/
theorem inv_getClear (cfg : Cfg) (s : QState) (c t : Nat)
    (hc : c < cfg.nCons) (hph : s.consPh c = .cread t) (hinv : Inv cfg s) :
    Inv cfg { s with consPh := Function.update s.consPh c .idle,
                     consRes := Function.update s.consRes c none } := by
  obtain ⟨pidle, presv, ptick, ptick2, pwrote, pdisj, pvhigh, pcover, pwlt,
    cidle, ccresv, cctick, cctick2, ccread, cdisj, gvhigh, ccover, wgot, gwr,
    ringv, gveq, sp, sc, acct⟩ := hinv
  obtain ⟨hlt, hgv, hres⟩ := ccread c t hph
  have hHolds : ∀ q g, cHolds { s with
      consPh := Function.update s.consPh c .idle,
      consRes := Function.update s.consRes c none } q g → cHolds s q g := by
    intro q g hh
    have hh2 : Function.update s.consPh c .idle q = .ctick g ∨
        Function.update s.consPh c .idle q = .ctick2 g := hh
    by_cases hq : q = c
    · subst hq
      rw [Function.update_same] at hh2
      rcases hh2 with hw | hw <;> exact absurd hw (by simp)
    · rw [Function.update_noteq hq] at hh2
      exact hh2
  constructor <;> dsimp only
  case pidle => exact pidle
  case presv => exact presv
  case ptick => exact ptick
  case ptick2 => exact ptick2
  case pwrote => exact pwrote
  case pdisj => exact pdisj
  case pvhigh => exact pvhigh
  case pcover => exact pcover
  case pwlt => exact pwlt
  case cidle =>
    intro q hphq
    by_cases hqc : q = c
    · subst hqc
      show Function.update s.consRes q none q = none
      rw [Function.update_same]
    · have hphq2 : Function.update s.consPh c .idle q = .idle := hphq
      rw [Function.update_noteq hqc] at hphq2
      show Function.update s.consRes c none q = none
      rw [Function.update_noteq hqc]
      exact cidle q hphq2
  case ccresv =>
    intro q hphq
    have hphq2 : Function.update s.consPh c .idle q = .cresv := hphq
    by_cases hqc : q = c
    · subst hqc
      rw [Function.update_same] at hphq2
      exact absurd hphq2 (by simp)
    · rw [Function.update_noteq hqc] at hphq2
      obtain ⟨r1, hr1, hr1le⟩ := ccresv q hphq2
      exact ⟨r1, by
        show Function.update s.consRes c none q = some r1
        rw [Function.update_noteq hqc]
        exact hr1, hr1le⟩
  case cctick =>
    intro q g hphq
    have hphq2 : Function.update s.consPh c .idle q = .ctick g := hphq
    by_cases hqc : q = c
    · subst hqc
      rw [Function.update_same] at hphq2
      exact absurd hphq2 (by simp)
    · rw [Function.update_noteq hqc] at hphq2
      obtain ⟨h1, h2, r1, hr1, hr1le⟩ := cctick q g hphq2
      exact ⟨h1, h2, r1, by
        show Function.update s.consRes c none q = some r1
        rw [Function.update_noteq hqc]
        exact hr1, hr1le⟩
  case cctick2 =>
    intro q g hphq
    have hphq2 : Function.update s.consPh c .idle q = .ctick2 g := hphq
    by_cases hqc : q = c
    · subst hqc
      rw [Function.update_same] at hphq2
      exact absurd hphq2 (by simp)
    · rw [Function.update_noteq hqc] at hphq2
      obtain ⟨h1, h2, h3⟩ := cctick2 q g hphq2
      exact ⟨h1, h2, by
        show Function.update s.consRes c none q = some g
        rw [Function.update_noteq hqc]
        exact h3⟩
  case ccread =>
    intro q g hphq
    have hphq2 : Function.update s.consPh c .idle q = .cread g := hphq
    by_cases hqc : q = c
    · subst hqc
      rw [Function.update_same] at hphq2
      exact absurd hphq2 (by simp)
    · rw [Function.update_noteq hqc] at hphq2
      obtain ⟨h1, h2, h3⟩ := ccread q g hphq2
      exact ⟨h1, h2, by
        show Function.update s.consRes c none q = some g
        rw [Function.update_noteq hqc]
        exact h3⟩
  case cdisj =>
    intro q q' g hne hq hq'
    exact cdisj q q' g hne (hHolds q g hq) (hHolds q' g hq')
  case gvhigh => exact gvhigh
  case ccover =>
    intro g hg
    rcases ccover g hg with hw | ⟨q, hq, hqh⟩
    · exact Or.inl hw
    · by_cases hqc : q = c
      · subst hqc
        rcases hqh with hw | hw <;> rw [hph] at hw <;>
          exact absurd hw (by simp)
      · refine Or.inr ⟨q, hq, ?_⟩
        have hqh2 : s.consPh q = .ctick g ∨ s.consPh q = .ctick2 g := hqh
        show Function.update s.consPh c .idle q = .ctick g ∨
            Function.update s.consPh c .idle q = .ctick2 g
        rw [Function.update_noteq hqc]
        exact hqh2
  case wgot => exact wgot
  case gwr => exact gwr
  case ringv => exact ringv
  case gveq => exact gveq
  case sp => exact sp
  case sc =>
    intro h1
    have hsc := sc h1
    have hc0 : c = 0 := by omega
    subst hc0
    rw [hph] at hsc
    show (match Function.update s.consPh 0 .idle 0 with
      | .ctick g => g + 1 = s.tail ∧ (∀ u < g, s.gotVal u ≠ none) ∧
          s.outputs 0 = outList s g
      | .ctick2 g => g + 1 = s.tail ∧ (∀ u < g, s.gotVal u ≠ none) ∧
          s.outputs 0 = outList s g
      | _ => (∀ u < s.tail, s.gotVal u ≠ none) ∧ s.outputs 0 = outList s s.tail)
    rw [Function.update_same]
    exact hsc
  case acct => exact acct

end Mpmc

namespace Mpmc

/-- Distinct tickets in the same ring slot are at least a ring length
apart. -/
theorem mod_gap (q a b : Nat) (hm : a % q = b % q) (hlt : b < a) :
    b + q ≤ a := by
  have ha := Nat.div_add_mod a q
  have hb := Nat.div_add_mod b q
  have hdiv : b / q + 1 ≤ a / q := by
    by_contra hc
    have hc2 : a / q ≤ b / q := by omega
    have h3 := Nat.mul_le_mul_left q hc2
    omega
  have h2 := Nat.mul_le_mul_left q hdiv
  rw [Nat.mul_add, Nat.mul_one] at h2
  omega

/-- Preservation of the invariant by the guarded ring write of `Put`. -/
theorem inv_putWrite (cfg : Cfg) (s : QState) (p v h : Nat)
    (hp : p < cfg.nProd) (hph : s.prodPh p = .tick2 v h)
    (hg : putGuard cfg s h) (hinv : Inv cfg s) :
    Inv cfg { s with prodPh := Function.update s.prodPh p (.wrote h),
                     ring := Function.update s.ring (h % cfg.qsize) v,
                     written := Function.update s.written h true } := by
  obtain ⟨pidle, presv, ptick, ptick2, pwrote, pdisj, pvhigh, pcover, pwlt,
    cidle, ccresv, cctick, cctick2, ccread, cdisj, gvhigh, ccover, wgot, gwr,
    ringv, gveq, sp, sc, acct⟩ := hinv
  obtain ⟨hlt, hpv, hwr, hres⟩ := ptick2 p v h hph
  obtain ⟨hgt, hgres⟩ := hg
  have hwr_upd : ∀ g, g ≠ h →
      Function.update s.written h true g = s.written g :=
    fun g hgh => Function.update_noteq hgh _ _
  -- every ticket at least a ring length below h is already consumed
  have hconsumed : ∀ t, t + cfg.qsize ≤ h → s.gotVal t ≠ none := by
    intro t ht
    have htl : t < s.tail := by omega
    rcases ccover t htl with hgv | ⟨q, hq, hqh⟩
    · exact hgv
    · rcases hqh with hw | hw
      · obtain ⟨_, _, r1, hr1, hr1le⟩ := cctick q t hw
        have := hgres q hq r1 hr1
        omega
      · obtain ⟨_, _, hr1⟩ := cctick2 q t hw
        have := hgres q hq t hr1
        omega
  have hHolds : ∀ q g, pHolds { s with
      prodPh := Function.update s.prodPh p (.wrote h),
      ring := Function.update s.ring (h % cfg.qsize) v,
      written := Function.update s.written h true } q g →
      q ≠ p ∧ pHolds s q g := by
    intro q g hh
    have hh2 : (∃ w, Function.update s.prodPh p (.wrote h) q = .tick w g) ∨
        (∃ w, Function.update s.prodPh p (.wrote h) q = .tick2 w g) := hh
    by_cases hq : q = p
    · subst hq
      rw [Function.update_same] at hh2
      rcases hh2 with ⟨w, hw⟩ | ⟨w, hw⟩ <;> exact absurd hw (by simp)
    · rw [Function.update_noteq hq] at hh2
      exact ⟨hq, hh2⟩
  -- a ticket held by another producer is not h
  have hother : ∀ q g, q ≠ p → pHolds s q g → g ≠ h := by
    intro q g hq hqh hgh
    rw [hgh] at hqh
    exact pdisj p q h (fun he => hq he.symm) (Or.inr ⟨v, hph⟩) hqh
  constructor <;> dsimp only
  case pidle =>
    intro q hphq
    have hphq2 : Function.update s.prodPh p (.wrote h) q = .idle := hphq
    by_cases hqp : q = p
    · subst hqp
      rw [Function.update_same] at hphq2
      exact absurd hphq2 (by simp)
    · rw [Function.update_noteq hqp] at hphq2
      exact pidle q hphq2
  case presv =>
    intro q w hphq
    have hphq2 : Function.update s.prodPh p (.wrote h) q = .resv w := hphq
    by_cases hqp : q = p
    · subst hqp
      rw [Function.update_same] at hphq2
      exact absurd hphq2 (by simp)
    · rw [Function.update_noteq hqp] at hphq2
      exact presv q w hphq2
  case ptick =>
    intro q w g hphq
    have hphq2 : Function.update s.prodPh p (.wrote h) q = .tick w g := hphq
    by_cases hqp : q = p
    · subst hqp
      rw [Function.update_same] at hphq2
      exact absurd hphq2 (by simp)
    · rw [Function.update_noteq hqp] at hphq2
      obtain ⟨h1, h2, h3, r1, hr1, hr1le⟩ := ptick q w g hphq2
      have hgh : g ≠ h := hother q g hqp (Or.inl ⟨w, hphq2⟩)
      exact ⟨h1, h2, by rw [hwr_upd g hgh]; exact h3, r1, hr1, hr1le⟩
  case ptick2 =>
    intro q w g hphq
    have hphq2 : Function.update s.prodPh p (.wrote h) q = .tick2 w g := hphq
    by_cases hqp : q = p
    · subst hqp
      rw [Function.update_same] at hphq2
      exact absurd hphq2 (by simp)
    · rw [Function.update_noteq hqp] at hphq2
      obtain ⟨h1, h2, h3, h4⟩ := ptick2 q w g hphq2
      have hgh : g ≠ h := hother q g hqp (Or.inr ⟨w, hphq2⟩)
      exact ⟨h1, h2, by rw [hwr_upd g hgh]; exact h3, h4⟩
  case pwrote =>
    intro q g hphq
    have hphq2 : Function.update s.prodPh p (.wrote h) q = .wrote g := hphq
    by_cases hqp : q = p
    · subst hqp
      rw [Function.update_same] at hphq2
      have hinj := hphq2
      simp only [PPhase.wrote.injEq] at hinj
      subst hinj
      exact ⟨hlt, Function.update_same _ _ _, hres⟩
    · rw [Function.update_noteq hqp] at hphq2
      obtain ⟨h1, h2, h3⟩ := pwrote q g hphq2
      refine ⟨h1, ?_, h3⟩
      by_cases hgh : g = h
      · subst hgh
        rw [h2] at hwr
        exact absurd hwr (by simp)
      · rw [hwr_upd g hgh]
        exact h2
  case pdisj =>
    intro q q' g hne hq hq'
    exact pdisj q q' g hne (hHolds q g hq).2 (hHolds q' g hq').2
  case pvhigh =>
    intro g hgge
    have hg2 : s.head ≤ g := hgge
    refine ⟨(pvhigh g hg2).1, ?_⟩
    rw [hwr_upd g (by omega)]
    exact (pvhigh g hg2).2
  case pcover =>
    intro g hgl
    by_cases hgh : g = h
    · subst hgh
      exact Or.inl (Function.update_same _ _ _)
    · rcases pcover g hgl with hw | ⟨q, hq, hqh⟩
      · exact Or.inl (by rw [hwr_upd g hgh]; exact hw)
      · by_cases hqp : q = p
        · subst hqp
          rcases hqh with ⟨w, hw⟩ | ⟨w, hw⟩ <;> rw [hph] at hw
          · exact absurd hw (by simp)
          · have hw2 := hw
            simp only [PPhase.tick2.injEq] at hw2
            exact absurd hw2.2.symm hgh
        · refine Or.inr ⟨q, hq, ?_⟩
          have hqh2 : (∃ w, s.prodPh q = .tick w g) ∨
              (∃ w, s.prodPh q = .tick2 w g) := hqh
          show (∃ w, Function.update s.prodPh p (.wrote h) q = .tick w g) ∨
              (∃ w, Function.update s.prodPh p (.wrote h) q = .tick2 w g)
          rw [Function.update_noteq hqp]
          exact hqh2
  case pwlt =>
    intro g hwg
    by_cases hgh : g = h
    · subst hgh
      exact hlt
    · rw [hwr_upd g hgh] at hwg
      exact pwlt g hwg
  case cidle => exact cidle
  case ccresv => exact ccresv
  case cctick => exact cctick
  case cctick2 => exact cctick2
  case ccread => exact ccread
  case cdisj => exact cdisj
  case gvhigh => exact gvhigh
  case ccover => exact ccover
  case wgot =>
    intro g hwg t ht
    by_cases hgh : g = h
    · subst hgh
      exact hconsumed t ht
    · rw [hwr_upd g hgh] at hwg
      exact wgot g hwg t ht
  case gwr =>
    intro t hgv g hgle
    by_cases hgh : g = h
    · subst hgh
      exact Function.update_same _ _ _
    · rw [hwr_upd g hgh]
      exact gwr t hgv g hgle
  case ringv =>
    intro g hwg hmax
    by_cases hgh : g = h
    · subst hgh
      show some (Function.update s.ring (g % cfg.qsize) v (g % cfg.qsize)) =
        s.putVal g
      rw [Function.update_same, hpv]
    · rw [hwr_upd g hgh] at hwg
      by_cases hslot : g % cfg.qsize = h % cfg.qsize
      · -- h and g share a slot and g was written before h: impossible
        have hgle : h ≤ g := hmax h (Function.update_same _ _ _) hslot.symm
        have hglt : h < g := by omega
        have hgap := mod_gap cfg.qsize g h hslot hglt
        have := wgot g hwg h (by omega)
        have hwrh := gwr h this h (le_refl h)
        rw [hwrh] at hwr
        exact absurd hwr (by simp)
      · show some (Function.update s.ring (h % cfg.qsize) v (g % cfg.qsize)) =
          s.putVal g
        rw [Function.update_noteq hslot]
        refine ringv g hwg ?_
        intro g' hwg' hslot'
        exact hmax g' (by
          show Function.update s.written h true g' = true
          by_cases hg'h : g' = h
          · subst hg'h
            exact Function.update_same _ _ _
          · rw [hwr_upd g' hg'h]
            exact hwg') hslot'
  case gveq => exact gveq
  case sp =>
    intro h1
    obtain ⟨sp1, sp2⟩ := sp h1
    have hp0 : p = 0 := by omega
    subst hp0
    rw [hph] at sp2
    refine ⟨sp1, ?_⟩
    show (match Function.update s.prodPh 0 (.wrote h) 0 with
      | .resv w => s.inputs 0 = (cfg.origInputs 0).drop (s.head + 1) ∧
          (cfg.origInputs 0)[s.head]? = some w
      | _ => s.inputs 0 = (cfg.origInputs 0).drop s.head)
    rw [Function.update_same]
    exact sp2
  case sc => exact sc
  case acct =>
    show assignedVals s +
      (Finset.range cfg.nProd).sum
        (fun q => inflightP (Function.update s.prodPh p (.wrote h) q)) +
      (Finset.range cfg.nProd).sum
        (fun q => ((s.inputs q : List Nat) : Multiset Nat)) = _
    rw [update_comp inflightP s.prodPh p (.wrote h)]
    have e1 := sum_update_fun (fun q => inflightP (s.prodPh q)) cfg.nProd p hp
      (inflightP (.wrote h))
    rw [hph] at e1
    rw [show inflightP (.tick2 v h) = (0 : Multiset Nat) from rfl,
      show inflightP (.wrote h) = (0 : Multiset Nat) from rfl,
      add_zero, add_zero] at e1
    rw [show inflightP (PPhase.wrote h) = (0 : Multiset Nat) from rfl]
    rw [e1]
    exact acct

end Mpmc

namespace Mpmc

/-- Preservation of the invariant by the guarded ring read of `Get`: the
read value is exactly the value put with the same ticket. -/
theorem inv_getRead (cfg : Cfg) (s : QState) (c t : Nat)
    (hc : c < cfg.nCons) (hph : s.consPh c = .ctick2 t)
    (hg : getGuard cfg s t) (hinv : Inv cfg s) :
    Inv cfg { s with consPh := Function.update s.consPh c (.cread t),
                     outputs := Function.update s.outputs c
                       (s.outputs c ++ [s.ring (t % cfg.qsize)]),
                     gotVal := Function.update s.gotVal t
                       (some (s.ring (t % cfg.qsize))) } := by
  obtain ⟨pidle, presv, ptick, ptick2, pwrote, pdisj, pvhigh, pcover, pwlt,
    cidle, ccresv, cctick, cctick2, ccread, cdisj, gvhigh, ccover, wgot, gwr,
    ringv, gveq, sp, sc, acct⟩ := hinv
  obtain ⟨htl, hgv, hcres⟩ := cctick2 c t hph
  obtain ⟨hgt, hgres⟩ := hg
  have hgv_ne : ∀ u, u ≠ t →
      Function.update s.gotVal t (some (s.ring (t % cfg.qsize))) u =
        s.gotVal u :=
    fun u hu => Function.update_noteq hu _ _
  have hall : ∀ g ≤ t, s.written g = true := by
    intro g hgle
    rcases pcover g (by omega) with hw | ⟨q, hq, hqh⟩
    · exact hw
    · rcases hqh with ⟨w, hw⟩ | ⟨w, hw⟩
      · obtain ⟨_, _, _, r1, hr1, hr1le⟩ := ptick q w g hw
        have := hgres q hq r1 hr1
        omega
      · obtain ⟨_, _, _, hr1⟩ := ptick2 q w g hw
        have := hgres q hq g hr1
        omega
  have hmax : ∀ g, s.written g = true → g % cfg.qsize = t % cfg.qsize →
      g ≤ t := by
    intro g hwg hslot
    by_contra hc2
    have hglt : t < g := by omega
    have hgap := mod_gap cfg.qsize g t hslot hglt
    have := wgot g hwg t (by omega)
    exact this hgv
  have hread : some (s.ring (t % cfg.qsize)) = s.putVal t :=
    ringv t (hall t (le_refl t)) hmax
  have hHolds : ∀ q g, cHolds { s with
      consPh := Function.update s.consPh c (.cread t),
      outputs := Function.update s.outputs c
        (s.outputs c ++ [s.ring (t % cfg.qsize)]),
      gotVal := Function.update s.gotVal t
        (some (s.ring (t % cfg.qsize))) } q g → q ≠ c ∧ cHolds s q g := by
    intro q g hh
    have hh2 : Function.update s.consPh c (.cread t) q = .ctick g ∨
        Function.update s.consPh c (.cread t) q = .ctick2 g := hh
    by_cases hq : q = c
    · subst hq
      rw [Function.update_same] at hh2
      rcases hh2 with hw | hw <;> exact absurd hw (by simp)
    · rw [Function.update_noteq hq] at hh2
      exact ⟨hq, hh2⟩
  have hotherc : ∀ q g, q ≠ c → cHolds s q g → g ≠ t := by
    intro q g hq hqh hgt2
    rw [hgt2] at hqh
    exact cdisj c q t (fun he => hq he.symm) (Or.inr hph) hqh
  constructor <;> dsimp only
  case pidle => exact pidle
  case presv => exact presv
  case ptick => exact ptick
  case ptick2 => exact ptick2
  case pwrote => exact pwrote
  case pdisj => exact pdisj
  case pvhigh => exact pvhigh
  case pcover => exact pcover
  case pwlt => exact pwlt
  case cidle =>
    intro q hphq
    have hphq2 : Function.update s.consPh c (.cread t) q = .idle := hphq
    by_cases hqc : q = c
    · subst hqc
      rw [Function.update_same] at hphq2
      exact absurd hphq2 (by simp)
    · rw [Function.update_noteq hqc] at hphq2
      exact cidle q hphq2
  case ccresv =>
    intro q hphq
    have hphq2 : Function.update s.consPh c (.cread t) q = .cresv := hphq
    by_cases hqc : q = c
    · subst hqc
      rw [Function.update_same] at hphq2
      exact absurd hphq2 (by simp)
    · rw [Function.update_noteq hqc] at hphq2
      exact ccresv q hphq2
  case cctick =>
    intro q g hphq
    have hphq2 : Function.update s.consPh c (.cread t) q = .ctick g := hphq
    by_cases hqc : q = c
    · subst hqc
      rw [Function.update_same] at hphq2
      exact absurd hphq2 (by simp)
    · rw [Function.update_noteq hqc] at hphq2
      obtain ⟨h1, h2, r1, hr1, hr1le⟩ := cctick q g hphq2
      have hgne : g ≠ t := hotherc q g hqc (Or.inl hphq2)
      exact ⟨h1, by rw [hgv_ne g hgne]; exact h2, r1, hr1, hr1le⟩
  case cctick2 =>
    intro q g hphq
    have hphq2 : Function.update s.consPh c (.cread t) q = .ctick2 g := hphq
    by_cases hqc : q = c
    · subst hqc
      rw [Function.update_same] at hphq2
      exact absurd hphq2 (by simp)
    · rw [Function.update_noteq hqc] at hphq2
      obtain ⟨h1, h2, h3⟩ := cctick2 q g hphq2
      have hgne : g ≠ t := hotherc q g hqc (Or.inr hphq2)
      exact ⟨h1, by rw [hgv_ne g hgne]; exact h2, h3⟩
  case ccread =>
    intro q g hphq
    have hphq2 : Function.update s.consPh c (.cread t) q = .cread g := hphq
    by_cases hqc : q = c
    · subst hqc
      rw [Function.update_same] at hphq2
      have hinj := hphq2
      simp only [CPhase.cread.injEq] at hinj
      subst hinj
      refine ⟨htl, ?_, hcres⟩
      rw [Function.update_same]
      exact Option.some_ne_none _
    · rw [Function.update_noteq hqc] at hphq2
      obtain ⟨h1, h2, h3⟩ := ccread q g hphq2
      refine ⟨h1, ?_, h3⟩
      by_cases hgt2 : g = t
      · subst hgt2
        rw [Function.update_same]
        exact Option.some_ne_none _
      · rw [hgv_ne g hgt2]
        exact h2
  case cdisj =>
    intro q q' g hne hq hq'
    exact cdisj q q' g hne (hHolds q g hq).2 (hHolds q' g hq').2
  case gvhigh =>
    intro u hu
    have hu2 : s.tail ≤ u := hu
    rw [hgv_ne u (by omega)]
    exact gvhigh u hu2
  case ccover =>
    intro g hgl
    by_cases hgt2 : g = t
    · subst hgt2
      refine Or.inl ?_
      rw [Function.update_same]
      exact Option.some_ne_none _
    · rcases ccover g hgl with hne | ⟨q, hq, hqh⟩
      · exact Or.inl (by rw [hgv_ne g hgt2]; exact hne)
      · by_cases hqc : q = c
        · subst hqc
          rcases hqh with hw | hw <;> rw [hph] at hw
          · exact absurd hw (by simp)
          · have hw2 := hw
            simp only [CPhase.ctick2.injEq] at hw2
            exact absurd hw2.symm hgt2
        · refine Or.inr ⟨q, hq, ?_⟩
          have hqh2 : s.consPh q = .ctick g ∨ s.consPh q = .ctick2 g := hqh
          show Function.update s.consPh c (.cread t) q = .ctick g ∨
              Function.update s.consPh c (.cread t) q = .ctick2 g
          rw [Function.update_noteq hqc]
          exact hqh2
  case wgot =>
    intro g hwg u hu
    by_cases hut : u = t
    · subst hut
      rw [Function.update_same]
      exact Option.some_ne_none _
    · rw [hgv_ne u hut]
      exact wgot g hwg u hu
  case gwr =>
    intro u hne g hgle
    by_cases hut : u = t
    · subst hut
      exact hall g hgle
    · rw [hgv_ne u hut] at hne
      exact gwr u hne g hgle
  case ringv => exact ringv
  case gveq =>
    intro u w hgu
    by_cases hut : u = t
    · subst hut
      rw [Function.update_same] at hgu
      rw [← hread]
      rw [← hgu]
    · rw [hgv_ne u hut] at hgu
      exact gveq u w hgu
  case sp => exact sp
  case sc =>
    intro h1
    have hsc := sc h1
    have hc0 : c = 0 := by omega
    subst hc0
    rw [hph] at hsc
    obtain ⟨ht1, hlt2, hout⟩ := hsc
    show (match Function.update s.consPh 0 (.cread t) 0 with
      | .ctick g => g + 1 = s.tail ∧
          (∀ u < g, Function.update s.gotVal t
            (some (s.ring (t % cfg.qsize))) u ≠ none) ∧
          Function.update s.outputs 0
            (s.outputs 0 ++ [s.ring (t % cfg.qsize)]) 0 =
            outList { s with
              consPh := Function.update s.consPh 0 (.cread t),
              outputs := Function.update s.outputs 0
                (s.outputs 0 ++ [s.ring (t % cfg.qsize)]),
              gotVal := Function.update s.gotVal t
                (some (s.ring (t % cfg.qsize))) } g
      | .ctick2 g => g + 1 = s.tail ∧
          (∀ u < g, Function.update s.gotVal t
            (some (s.ring (t % cfg.qsize))) u ≠ none) ∧
          Function.update s.outputs 0
            (s.outputs 0 ++ [s.ring (t % cfg.qsize)]) 0 =
            outList { s with
              consPh := Function.update s.consPh 0 (.cread t),
              outputs := Function.update s.outputs 0
                (s.outputs 0 ++ [s.ring (t % cfg.qsize)]),
              gotVal := Function.update s.gotVal t
                (some (s.ring (t % cfg.qsize))) } g
      | _ => (∀ u < s.tail, Function.update s.gotVal t
            (some (s.ring (t % cfg.qsize))) u ≠ none) ∧
          Function.update s.outputs 0
            (s.outputs 0 ++ [s.ring (t % cfg.qsize)]) 0 =
            outList { s with
              consPh := Function.update s.consPh 0 (.cread t),
              outputs := Function.update s.outputs 0
                (s.outputs 0 ++ [s.ring (t % cfg.qsize)]),
              gotVal := Function.update s.gotVal t
                (some (s.ring (t % cfg.qsize))) } s.tail)
    rw [Function.update_same]
    constructor
    · intro u hu
      by_cases hut : u = t
      · subst hut
        rw [Function.update_same]
        exact Option.some_ne_none _
      · rw [hgv_ne u hut]
        exact hlt2 u (by omega)
    · rw [Function.update_same]
      show s.outputs 0 ++ [s.ring (t % cfg.qsize)] =
        (List.range s.tail).map (fun u =>
          (Function.update s.gotVal t
            (some (s.ring (t % cfg.qsize))) u).getD 0)
      rw [← ht1, List.range_succ, List.map_append]
      rw [List.map_congr_left (l := List.range t)
        (g := fun u => (s.gotVal u).getD 0)
        (fun u hu => by
          rw [hgv_ne u (by have := List.mem_range.mp hu; omega)])]
      rw [show List.map (fun u => (Function.update s.gotVal t
          (some (s.ring (t % cfg.qsize))) u).getD 0) [t] =
          [s.ring (t % cfg.qsize)] from by
        rw [List.map_singleton, Function.update_same]
        rfl]
      rw [hout]
      rfl
  case acct => exact acct

end Mpmc

namespace Mpmc

/-- The invariant is preserved by every step. -/
theorem inv_step (cfg : Cfg) {s s' : QState} (hstep : Step cfg s s')
    (hinv : Inv cfg s) : Inv cfg s' := by
  cases hstep with
  | putReserve p v r rest hp hph hin hr =>
    exact inv_putReserve cfg s p v r rest hp hph hin hr hinv
  | putTicket p v hp hph => exact inv_putTicket cfg s p v hp hph hinv
  | putPublish p v h hp hph => exact inv_putPublish cfg s p v h hp hph hinv
  | putWrite p v h hp hph hg => exact inv_putWrite cfg s p v h hp hph hg hinv
  | putClear p h hp hph => exact inv_putClear cfg s p h hp hph hinv
  | getReserve c r hc hph hr => exact inv_getReserve cfg s c r hc hph hr hinv
  | getTicket c hc hph => exact inv_getTicket cfg s c hc hph hinv
  | getPublish c t hc hph => exact inv_getPublish cfg s c t hc hph hinv
  | getRead c t hc hph hg => exact inv_getRead cfg s c t hc hph hg hinv
  | getClear c t hc hph => exact inv_getClear cfg s c t hc hph hinv

/-- The invariant holds in every reachable state. -/
theorem inv_reach (cfg : Cfg) {s : QState} (h : Reach cfg s) : Inv cfg s := by
  induction h with
  | init => exact inv_init cfg
  | step hr hs ih => exact inv_step cfg hs ih

/-- Single-producer single-consumer: the delivered items are a prefix of
the inserted items, in order. -/
theorem spsc_in_order (cfg : Cfg) (s : QState) (hinv : Inv cfg s)
    (hprod : cfg.nProd = 1) (hcons : cfg.nCons = 1) :
    s.outputs 0 <+: cfg.origInputs 0 := by
  obtain ⟨m, hmn, hout⟩ : ∃ m, (∀ u < m, s.gotVal u ≠ none) ∧
      s.outputs 0 = outList s m := by
    have hsc := hinv.sc hcons
    cases hph : s.consPh 0 with
    | idle =>
      rw [hph] at hsc
      exact ⟨s.tail, hsc.1, hsc.2⟩
    | cresv =>
      rw [hph] at hsc
      exact ⟨s.tail, hsc.1, hsc.2⟩
    | ctick t =>
      rw [hph] at hsc
      exact ⟨t, hsc.2.1, hsc.2.2⟩
    | ctick2 t =>
      rw [hph] at hsc
      exact ⟨t, hsc.2.1, hsc.2.2⟩
    | cread t =>
      rw [hph] at hsc
      exact ⟨s.tail, hsc.1, hsc.2⟩
  have hval : ∀ u, u < m → (cfg.origInputs 0)[u]? = s.gotVal u := by
    intro u hu
    cases hgu : s.gotVal u with
    | none => exact absurd hgu (hmn u hu)
    | some w =>
      have hpv := hinv.gveq u w hgu
      have hwr := hinv.gwr u (by rw [hgu]; exact Option.some_ne_none w) u
        (le_refl u)
      have hlt := hinv.pwlt u hwr
      have hsp := (hinv.sp hprod).1 u hlt
      rw [← hsp, hpv]
  have hmlen : m ≤ (cfg.origInputs 0).length := by
    by_contra hcl
    have hl : (cfg.origInputs 0).length < m := by omega
    have h2 := hval (cfg.origInputs 0).length hl
    rw [List.getElem?_eq_none (le_refl _)] at h2
    exact hmn _ hl h2.symm
  rw [hout]
  have htake : outList s m = (cfg.origInputs 0).take m := by
    apply List.ext_getElem
    · show ((List.range m).map fun u => (s.gotVal u).getD 0).length = _
      rw [List.length_map, List.length_range, List.length_take]
      omega
    · intro i h1 h2
      show ((List.range m).map fun u => (s.gotVal u).getD 0)[i] = _
      have h1m : i < m := by
        have h3 := h1
        simp only [outList, List.length_map, List.length_range] at h3
        exact h3
      rw [List.getElem_map, List.getElem_range, List.getElem_take]
      have h4 := hval i h1m
      cases hgu : s.gotVal i with
      | none => exact absurd hgu (hmn i h1m)
      | some w =>
        rw [List.getElem?_eq_getElem (by omega)] at h4
        rw [hgu] at h4
        exact (Option.some.inj h4).symm
  rw [htake]
  exact List.take_prefix m _

/-- Single consumer, drained queue: the multiset of delivered items equals
the multiset of all inserted items. -/
theorem mpsc_drained (cfg : Cfg) (s : QState) (hinv : Inv cfg s)
    (hcons : cfg.nCons = 1)
    (hpidle : ∀ p < cfg.nProd, s.prodPh p = .idle)
    (hpin : ∀ p < cfg.nProd, s.inputs p = [])
    (hcidle : s.consPh 0 = .idle)
    (hdrained : s.tail = s.head) :
    ((s.outputs 0 : List Nat) : Multiset Nat) =
      (Finset.range cfg.nProd).sum
        (fun p => ((cfg.origInputs p : List Nat) : Multiset Nat)) := by
  have hsc := hinv.sc hcons
  rw [hcidle] at hsc
  obtain ⟨hnn, hout⟩ := hsc
  have hlist : outList s s.tail = (List.range s.head).map
      (fun h => (s.putVal h).getD 0) := by
    rw [hdrained]
    apply List.map_congr_left
    intro u hu
    have hum : u < s.head := List.mem_range.mp hu
    cases hgu : s.gotVal u with
    | none => exact absurd hgu (hnn u (by omega))
    | some w => rw [hinv.gveq u w hgu]
  have hacct := hinv.acct
  have hinf : (Finset.range cfg.nProd).sum
      (fun p => inflightP (s.prodPh p)) = 0 := by
    apply Finset.sum_eq_zero
    intro p hp
    rw [hpidle p (Finset.mem_range.mp hp)]
    rfl
  have hpend : (Finset.range cfg.nProd).sum
      (fun p => ((s.inputs p : List Nat) : Multiset Nat)) = 0 := by
    apply Finset.sum_eq_zero
    intro p hp
    rw [hpin p (Finset.mem_range.mp hp)]
    rfl
  rw [hinf, hpend, add_zero, add_zero] at hacct
  rw [hout, hlist]
  exact hacct

end Mpmc

namespace Mpmc

/-- The demonstration run: one full `Put` of `42` followed by one full
`Get`, ending drained and idle. -/
theorem demo_reach : Reach demoCfg demoS10 :=
  .step (.step (.step (.step (.step (.step (.step (.step (.step (.step
    .init
    (.putReserve demoS0 0 42 0 [] Nat.one_pos rfl rfl (Nat.le_refl 0)))
    (.putTicket demoS1 0 42 Nat.one_pos rfl))
    (.putPublish demoS2 0 42 0 Nat.one_pos rfl))
    (.putWrite demoS3 0 42 0 Nat.one_pos rfl
      ⟨by decide, fun c hc r hr => Option.noConfusion hr⟩))
    (.putClear demoS4 0 0 Nat.one_pos rfl))
    (.getReserve demoS5 0 0 Nat.one_pos rfl (Nat.le_refl 0)))
    (.getTicket demoS6 0 Nat.one_pos rfl))
    (.getPublish demoS7 0 0 Nat.one_pos rfl))
    (.getRead demoS8 0 0 Nat.one_pos rfl
      ⟨by decide, fun p hp r hr => by
        have hp0 : p = 0 := by
          have h1 : Mpmc.demoCfg.nProd = 1 := rfl
          omega
        subst hp0
        have hr2 : (none : Option Nat) = some r := hr
        exact Option.noConfusion hr2⟩))
    (.getClear demoS9 0 0 Nat.one_pos rfl)

end Mpmc

/-- Claim C6: in the sequentially consistent interleaving model of the
lock-free bounded queue, with one producer and one consumer the items
delivered by `Get` in any reachable state form a prefix of the items fed to
`Put` — they emerge in insertion order; and with a single consumer and any
number of producers, in any reachable state where every `Put` has completed
and the queue is drained, the multiset of delivered items equals the
multiset of inserted items (nothing lost or duplicated). -/
theorem c6_lockfree_queue_fifo_and_multiset (cfg : Mpmc.Cfg)
    (s : Mpmc.QState) (hreach : Mpmc.Reach cfg s) :
    (cfg.nProd = 1 → cfg.nCons = 1 →
      s.outputs 0 <+: cfg.origInputs 0) ∧
    (cfg.nCons = 1 → (∀ p < cfg.nProd, s.prodPh p = .idle) →
      (∀ p < cfg.nProd, s.inputs p = []) → s.consPh 0 = .idle →
      s.tail = s.head →
      ((s.outputs 0 : List Nat) : Multiset Nat) =
        (Finset.range cfg.nProd).sum
          (fun p => ((cfg.origInputs p : List Nat) : Multiset Nat))) :=
  ⟨fun hp hc => Mpmc.spsc_in_order cfg s (Mpmc.inv_reach cfg hreach) hp hc,
   fun hc h1 h2 h3 h4 =>
     Mpmc.mpsc_drained cfg s (Mpmc.inv_reach cfg hreach) hc h1 h2 h3 h4⟩

/-- Witness for claim C6 at the end of the demonstration run. -/
theorem c6_lockfree_queue_fifo_and_multiset_witness :
    (Mpmc.demoCfg.nProd = 1 → Mpmc.demoCfg.nCons = 1 →
      Mpmc.demoS10.outputs 0 <+: Mpmc.demoCfg.origInputs 0) ∧
    (Mpmc.demoCfg.nCons = 1 →
      (∀ p < Mpmc.demoCfg.nProd, Mpmc.demoS10.prodPh p = .idle) →
      (∀ p < Mpmc.demoCfg.nProd, Mpmc.demoS10.inputs p = []) →
      Mpmc.demoS10.consPh 0 = .idle →
      Mpmc.demoS10.tail = Mpmc.demoS10.head →
      ((Mpmc.demoS10.outputs 0 : List Nat) : Multiset Nat) =
        (Finset.range Mpmc.demoCfg.nProd).sum
          (fun p => ((Mpmc.demoCfg.origInputs p : List Nat) :
            Multiset Nat))) :=
  c6_lockfree_queue_fifo_and_multiset Mpmc.demoCfg Mpmc.demoS10
    Mpmc.demo_reach
